import Mathlib

/-!
# pgsh: a shallow embedding of the pipeline engine and its string helpers

The C sources (`processes.c`, `pgsh.c`, `pg_string.c`, `pg_error.h`) are
translated function by function.  System calls are answered by an explicit
environment (`Env`): which calls fail, in which order children are reported
by `wait`, and the status each child reports.  C strings are lists of
characters (the bytes before the terminating NUL) and a pointer into a
string is the suffix it points at.
-/

namespace Pgsh

/-! ## pg_error.h -/

/-- The values of `enum ErrorType` (`pg_error.h`), the type of `pg_errno`. -/
inductive ErrorType
  | EOK | EUNKNOWN | ENULL | ENOTOKEN | EPARSE | EEMPTSTR | EFORK | EEXEC
  | EPIPEF | EDUP | EWAIT | EFCHLD | EOPEN | EARG | ESYNTAX | EWPERM
  | ENOFILE | ECHDIR | ENOENV
deriving DecidableEq, Repr

/-- The values of the C library `errno` that the code distinguishes. -/
inductive Errno
  | ECHILD | EINTR | EOTHER
deriving DecidableEq, Repr

/-- The constant `EXIT_FAILURE` of `stdlib.h`. -/
def EXIT_FAILURE : Nat := 1

/-- The constant `STDIN_FILENO` of `unistd.h`. -/
def STDIN_FILENO : Int := 0

/-- The constant `STDOUT_FILENO` of `unistd.h`. -/
def STDOUT_FILENO : Int := 1

/-! ## Wait statuses and the process table -/

/-- The way a child terminates: `exit(code)` (as seen by `WEXITSTATUS`) or a
signal. -/
inductive Term
  | exited (code : Nat)
  | signaled (sig : Nat)
deriving DecidableEq, Repr

/-- An `int status` as decoded by the `W*` macros of `sys/wait.h`; `other`
is a value for which none of the four tests holds. -/
inductive WStatus
  | exited (code : Nat)
  | signaled (sig : Nat)
  | stopped (sig : Nat)
  | continued
  | other
deriving DecidableEq, Repr

/-- The status word a terminated child leaves for its parent. -/
def Term.toStatus : Term → WStatus
  | .exited c => .exited c
  | .signaled s => .signaled s

/-- A child of the shell that has been forked and not yet waited for. -/
structure Child where
  pid : Nat
  stage : Nat
  st : Term
deriving DecidableEq, Repr

/-- What the scheduler answers to one `waitpid(-1, &status, WNOHANG)`. -/
inductive PollAns
  | running            -- no child has changed state: the call returns 0
  | child (k : Nat)    -- the k-th unreaped child has terminated and is reported
  | fail (e : Errno)   -- the call fails with this errno
deriving DecidableEq, Repr

/-- What the scheduler answers to one blocking `wait(&status)`. -/
inductive WaitAns
  | child (k : Nat)    -- the k-th unreaped child is the next to be reported
  | fail (e : Errno)   -- the call fails with this errno
deriving DecidableEq, Repr

/-- The environment of one run: the answers of the operating system. -/
structure Env where
  /-- does the k-th call of `pipe` succeed -/
  pipeOk : Nat → Bool
  /-- does the k-th call of `fork` succeed -/
  forkOk : Nat → Bool
  /-- how the child of the k-th `fork` terminates -/
  termOf : Nat → Term
  /-- the answer to the k-th non-blocking `waitpid` -/
  poll : Nat → PollAns
  /-- the answer to the k-th blocking `wait` -/
  block : Nat → WaitAns

/-- The system calls the parent makes, in order. -/
inductive Event
  | pipe (rd wr : Int)
  | pipeFail
  | fork (stage : Nat) (inFd outFd : Int) (pid : Nat)
  | forkFail (stage : Nat)
  | close (fd : Int)
  | waitpid (ret : Int)
  | wait (ret : Int)
deriving DecidableEq, Repr

/-- The state of the calling process and of its part of the kernel. -/
structure OS where
  /-- children forked and not yet waited for -/
  children : List Child
  /-- pids collected by a wait call, oldest first -/
  reaped : List Nat
  /-- descriptors open in the parent -/
  fds : List Int
  nPipe : Nat
  nFork : Nat
  nPoll : Nat
  nWait : Nat
  errno : Errno
  pg_errno : ErrorType
  /-- the local `int status` of `pipe_chain` -/
  status : WStatus
  trace : List Event
deriving DecidableEq, Repr

/-- How a call ends in the calling process. -/
inductive Outcome
  | ret (v : Int)       -- the function returns v
  | exit (code : Nat)   -- the process terminates through exit(code)
  | undef               -- undefined behaviour (a read outside an object)
deriving DecidableEq, Repr

/-- A process that has no child yet, with the given open descriptors; the
values of `pg_errno`, `errno` and of the uninitialised `status` are whatever
the caller left there. -/
def OS.init (fds : List Int) (pgErr : ErrorType) (err : Errno) (status0 : WStatus) : OS where
  children := []
  reaped := []
  fds := fds
  nPipe := 0
  nFork := 0
  nPoll := 0
  nWait := 0
  errno := err
  pg_errno := pgErr
  status := status0
  trace := []

/-- The lowest non-negative descriptor that is not open. -/
def lowestFree (fds : List Int) : Int :=
  match (List.range (fds.length + 1)).find? (fun k => !(fds.contains (k : Int))) with
  | some k => (k : Int)
  | none => (fds.length : Int)

/-- The call `pipe(pipeFd)`: on success the two lowest free descriptors,
read end first. -/
def sys_pipe (env : Env) (os : OS) : Option (Int × Int) × OS :=
  if env.pipeOk os.nPipe then
    let rd := lowestFree os.fds
    let wr := lowestFree (rd :: os.fds)
    (some (rd, wr),
      { os with nPipe := os.nPipe + 1, fds := wr :: rd :: os.fds,
                trace := os.trace ++ [Event.pipe rd wr] })
  else
    (none, { os with nPipe := os.nPipe + 1, trace := os.trace ++ [Event.pipeFail] })

/-- The parent side of `fork()`: on success a new child, whose process id is
the (positive) number of the fork; the child will run stage `stage` with the
given descriptors as standard input and output. -/
def sys_fork (env : Env) (stage : Nat) (inFd outFd : Int) (os : OS) : Option Nat × OS :=
  if env.forkOk os.nFork then
    let pid := os.nFork + 1
    (some pid,
      { os with nFork := os.nFork + 1,
                children := os.children ++ [⟨pid, stage, env.termOf os.nFork⟩],
                trace := os.trace ++ [Event.fork stage inFd outFd pid] })
  else
    (none, { os with nFork := os.nFork + 1, trace := os.trace ++ [Event.forkFail stage] })

/-- The call `close(fd)`. -/
def sys_close (fd : Int) (os : OS) : OS :=
  { os with fds := os.fds.erase fd, trace := os.trace ++ [Event.close fd] }

/-- The kernel collects the k-th unreaped child (counted cyclically): it
leaves the table, its status is stored in `status`. -/
def reapAt (k : Nat) (os : OS) : Option (Child × OS) :=
  match os.children.get? (k % os.children.length) with
  | none => none
  | some c =>
    some (c, { os with children := os.children.eraseIdx (k % os.children.length),
                       reaped := os.reaped ++ [c.pid],
                       status := c.st.toStatus })

/-- The call `waitpid(-1, &status, WNOHANG)`: the return value and the new
state.  With no child at all it fails with `ECHILD`. -/
def sys_waitpid_nohang (env : Env) (os : OS) : Int × OS :=
  let os1 := { os with nPoll := os.nPoll + 1 }
  if os.children = [] then
    (-1, { os1 with errno := Errno.ECHILD, trace := os.trace ++ [Event.waitpid (-1)] })
  else
    match env.poll os.nPoll with
    | .running => (0, { os1 with trace := os.trace ++ [Event.waitpid 0] })
    | .fail e => (-1, { os1 with errno := e, trace := os.trace ++ [Event.waitpid (-1)] })
    | .child k =>
      match reapAt k os1 with
      | none => (-1, { os1 with errno := Errno.ECHILD, trace := os.trace ++ [Event.waitpid (-1)] })
      | some (c, os2) => ((c.pid : Int), { os2 with trace := os.trace ++ [Event.waitpid c.pid] })

/-- The call `wait(&status)`: the return value and the new state.  With no
child at all it fails with `ECHILD` and leaves `status` as it was. -/
def sys_wait (env : Env) (os : OS) : Int × OS :=
  let os1 := { os with nWait := os.nWait + 1 }
  if os.children = [] then
    (-1, { os1 with errno := Errno.ECHILD, trace := os.trace ++ [Event.wait (-1)] })
  else
    match env.block os.nWait with
    | .fail e => (-1, { os1 with errno := e, trace := os.trace ++ [Event.wait (-1)] })
    | .child k =>
      match reapAt k os1 with
      | none => (-1, { os1 with errno := Errno.ECHILD, trace := os.trace ++ [Event.wait (-1)] })
      | some (c, os2) => ((c.pid : Int), { os2 with trace := os.trace ++ [Event.wait c.pid] })

/-! ## processes.c: pipe_chain -/

/-- A C string: the characters before the terminating NUL. -/
abbrev CStr := List Char

/-- One stage of a pipeline, a `char **`: `none` is the NULL pointer,
otherwise the argument vector. -/
abbrev Stage := Option (List CStr)

/-- The least value of a C `int`. -/
def INT_MIN : Int := -2147483648

/-- The greatest value of a C `int`. -/
def INT_MAX : Int := 2147483647

/-- The parent side of `spawn_proc(command, in, out)` for stage number
`stage`: the return value (the child's pid, or -1 with `pg_errno` set). -/
def spawn_proc (env : Env) (stage : Nat) (command : Stage) (inFd outFd : Int) (os : OS) :
    Int × OS :=
  match command with
  | none => (-1, { os with pg_errno := ErrorType.ENULL })
  | some _ =>
    match sys_fork env stage inFd outFd os with
    | (some pid, os1) => ((pid : Int), os1)
    | (none, os1) => (-1, { os1 with pg_errno := ErrorType.EFORK })

/-- How the non-blocking sweep of `pipe_chain` ends: `pipe_chain` returns
`v`, or the sweep is over with the new value of `remain_proc`. -/
inductive Sweep
  | abort (v : Int) (os : OS)
  | done (remain : Int) (os : OS)
deriving DecidableEq, Repr

/-- The inner loop `for (j=0; j<i; ++j)` of `pipe_chain`, with `m` iterations
left. -/
def sweep (env : Env) : Nat → Int → OS → Sweep
  | 0, remain, os => Sweep.done remain os
  | m + 1, remain, os =>
    match sys_waitpid_nohang env os with
    | (waitFlag, os1) =>
      if waitFlag = -1 then
        if os1.errno ≠ Errno.ECHILD then
          Sweep.abort (-1) { os1 with pg_errno := ErrorType.EWAIT }
        else sweep env m remain os1
      else if waitFlag = 0 then Sweep.done remain os1
      else
        match os1.status with
        | WStatus.exited c =>
          if c = EXIT_FAILURE then Sweep.abort (-1) { os1 with pg_errno := ErrorType.EFCHLD }
          else sweep env m (remain - 1) os1
        | _ => sweep env m (remain - 1) os1

/-- How the spawning loop of `pipe_chain` ends: the function is left with an
outcome, or the loop is over with the values of `i`, `inFd` and
`remain_proc`. -/
inductive Loop
  | stop (o : Outcome) (os : OS)
  | done (i : Nat) (inFd : Int) (remain : Int) (os : OS)
deriving DecidableEq, Repr

/-- The loop `for (i = 0; i < n - 1; ++i)` of `pipe_chain` with `k`
iterations left: a pipe, the stage `i` spawned between `inFd` and the write
end, the write end closed, the read end kept as the next input, then the
sweep. -/
def stage_loop (env : Env) (commands : List Stage) : Nat → Nat → Int → Int → OS → Loop
  | 0, i, inFd, remain, os => Loop.done i inFd remain os
  | k + 1, i, inFd, remain, os =>
    match sys_pipe env os with
    | (none, os1) => Loop.stop (Outcome.ret (-1)) { os1 with pg_errno := ErrorType.EPIPEF }
    | (some (rd, wr), os1) =>
      match commands.get? i with
      | none => Loop.stop Outcome.undef os1
      | some command =>
        match spawn_proc env i command inFd wr os1 with
        | (r, os2) =>
          if r = -1 then
            if os2.pg_errno = ErrorType.ENULL then Loop.stop (Outcome.ret (-1)) os2
            else Loop.stop (Outcome.exit EXIT_FAILURE) os2
          else
            match sweep env i remain (sys_close wr os2) with
            | Sweep.abort v os4 => Loop.stop (Outcome.ret v) os4
            | Sweep.done remain1 os4 => stage_loop env commands k (i + 1) rd remain1 os4

/-- The closing loop `for (i=0; i < remain_proc + 1; ++i)` of `pipe_chain`
with `m` iterations left; the return value of `wait` is not looked at. -/
def wait_all (env : Env) : Nat → OS → Outcome × OS
  | 0, os => (Outcome.ret 0, os)
  | m + 1, os =>
    match sys_wait env os with
    | (_, os1) =>
      match os1.status with
      | WStatus.exited c =>
        if c = EXIT_FAILURE then (Outcome.ret (-1), { os1 with pg_errno := ErrorType.EFCHLD })
        else wait_all env m os1
      | _ => wait_all env m os1

/-- The parent side of `pipe_chain(commands, n, inFd, outFd)`; `commands` is
`none` for the NULL pointer.  A signed overflow of `n - 1` or of
`remain_proc + 1` is undefined behaviour. -/
def pipe_chain (env : Env) (commands : Option (List Stage)) (n inFd outFd : Int) (os : OS) :
    Outcome × OS :=
  match commands with
  | none => (Outcome.ret (-1), { os with pg_errno := ErrorType.ENULL })
  | some cmds =>
    if inFd = STDOUT_FILENO ∨ outFd = STDIN_FILENO then
      (Outcome.ret (-1), { os with pg_errno := ErrorType.EARG })
    else if n - 1 < INT_MIN then (Outcome.undef, os)
    else
      match stage_loop env cmds (n - 1).toNat 0 inFd n os with
      | Loop.stop o os1 => (o, os1)
      | Loop.done i inFd1 remain os1 =>
        match sys_fork env i inFd1 outFd os1 with
        | (none, os2) => (Outcome.exit EXIT_FAILURE, { os2 with pg_errno := ErrorType.EFORK })
        | (some _, os2) =>
          if INT_MAX < remain + 1 then (Outcome.undef, os2)
          else wait_all env (remain + 1).toNat os2

/-- What `open` answers: a descriptor, or `none` for -1. -/
abbrev OpenAns := Option Int

/-- The parent side of `pipe_chain_r(commands, n, input, output, append)`.
`input` and `output` are `none` for NULL; `openIn` and `openOut` are the
answers of the two `open` calls, should they be made.  A descriptor that
was opened stays open, also when the function returns -1 after the second
`open` failed. -/
def pipe_chain_r (env : Env) (commands : Option (List Stage)) (n : Int)
    (input output : Option CStr) (openIn openOut : OpenAns) (os : OS) : Outcome × OS :=
  if input = none ∧ output = none then
    pipe_chain env commands n STDIN_FILENO STDOUT_FILENO os
  else
    match (if input ≠ none then openIn else some STDIN_FILENO) with
    | none => (Outcome.ret (-1), { os with pg_errno := ErrorType.EOPEN })
    | some inFd =>
      match (if output ≠ none then openOut else some STDOUT_FILENO) with
      | none =>
        (Outcome.ret (-1),
          { os with fds := (if input ≠ none then [inFd] else []) ++ os.fds,
                    pg_errno := ErrorType.EOPEN })
      | some outFd =>
        pipe_chain env commands n inFd outFd
          { os with fds := (if output ≠ none then [outFd] else []) ++
                           (if input ≠ none then [inFd] else []) ++ os.fds }

/-! ## processes.c: wait_child -/

/-- What one `waitpid(pid, &status, options)` on a single child answers:
failure (-1), or the child's pid with a status. -/
inductive WaitpidAns
  | fail
  | ok (st : WStatus)
deriving DecidableEq, Repr

/-- How a call of `wait_child` ends: it returns `v`, it blocks for ever in
`waitpid` (no further notification arrives), or it leaves the loop and
reaches the end of the function without a return statement. -/
inductive WaitEnd
  | ret (v : Int)
  | blocked
  | noReturn
deriving DecidableEq, Repr

/-- The result of `wait_child`: how it ends, `pg_errno` afterwards and the
number of `waitpid` calls made. -/
structure WaitResult where
  outcome : WaitEnd
  pg_errno : ErrorType
  calls : Nat
deriving DecidableEq, Repr

/-- The loop `while (endPID>0)` of `wait_child`, entered with `endPID > 0`;
the list holds the notifications still to come (when it is used up the next
`waitpid` never returns), `calls` counts the `waitpid` calls made so far. -/
def wait_child_loop : List WaitpidAns → ErrorType → Nat → WaitResult
  | [], pgErr, calls => ⟨WaitEnd.blocked, pgErr, calls⟩
  | WaitpidAns.fail :: _, _, calls => ⟨WaitEnd.ret (-1), ErrorType.EWAIT, calls + 1⟩
  | WaitpidAns.ok (WStatus.exited c) :: _, pgErr, calls =>
    if c = EXIT_FAILURE then ⟨WaitEnd.ret (-1), ErrorType.EFCHLD, calls + 1⟩
    else ⟨WaitEnd.ret 0, pgErr, calls + 1⟩
  | WaitpidAns.ok (WStatus.signaled _) :: _, pgErr, calls => ⟨WaitEnd.ret 0, pgErr, calls + 1⟩
  | WaitpidAns.ok (WStatus.stopped _) :: [], pgErr, calls => ⟨WaitEnd.blocked, pgErr, calls + 1⟩
  | WaitpidAns.ok (WStatus.stopped _) :: WaitpidAns.fail :: _, pgErr, calls =>
    ⟨WaitEnd.noReturn, pgErr, calls + 2⟩
  | WaitpidAns.ok (WStatus.stopped _) :: WaitpidAns.ok _ :: rest, pgErr, calls =>
    wait_child_loop rest pgErr (calls + 2)
  | WaitpidAns.ok WStatus.continued :: _, _, calls =>
    ⟨WaitEnd.ret (-1), ErrorType.EUNKNOWN, calls + 1⟩
  | WaitpidAns.ok WStatus.other :: _, _, calls =>
    ⟨WaitEnd.ret (-1), ErrorType.EUNKNOWN, calls + 1⟩

/-- The function `wait_child(pid)`; `answers` are the notifications the
kernel delivers to the successive `waitpid` calls. -/
def wait_child (pid : Int) (answers : List WaitpidAns) (pgErr : ErrorType) : WaitResult :=
  if pid ≤ 0 then ⟨WaitEnd.ret (-1), ErrorType.EARG, 0⟩
  else wait_child_loop answers pgErr 0

/-! ## pg_string.c

Every function takes non-NULL strings.  A result `none` of type `Option`
means that the C code has no defined result there: it reads outside its
argument, passes NULL to `strlen`, or does not terminate. -/

/-- The function `strcnt(str)`: the number of characters of the string. -/
def strcnt (str : CStr) : Int := (str.length : Int)

/-- The C library `strstr(haystack, needle)`: the suffix of the haystack that
starts at the first occurrence of the needle, `none` for NULL. -/
def strstr : CStr → CStr → Option CStr
  | [], needle => if needle.isPrefixOf [] then some [] else none
  | c :: h, needle => if needle.isPrefixOf (c :: h) then some (c :: h) else strstr h needle

/-- The C library `strpbrk(s, accept)`: the suffix of `s` that starts at its
first character found in `accept`, `none` for NULL. -/
def strpbrk : CStr → CStr → Option CStr
  | [], _ => none
  | c :: s, accept => if accept.contains c then some (c :: s) else strpbrk s accept

/-- The function `skip_delim(str, delim)`: the loop looks at one character
at a time (`tmp_str` holds it) and advances while it belongs to `delim`. -/
def skip_delim : CStr → CStr → Nat
  | [], _ => 0
  | c :: s, delim => if (strpbrk [c] delim).isSome then skip_delim s delim + 1 else 0

/-- The loop of `strskp`: `tmp_str` holds the next `strcnt(skstr)` characters
of `str` (fewer at the end of the string); while it contains `skstr` the
pointer advances by that many characters.  `none` when the fuel is used up
(the loop of the C code does not end, which happens for an empty `skstr`). -/
def strskp_loop (skstr : CStr) : Nat → CStr → Nat → Option Nat
  | 0, _, _ => none
  | fuel + 1, str, offset =>
    match strstr (str.take skstr.length) skstr with
    | some _ => strskp_loop skstr fuel (str.drop skstr.length) (offset + skstr.length)
    | none => some offset

/-- The function `strskp(str, skstr)`: the number of characters skipped. -/
def strskp (str skstr : CStr) : Option Nat :=
  strskp_loop skstr (str.length + 1) str 0

/-- The loop `while ((substr = strstr(substr, dmstr)) != NULL)` of
`stoken_counter`: the value of `counter` when it ends. -/
def stoken_loop (dmstr : CStr) : Nat → CStr → Int → Option Int
  | 0, _, _ => none
  | fuel + 1, substr, counter =>
    match strstr substr dmstr with
    | none => some counter
    | some p =>
      match strskp p dmstr with
      | none => none
      | some skip => stoken_loop dmstr fuel (p.drop skip) (counter + 1)

/-- The function `stoken_counter(str, dmstr)`.  The closing test reads from
`str + (strcnt(str) - strcnt(dmstr) - 1)`; when that offset is negative the
pointer lies before the string and the result is undefined. -/
def stoken_counter (str dmstr : CStr) : Option Int :=
  if str = [] then some 0
  else
    match strskp str dmstr with
    | none => none
    | some skip =>
      match stoken_loop dmstr (str.length + 1) (str.drop skip) 0 with
      | none => none
      | some counter =>
        if strcnt str - strcnt dmstr - 1 < 0 then none
        else if (strstr (str.drop (strcnt str - strcnt dmstr - 1).toNat) dmstr).isSome then
          some (counter - 1 + 1)
        else some (counter + 1)

/-- The function `sstrtok(str, dmstr)`.  `str` is `none` for a NULL argument
(a subsequent call); `endPtr` is the static pointer of the function, `none`
for NULL, otherwise the string it points at.  The result is the returned
token (`none` for NULL) and the new value of `endPtr`. -/
def sstrtok (str : Option CStr) (dmstr : CStr) (endPtr : Option CStr) :
    Option (Option CStr × Option CStr) :=
  let start : Option (Option CStr) :=
    match str with
    | none =>
      match endPtr with
      | none => some none
      | some [] => some none
      | some (c :: e) => some (some (c :: e))
    | some s =>
      match strskp s dmstr with
      | none => none
      | some skip => some (some (s.drop skip))
  match start with
  | none => none
  | some none => some (none, endPtr)
  | some (some startPtr) =>
    match strstr startPtr dmstr with
    | none => some (some startPtr, none)
    | some e =>
      match strskp e dmstr with
      | none => none
      | some skip =>
        some (some (startPtr.take (startPtr.length - e.length)),
          some (match e.drop skip with
                | '\n' :: _ => []
                | next => next))

/-- The loop `for(i=1 ; i<token_number ; ++i)` of `stokenize`, with `k`
tokens still to copy; a NULL token is passed to `strlen`. -/
def stokenize_rest (dmstr : CStr) : Nat → Option CStr → Option (List CStr)
  | 0, _ => some []
  | k + 1, endPtr =>
    match sstrtok none dmstr endPtr with
    | none => none
    | some (none, _) => none
    | some (some tok, endPtr1) =>
      match stokenize_rest dmstr k endPtr1 with
      | none => none
      | some toks => some (tok :: toks)

/-- The closing step of `stokenize` and `ctokenize` on the last token: a
final `'\n'` is replaced by the terminator; for an empty token the character
at index -1 is read. -/
def strip_newline (tok : CStr) : Option CStr :=
  match tok.getLast? with
  | none => none
  | some c => if c = '\n' then some tok.dropLast else some tok

/-- The closing step applied to the last of the tokens. -/
def strip_last (toks : List CStr) : Option (List CStr) :=
  match toks.getLast? with
  | none => none
  | some last =>
    match strip_newline last with
    | none => none
    | some last1 => some (toks.dropLast ++ [last1])

/-- The function `stokenize(str, dmstr)`: `some none` is the NULL result,
`some (some toks)` the array of tokens. -/
def stokenize (str dmstr : CStr) : Option (Option (List CStr)) :=
  match stoken_counter str dmstr with
  | none => none
  | some token_number =>
    if token_number = 0 then some none
    else
      match sstrtok (some str) dmstr none with
      | none => none
      | some (none, _) => none
      | some (some tok0, endPtr) =>
        match stokenize_rest dmstr (token_number.toNat - 1) endPtr with
        | none => none
        | some toks =>
          match strip_last (tok0 :: toks) with
          | none => none
          | some res => some (some res)

/-- The C library `strtok(str, delim)`, a set of delimiter characters.  `s`
is the string scanned (the argument on a first call, the saved pointer on a
subsequent one); the result is the token and the new saved pointer, `none`
when `strtok` returns NULL. -/
def strtok (s delim : CStr) : Option (CStr × CStr) :=
  match s.dropWhile (fun c => delim.contains c) with
  | [] => none
  | c :: t =>
    some ((c :: t).takeWhile (fun x => !delim.contains x),
          ((c :: t).dropWhile (fun x => !delim.contains x)).drop 1)

/-- The loop `while( (substr = strpbrk(substr, delim)) != NULL)` of
`ctoken_counter`: the value of `counter` when it ends. -/
def ctoken_loop (delim : CStr) : Nat → CStr → Int → Option Int
  | 0, _, _ => none
  | fuel + 1, substr, counter =>
    match strpbrk substr delim with
    | none => some counter
    | some p => ctoken_loop delim fuel (p.drop (skip_delim p delim)) (counter + 1)

/-- The function `ctoken_counter(str, delim)`.  The closing test reads from
the last character, or from the one before it when the last is `'\n'`; for
the string `"\n"` that pointer lies before the string. -/
def ctoken_counter (str delim : CStr) : Option Int :=
  if str = [] then some 0
  else
    match ctoken_loop delim (str.length + 1) (str.drop (skip_delim str delim)) 0 with
    | none => none
    | some counter =>
      if strcnt str - 1 - (if str.getLast? = some '\n' then 1 else 0) < 0 then none
      else if (strpbrk
          (str.drop (strcnt str - 1 - (if str.getLast? = some '\n' then 1 else 0)).toNat)
          delim).isSome then
        some (counter - 1 + 1)
      else some (counter + 1)

/-- The loop `for(i=1 ; i<token_number ; ++i)` of `ctokenize`, with `k`
tokens still to copy; a NULL token is passed to `strlen`. -/
def ctokenize_rest (delim : CStr) : Nat → CStr → Option (List CStr)
  | 0, _ => some []
  | k + 1, saved =>
    match strtok saved delim with
    | none => none
    | some (tok, saved1) =>
      match ctokenize_rest delim k saved1 with
      | none => none
      | some toks => some (tok :: toks)

/-- The function `ctokenize(str, delim)`: `some none` is the NULL result,
`some (some toks)` the array of tokens. -/
def ctokenize (str delim : CStr) : Option (Option (List CStr)) :=
  match ctoken_counter str delim with
  | none => none
  | some token_number =>
    if token_number = 0 then some none
    else
      match ctokenize_rest delim token_number.toNat str with
      | none => none
      | some toks =>
        match strip_last toks with
        | none => none
        | some res => some (some res)

/-! ## pgsh.c: the redirection resolver -/

/-- The value `REDIN` of `enum RedirectType`. -/
def REDIN : Int := 0

/-- The value `REDOUT` of `enum RedirectType`. -/
def REDOUT : Int := 1

/-- The value `REDOUTA` of `enum RedirectType`. -/
def REDOUTA : Int := 2

/-- The first `switch` of `pipe_redirect_filename`: the symbol searched and
the index of the eligible stage, `none` for the `default` branch. -/
def redirect_target (tokens : Int) (redirection : Int) : Option (CStr × Int) :=
  if redirection = REDIN then some (['<'], 0)
  else if redirection = REDOUT then some (['>'], tokens - 1)
  else if redirection = REDOUTA then some (['>', '>'], tokens - 1)
  else none

/-- What `pipe_redirect_filename` leaves: the returned file name (`none` for
NULL), `pg_errno`, and the array of stage strings. -/
structure Resolved where
  fname : Option CStr
  pg_errno : ErrorType
  pipe_tokens : List CStr
deriving DecidableEq, Repr

/-- The function `pipe_redirect_filename(pipe_tokens, tokens, redirection)`,
entered with `pg_errno = pgErr`.  An index outside the array and a NULL
array from `ctokenize` (dereferenced by `redirect_tkn[0]`) are undefined. -/
def pipe_redirect_filename (pipe_tokens : List CStr) (tokens : Int) (redirection : Int)
    (pgErr : ErrorType) : Option Resolved :=
  match redirect_target tokens redirection with
  | none => some ⟨none, ErrorType.EARG, pipe_tokens⟩
  | some (redirSymbol, index) =>
    if index < 0 then none
    else
      match pipe_tokens.get? index.toNat with
      | none => none
      | some stage =>
        match stoken_counter stage redirSymbol with
        | none => none
        | some count =>
          if count = 1 then some ⟨none, ErrorType.EOK, pipe_tokens⟩
          else if count = 2 then
            match stokenize stage redirSymbol with
            | some (some (tok0 :: tok1 :: _)) =>
              match ctokenize tok1 [' '] with
              | some (some (fname :: _)) =>
                some ⟨some fname, pgErr, pipe_tokens.set index.toNat (stage.take tok0.length)⟩
              | _ => none
            | _ => none
          else if count = -1 then some ⟨none, ErrorType.EOK, pipe_tokens⟩
          else some ⟨none, ErrorType.ESYNTAX, pipe_tokens⟩

/-! ## pgsh.c: the redirection scan of a single command -/

/-- The function `check_redirect_symb(string)`. -/
def check_redirect_symb (string : CStr) : Int :=
  if (strstr string ['<']).isSome then REDIN
  else if (strstr string ['>', '>']).isSome then REDOUTA
  else if (strstr string ['>']).isSome then REDOUT
  else -1

/-- The variables the redirection scan of `handle_cmd_line` works on: the
array `redirect_cmd` (an entry is `none` once set to NULL), the two file
names and the append flag. -/
structure Scan where
  redirect_cmd : List (Option CStr)
  input : Option CStr
  output : Option CStr
  append : Int
deriving DecidableEq, Repr

/-- The loop `while (skip >= 0)` of `handle_cmd_line`.  Reading an entry
outside the array, or passing a NULL entry to `strstr`, is undefined. -/
def scan_loop (cmd_tkn_cnt : Int) : Nat → Int → Scan → Option Scan
  | 0, skip, st => if skip < 0 then some st else none
  | fuel + 1, skip, st =>
    if skip < 0 then some st
    else if cmd_tkn_cnt - 2 - skip < 0 then none
    else
      match st.redirect_cmd.get? (cmd_tkn_cnt - 2 - skip).toNat with
      | some (some symb) =>
        if check_redirect_symb symb = REDIN then
          match st.redirect_cmd.get? (cmd_tkn_cnt - 1 - skip).toNat with
          | none => none
          | some fname =>
            scan_loop cmd_tkn_cnt fuel (skip - 2)
              { st with input := fname,
                        redirect_cmd := st.redirect_cmd.set (cmd_tkn_cnt - 2 - skip).toNat none }
        else if check_redirect_symb symb = REDOUTA then
          match st.redirect_cmd.get? (cmd_tkn_cnt - 1 - skip).toNat with
          | none => none
          | some fname =>
            scan_loop cmd_tkn_cnt fuel (skip - 2)
              { st with output := fname,
                        redirect_cmd := st.redirect_cmd.set (cmd_tkn_cnt - 2 - skip).toNat none }
        else if check_redirect_symb symb = REDOUT then
          match st.redirect_cmd.get? (cmd_tkn_cnt - 1 - skip).toNat with
          | none => none
          | some fname =>
            scan_loop cmd_tkn_cnt fuel (skip - 2)
              { st with output := fname, append := 0,
                        redirect_cmd := st.redirect_cmd.set (cmd_tkn_cnt - 2 - skip).toNat none }
        else scan_loop cmd_tkn_cnt fuel (skip - 2) st
      | _ => none

/-- The redirection scan of `handle_cmd_line` for a command without pipe:
the choice of `skip` from the number of tokens, then the loop, entered with
`input = output = NULL` and `append = 1`. -/
def redirect_scan (redirect_cmd : List (Option CStr)) (cmd_tkn_cnt : Int) : Option Scan :=
  scan_loop cmd_tkn_cnt 2
    (if cmd_tkn_cnt ≥ 5 then 2 else if cmd_tkn_cnt ≥ 3 then 0 else -1)
    ⟨redirect_cmd, none, none, 1⟩

/-- The argument vector a NULL-terminated array stands for: its entries
before the first NULL. -/
def argv_of : List (Option CStr) → List CStr
  | some a :: rest => a :: argv_of rest
  | _ => []

/-- The array `ctokenize` builds from its tokens: the tokens and the closing
NULL. -/
def token_array (tokens : List CStr) : List (Option CStr) :=
  tokens.map some ++ [none]

/-! ## pgsh.c: special commands -/

/-- The value `NOSP` of `enum SpecialCmd`. -/
def NOSP : Int := 0

/-- The value `SPEXIT` of `enum SpecialCmd`. -/
def SPEXIT : Int := 1

/-- The value `SPCD` of `enum SpecialCmd`. -/
def SPCD : Int := 2

/-- The function `special_cmd_id(cmd)`, entered with `pg_errno = pgErr`: the
return value and `pg_errno` afterwards.  `cmd` is `none` for NULL.  The
tests are `strstr("exit", cmd)` and `strstr("cd", cmd)`: the command word is
the needle. -/
def special_cmd_id (cmd : Option CStr) (pgErr : ErrorType) : Int × ErrorType :=
  match cmd with
  | none => (-1, ErrorType.ENULL)
  | some [] => (-1, ErrorType.EEMPTSTR)
  | some (c :: s) =>
    if (strstr ['e', 'x', 'i', 't'] (c :: s)).isSome then (SPEXIT, pgErr)
    else if (strstr ['c', 'd'] (c :: s)).isSome then (SPCD, pgErr)
    else (NOSP, pgErr)

/-- What the environment answers to a change of directory: whether `HOME` is
set and whether `chdir` succeeds. -/
structure DirAns where
  homeSet : Bool
  chdirOk : Bool
deriving DecidableEq, Repr

/-- The function `chdir_home()`. -/
def chdir_home (d : DirAns) (pgErr : ErrorType) : Int × ErrorType :=
  if d.homeSet = false then (-1, ErrorType.ENOENV)
  else if d.chdirOk = false then (-1, ErrorType.ECHDIR)
  else (0, pgErr)

/-- The function `shell_chdir(cmd)`; `cmd` is `none` for NULL, otherwise the
entries of the array before its closing NULL. -/
def shell_chdir (d : DirAns) (cmd : Option (List CStr)) (pgErr : ErrorType) : Int × ErrorType :=
  match cmd with
  | none => (-1, ErrorType.ENULL)
  | some [] => (0, pgErr)
  | some [_] =>
    if (chdir_home d pgErr).1 = 0 then (0, (chdir_home d pgErr).2)
    else (-1, (chdir_home d pgErr).2)
  | some (_ :: path :: _) =>
    if (strstr ['~'] path).isSome then
      if (chdir_home d pgErr).1 = 0 then (0, (chdir_home d pgErr).2)
      else (-1, (chdir_home d pgErr).2)
    else if d.chdirOk = false then (-1, ErrorType.ECHDIR)
    else (0, pgErr)

/-! ## pgsh.c: the redirections of a pipeline -/

/-- How the redirection part of the pipeline path of `handle_cmd_line` ends:
`handle_cmd_line` returns -1, or the file names, the append flag and the
stage strings are set.  `consulted` is the list of the redirection kinds
that were passed to `pipe_redirect_filename`, in the order of the calls, as
`consult` recorded them. -/
inductive Resolution
  | fail (pg_errno : ErrorType) (consulted : List Int)
  | ok (input output : Option CStr) (append : Int) (pipe_tokens : List CStr)
      (pg_errno : ErrorType) (consulted : List Int)
deriving DecidableEq, Repr

/-- The redirection kinds consulted. -/
def Resolution.consulted : Resolution → List Int
  | Resolution.fail _ l => l
  | Resolution.ok _ _ _ _ _ l => l

/-- Whether a NULL result of `pipe_redirect_filename` makes `handle_cmd_line`
return -1: the cases `EARG` and `ESYNTAX` of its `switch (pg_errno)`. -/
def resolver_failed (r : Resolved) : Bool :=
  r.fname = none ∧ (r.pg_errno = ErrorType.EARG ∨ r.pg_errno = ErrorType.ESYNTAX)

/-- One call `pipe_redirect_filename(pipe_tokens, pipe_token_cnt,
redirection)` made by `handle_cmd_line`.  Next to the result of the call it
returns the list of the kinds consulted so far, extended by the kind
`redirection` that this very call passes. -/
def consult (consulted : List Int) (pipe_tokens : List CStr) (pipe_token_cnt : Int)
    (redirection : Int) (pgErr : ErrorType) : Option (Resolved × List Int) :=
  match pipe_redirect_filename pipe_tokens pipe_token_cnt redirection pgErr with
  | none => none
  | some r => some (r, consulted ++ [redirection])

/-- The lines of `handle_cmd_line` that resolve the redirections of a
pipeline: input first, then output with append, then, if that one was not
found, output without append (`append` is then set to 0).  Every call of
`pipe_redirect_filename` goes through `consult`, so the list of the kinds
consulted is made of the arguments of the calls. -/
def resolve_pipeline (pipe_tokens : List CStr) (pipe_token_cnt : Int) (pgErr : ErrorType) :
    Option Resolution :=
  match consult [] pipe_tokens pipe_token_cnt REDIN pgErr with
  | none => none
  | some (r1, c1) =>
    if resolver_failed r1 then some (Resolution.fail r1.pg_errno c1)
    else
      match consult c1 r1.pipe_tokens pipe_token_cnt REDOUTA r1.pg_errno with
      | none => none
      | some (r2, c2) =>
        match r2.fname with
        | some out =>
          some (Resolution.ok r1.fname (some out) 1 r2.pipe_tokens r2.pg_errno c2)
        | none =>
          if r2.pg_errno = ErrorType.EOK then
            match consult c2 r2.pipe_tokens pipe_token_cnt REDOUT r2.pg_errno with
            | none => none
            | some (r3, c3) =>
              if resolver_failed r3 then some (Resolution.fail r3.pg_errno c3)
              else some (Resolution.ok r1.fname r3.fname 0 r3.pipe_tokens r3.pg_errno c3)
          else if r2.pg_errno = ErrorType.EARG ∨ r2.pg_errno = ErrorType.ESYNTAX then
            some (Resolution.fail r2.pg_errno c2)
          else
            some (Resolution.ok r1.fname none 1 r2.pipe_tokens r2.pg_errno c2)

/-! ## processes.c: the child side of the spawning functions -/

/-- What the system answers inside a freshly forked child: whether the
`dup2` onto standard input and the one onto standard output succeed, and
whether `execvp` replaces the image. -/
structure ChildAns where
  dupIn : Bool
  dupOut : Bool
  execOk : Bool
deriving DecidableEq, Repr

/-- How the code run by the child ends: the image is replaced, the process
terminates through `exit`, or the function returns `v` to its caller,
inside the child. -/
inductive ChildEnd
  | exec
  | exit (code : Nat)
  | returned (v : Int) (pg_errno : ErrorType)
deriving DecidableEq, Repr

/-- The child side of `create_child(args)`. -/
def create_child_child (a : ChildAns) : ChildEnd :=
  if a.execOk then ChildEnd.exec else ChildEnd.exit EXIT_FAILURE

/-- The child side of `create_child_r`, given the value `redirect` returned
to it. -/
def create_child_r_child (redirect_status : Int) (a : ChildAns) : ChildEnd :=
  if redirect_status < 0 then ChildEnd.exit EXIT_FAILURE
  else if a.execOk then ChildEnd.exec
  else ChildEnd.exit EXIT_FAILURE

/-- The child side of `spawn_proc(command, in, out)`. -/
def spawn_proc_child (inFd outFd : Int) (a : ChildAns) : ChildEnd :=
  if inFd ≠ 0 ∧ a.dupIn = false then ChildEnd.returned (-1) ErrorType.EDUP
  else if outFd ≠ 1 ∧ a.dupOut = false then ChildEnd.returned (-1) ErrorType.EDUP
  else if a.execOk then ChildEnd.exec
  else ChildEnd.returned (-1) ErrorType.EEXEC

/-- The child of a stage spawned in the loop of `pipe_chain`: what happens
after `spawn_proc` in that child. -/
def pipe_chain_stage_child (inFd outFd : Int) (a : ChildAns) : ChildEnd :=
  match spawn_proc_child inFd outFd a with
  | ChildEnd.returned v e =>
    if v = -1 then
      if e = ErrorType.ENULL then ChildEnd.returned (-1) e
      else ChildEnd.exit EXIT_FAILURE
    else ChildEnd.returned v e
  | other => other

/-- The child of the last stage, forked by `pipe_chain` itself: the branch
`(pid = fork()) == 0`. -/
def pipe_chain_last_child (inFd _outFd : Int) (a : ChildAns) : ChildEnd :=
  if inFd ≠ 0 ∧ a.dupIn = false then ChildEnd.returned (-1) ErrorType.EDUP
  else if a.dupOut = false then ChildEnd.returned (-1) ErrorType.EDUP
  else if a.execOk then ChildEnd.exec
  else ChildEnd.exit EXIT_FAILURE

/-- The parent side of `create_child(args)` and of `create_child_r`: the pid
of the child, or -1 with `pg_errno = EFORK`. -/
def create_child (env : Env) (os : OS) : Int × OS :=
  match sys_fork env 0 STDIN_FILENO STDOUT_FILENO os with
  | (some pid, os1) => ((pid : Int), os1)
  | (none, os1) => (-1, { os1 with pg_errno := ErrorType.EFORK })

/-! ## pg_file.c: redirect -/

/-- The flags of an `open` call of `redirect`: `O_RDONLY`, or
`O_WRONLY | O_CREAT` with `O_APPEND` or with `O_TRUNC`. -/
inductive OpenMode
  | rdonly
  | wrAppend
  | wrTrunc
deriving DecidableEq, Repr

/-- What an open descriptor refers to: what descriptor `fd` referred to when
`redirect` was entered, or a file opened since. -/
inductive FileRef
  | inherited (fd : Int)
  | file (path : CStr) (mode : OpenMode)
deriving DecidableEq, Repr

/-- The descriptor table of a process: the open descriptors and what each
refers to. -/
abbrev FdTable := List (Int × FileRef)

/-- What the system answers to the calls of `redirect` (a call the kernel
cannot serve, such as a `dup` of a closed descriptor, fails whatever the
answer). -/
structure FileAns where
  openIn : Bool
  dupIn : Bool
  dupBack : Bool
  openOut : Bool
  dupOut : Bool
deriving DecidableEq, Repr

/-- The call `open(path, flags)`: the lowest free descriptor. -/
def fd_open (ok : Bool) (path : CStr) (mode : OpenMode) (t : FdTable) : Option (Int × FdTable) :=
  if ok then
    some (lowestFree (t.map Prod.fst),
      (lowestFree (t.map Prod.fst), FileRef.file path mode) :: t)
  else none

/-- The call `close(fd)`. -/
def fd_close (fd : Int) (t : FdTable) : FdTable :=
  t.filter (fun e => e.1 ≠ fd)

/-- The call `dup2(oldfd, newfd)`. -/
def fd_dup2 (ok : Bool) (oldfd newfd : Int) (t : FdTable) : Option FdTable :=
  if ok then
    match t.lookup oldfd with
    | none => none
    | some r => if oldfd = newfd then some t else some ((newfd, r) :: fd_close newfd t)
  else none

/-- The call `dup(oldfd)`: the lowest free descriptor. -/
def fd_dup (ok : Bool) (oldfd : Int) (t : FdTable) : Option (Int × FdTable) :=
  if ok then
    match t.lookup oldfd with
    | none => none
    | some r => some (lowestFree (t.map Prod.fst), (lowestFree (t.map Prod.fst), r) :: t)
  else none

/-- What `redirect` leaves: its return value, `pg_errno` and the descriptor
table. -/
structure Redirected where
  ret : Int
  pg_errno : ErrorType
  table : FdTable
deriving DecidableEq, Repr

/-- The second half of `redirect`: the backup of standard output, then the
output file. -/
def redirect_output (a : FileAns) (output : Option CStr) (append : Int) (pgErr : ErrorType)
    (t : FdTable) : Redirected :=
  match fd_dup a.dupBack STDOUT_FILENO t with
  | none => ⟨-2, pgErr, t⟩
  | some (backOutFd, t1) =>
    match output with
    | none => ⟨backOutFd, pgErr, t1⟩
    | some path =>
      match fd_open a.openOut path (if append ≠ 0 then OpenMode.wrAppend else OpenMode.wrTrunc)
          t1 with
      | none => ⟨-1, pgErr, t1⟩
      | some (outFd, t2) =>
        match fd_dup2 a.dupOut outFd STDOUT_FILENO t2 with
        | none => ⟨-2, pgErr, t2⟩
        | some t3 => ⟨backOutFd, pgErr, fd_close outFd t3⟩

/-- The function `redirect(input, output, append)`, entered with
`pg_errno = pgErr`; `input` and `output` are `none` for NULL. -/
def redirect (a : FileAns) (input output : Option CStr) (append : Int) (pgErr : ErrorType)
    (t : FdTable) : Redirected :=
  if input = none ∧ output = none then ⟨-1, ErrorType.ENULL, t⟩
  else
    match input with
    | none => redirect_output a output append pgErr t
    | some path =>
      match fd_open a.openIn path OpenMode.rdonly t with
      | none => ⟨-1, ErrorType.EOPEN, t⟩
      | some (inFd, t1) =>
        match fd_dup2 a.dupIn inFd STDIN_FILENO t1 with
        | none => ⟨-1, ErrorType.EDUP, t1⟩
        | some t2 => redirect_output a output append pgErr (fd_close inFd t2)

/-! ## pgsh.c: handle_cmd_line -/

/-- What the environment answers while one command line is handled. -/
structure Shell where
  env : Env
  openIn : OpenAns
  openOut : OpenAns
  dir : DirAns
  /-- the notifications delivered to `wait_child` -/
  waits : List WaitpidAns

/-- How `handle_cmd_line` ends: it returns `v`, the process terminates
through `exit`, the behaviour is undefined, or it blocks for ever in a wait
call. -/
inductive CmdEnd
  | ret (v : Int)
  | exit (code : Nat)
  | undef
  | blocked
deriving DecidableEq, Repr

/-- The end of the single-command path of `handle_cmd_line`: the child is
created (`create_child`, or `create_child_r` when a file name was found),
`wait_child` is called and its return value dropped, then the
`switch (pg_errno)`. -/
def run_single (sh : Shell) (os : OS) : CmdEnd × OS :=
  match create_child sh.env os with
  | (childPid, os1) =>
    match wait_child childPid sh.waits os1.pg_errno with
    | ⟨WaitEnd.blocked, _, _⟩ => (CmdEnd.blocked, os1)
    | ⟨_, pgErr, _⟩ =>
      if pgErr = ErrorType.EFCHLD ∨ pgErr = ErrorType.EWAIT ∨ pgErr = ErrorType.EARG ∨
          pgErr = ErrorType.EUNKNOWN then
        (CmdEnd.ret (-1), { os1 with pg_errno := ErrorType.EOK })
      else (CmdEnd.ret NOSP, { os1 with pg_errno := pgErr })

/-- The special-command `switch` of `handle_cmd_line`: `some` result when
the function returns there, `none` when it goes on (`NOSP`), with
`pg_errno` afterwards. -/
def special_switch (d : DirAns) (cmd : List CStr) (pgErr : ErrorType) :
    Option Int × ErrorType :=
  match special_cmd_id cmd.head? pgErr with
  | (id, e) =>
    if id = SPEXIT then (some SPEXIT, e)
    else if id = SPCD then
      if (shell_chdir d (some cmd) e).1 = -1 then (some (-1), (shell_chdir d (some cmd) e).2)
      else (some SPCD, (shell_chdir d (some cmd) e).2)
    else if id = -1 then (some (-1), e)
    else (none, e)

/-- The argument vectors of the stages: `ctokenize(pipe_tokens[i], " ")` for
each stage string; `none` when one of the calls has no defined result. -/
def tokenize_stages : List CStr → Option (List Stage)
  | [] => some []
  | t :: ts =>
    match ctokenize t [' '], tokenize_stages ts with
    | some stage, some stages => some (stage :: stages)
    | _, _ => none

/-- The function `handle_cmd_line(cmd_line)`. -/
def handle_cmd_line (sh : Shell) (cmd_line : CStr) (os : OS) : CmdEnd × OS :=
  match ctoken_counter cmd_line ['|'] with
  | none => (CmdEnd.undef, os)
  | some pipe_token_cnt =>
    if pipe_token_cnt > 1 then
      match ctokenize cmd_line ['|'] with
      | some (some pipe_tokens) =>
        match resolve_pipeline pipe_tokens pipe_token_cnt os.pg_errno with
        | none => (CmdEnd.undef, os)
        | some (Resolution.fail e _) => (CmdEnd.ret (-1), { os with pg_errno := e })
        | some (Resolution.ok input output _append pipe_tokens1 e _) =>
          match tokenize_stages pipe_tokens1 with
          | some (some (cmd :: args) :: stages) =>
            match special_switch sh.dir (cmd :: args) e with
            | (some v, e1) => (CmdEnd.ret v, { os with pg_errno := e1 })
            | (none, e1) =>
              match pipe_chain_r sh.env (some (some (cmd :: args) :: stages)) pipe_token_cnt
                  input output sh.openIn sh.openOut { os with pg_errno := e1 } with
              | (Outcome.ret v, os1) =>
                if v = -1 then (CmdEnd.ret (-1), os1) else (CmdEnd.ret NOSP, os1)
              | (Outcome.exit c, os1) => (CmdEnd.exit c, os1)
              | (Outcome.undef, os1) => (CmdEnd.undef, os1)
          | _ => (CmdEnd.undef, os)
      | _ => (CmdEnd.undef, os)
    else
      match ctoken_counter cmd_line [' '] with
      | none => (CmdEnd.undef, os)
      | some cmd_tkn_cnt =>
        if cmd_tkn_cnt < 1 then (CmdEnd.ret (-1), os)
        else
          match ctokenize cmd_line [' '] with
          | some (some (cmd :: args)) =>
            match special_switch sh.dir (cmd :: args) os.pg_errno with
            | (some v, e1) => (CmdEnd.ret v, { os with pg_errno := e1 })
            | (none, e1) =>
              match redirect_scan (token_array (cmd :: args)) cmd_tkn_cnt with
              | none => (CmdEnd.undef, os)
              | some _ => run_single sh { os with pg_errno := e1 }
          | _ => (CmdEnd.undef, os)


/-! ## pg_string.c: char_counter and strepclean -/

/-- The function `char_counter(str, character)`; `str` is `none` for NULL. -/
def char_counter (str : Option CStr) (character : Char) : Int :=
  match str with
  | none => -1
  | some s => (s.count character : Int)

/-- The inner `do ... while (dirty_str[i] != dirt && dirty_str[i] != 0)` loop
of `strepclean`, which copies `dirty_str[i]` to `clean_str[j]` and advances
both indices; it is entered at a character of the string.  The result is
the characters copied, and the string from the new `i` on. -/
def strepclean_copy (dirt : Char) : CStr → CStr × CStr
  | [] => ([], [])
  | c :: rest =>
    match rest with
    | [] => ([c], [])
    | d :: _ =>
      if d = dirt then ([c], rest)
      else ((c :: (strepclean_copy dirt rest).1), (strepclean_copy dirt rest).2)

/-- The loop `while (dirty_str[i] != 0)` of `strepclean`.  `prev` is the
character `dirty_str[i-1]` (`none` at `i = 0`), `rest` the string from `i`
on, `clean` the characters written so far (`j` is their number).  The result
is the content of `clean_str` and the final `j`: when the string ends while
the flag is set, the terminator itself is copied and counted.  A read of
`dirty_str[-1]` is undefined. -/
def strepclean_loop (dirt : Char) : Nat → Option Char → CStr → Bool → CStr → Option (CStr × Nat)
  | 0, _, _, _, _ => none
  | _ + 1, _, [], _, clean => some (clean, clean.length)
  | fuel + 1, prev, c :: rest, flag, clean =>
    if c = dirt then strepclean_loop dirt fuel (some c) rest (!flag) clean
    else
      match (if flag then prev.map (fun p => clean ++ [p]) else some clean) with
      | none => none
      | some clean1 =>
        match strepclean_copy dirt (c :: rest) with
        | (copied, []) =>
          if !flag then some (clean1 ++ copied, (clean1 ++ copied).length)
          else some (clean1 ++ copied, (clean1 ++ copied).length + 1)
        | (copied, d :: rest1) =>
          strepclean_loop dirt fuel (some d) rest1 (!flag)
            (if !flag then clean1 ++ copied else clean1 ++ copied ++ [d])

/-- What `strepclean` returns: NULL, its argument itself, or a new string
with the given content. -/
inductive Cleaned
  | null
  | itself
  | fresh (content : CStr)
deriving DecidableEq, Repr

/-- The function `strepclean(dirty_str, dirt)`, entered with
`pg_errno = pgErr`; `dirty_str` is `none` for NULL.  The test
`dirty_str == 0` that follows the NULL test compares the pointer again and
is never true.  The buffer holds `strlen(dirty_str) + 1` bytes: a final `j`
beyond `strlen(dirty_str)` is a write outside it. -/
def strepclean (dirty_str : Option CStr) (dirt : Char) (pgErr : ErrorType) :
    Option (Cleaned × ErrorType) :=
  match dirty_str with
  | none => some (Cleaned.null, ErrorType.ENULL)
  | some s =>
    if Int.tmod (char_counter (some s) dirt) 2 = 1 then some (Cleaned.null, ErrorType.EPARSE)
    else if char_counter (some s) dirt = 0 then some (Cleaned.itself, pgErr)
    else
      match strepclean_loop dirt (s.length + 1) none s false [] with
      | none => none
      | some (clean, j) => if j ≤ s.length then some (Cleaned.fresh clean, pgErr) else none

/-! ## Notions used to state the properties -/

/-- A child that terminates with `exit(EXIT_FAILURE)`. -/
def Child.failed (c : Child) : Prop := c.st = Term.exited EXIT_FAILURE

instance (c : Child) : Decidable c.failed := by unfold Child.failed; infer_instance

/-- The loop invariant of `pipe_chain` after `i` stages have been spawned,
the first fork of the call being fork number `f0`. -/
structure ChainInv (env : Env) (f0 : Nat) (n : Int) (i : Nat) (remain : Int) (os : OS) :
    Prop where
  nFork : os.nFork = f0 + i
  remain : remain = n - (i : Int) + (os.children.length : Int)
  len : os.children.length ≤ i
  pid : ∀ c ∈ os.children, 0 < c.pid
  sound : ∀ c ∈ os.children, c.failed →
    ∃ j, j < i ∧ env.termOf (f0 + j) = Term.exited EXIT_FAILURE
  complete : ∀ j, j < i → env.termOf (f0 + j) = Term.exited EXIT_FAILURE →
    ∃ c ∈ os.children, c.failed

/-- Every character of the string is `c`. -/
def AllC (c : Char) (u : CStr) : Prop := ∀ x ∈ u, x = c

/-- The string does not start with the character `c`. -/
def NoHead (c : Char) (r : CStr) : Prop := ∀ x, r.head? = some x → x ≠ c

/-- The pieces joined by the symbol: `t0 sym t1 sym ... tm`. -/
def joinSym (sym : CStr) : List CStr → CStr
  | [] => []
  | [t] => t
  | t :: t1 :: ts => t ++ sym ++ joinSym sym (t1 :: ts)

/-- Every piece is non-empty and free of the character `c`. -/
def Pieces (c : Char) (ts : List CStr) : Prop := ∀ t ∈ ts, t ≠ [] ∧ c ∉ t

/-- The number of maximal runs of delimiter characters in a string; `prev`
tells whether the character before the string is a delimiter. -/
def delimRuns (delim : CStr) : Bool → CStr → Nat
  | _, [] => 0
  | prev, c :: s =>
    if delim.contains c then (if prev then 0 else 1) + delimRuns delim true s
    else delimRuns delim false s

/-- The number of maximal runs of non-delimiter characters (the words) that
start in a string; `inWord` tells whether the character before the string
belongs to a word. -/
def countWords (delim : CStr) : Bool → CStr → Nat
  | _, [] => 0
  | inWord, c :: s =>
    if delim.contains c then countWords delim false s
    else (if inWord then 0 else 1) + countWords delim true s

/-- Whether the last character of the string is a delimiter; `b` answers for
the empty string (it tells what the character before it is). -/
def lastIsDelim (delim : CStr) (b : Bool) (s : CStr) : Bool :=
  match s.getLast? with
  | none => b
  | some x => delim.contains x

/-- The first word of a string: its leading delimiters dropped, the
characters up to the next delimiter. -/
def firstWord (delim s : CStr) : CStr :=
  (s.dropWhile (fun c => delim.contains c)).takeWhile (fun x => !delim.contains x)

/-- The pipes created by a run, in order: the read end and the write end of
each successful `pipe` call of the trace. -/
def pipesOf : List Event → List (Int × Int)
  | [] => []
  | Event.pipe rd wr :: l => (rd, wr) :: pipesOf l
  | _ :: l => pipesOf l

/-- The processes created by a run, in order: for each successful `fork` of
the trace the stage it runs, its input descriptor and its output
descriptor. -/
def forksOf : List Event → List (Nat × Int × Int)
  | [] => []
  | Event.fork stage inFd outFd _ :: l => (stage, inFd, outFd) :: forksOf l
  | _ :: l => forksOf l

/-- The wiring of a pipeline over the given pipes, from stage number `i`
on: a stage reads from `inFd` and writes to the write end of its pipe, the
next one reads from the read end of that pipe, the last one writes to
`outFd`. -/
def wiring (outFd : Int) : Nat → Int → List (Int × Int) → List (Nat × Int × Int)
  | i, inFd, [] => [(i, inFd, outFd)]
  | i, inFd, (rd, wr) :: ps => (i, inFd, wr) :: wiring outFd (i + 1) rd ps

/-- Every child of the table was created by a `fork` of this environment:
its pid is the number of the fork plus one and its way of terminating is
the one the environment gives that fork. -/
def Consistent (env : Env) (os : OS) : Prop :=
  ∀ c ∈ os.children, 0 < c.pid ∧ c.st = env.termOf (c.pid - 1)

/-- A token holds the symbol: it is `a ++ symb ++ b` for some `a` and `b`. -/
def Holds (token symb : CStr) : Prop := ∃ a b, token = a ++ symb ++ b

/-- The events of the wait calls: neither pipes nor forks. -/
def WaitEvents (l : List Event) : Prop :=
  ∀ e ∈ l, (∃ r, e = Event.waitpid r) ∨ (∃ r, e = Event.wait r)

/-- The state a sweep ends in. -/
def Sweep.state : Sweep → OS
  | Sweep.abort _ os => os
  | Sweep.done _ os => os

/-- The state the spawning loop ends in. -/
def Loop.state : Loop → OS
  | Loop.stop _ os => os
  | Loop.done _ _ _ os => os

/-- What a standard stream refers to after a redirection to `path`: the
file, opened with `mode`, if a path is given, and what it referred to before
(`r`) if the path is NULL. -/
def streamAfter (path : Option CStr) (mode : OpenMode) (r : FileRef) : FileRef :=
  match path with
  | some p => FileRef.file p mode
  | none => r

/-- The notifications of a child that is stopped and continued once for
each signal of the list: a Stopped notification, then a Continued one. -/
def stopContinue : List Nat → List WaitpidAns
  | [] => []
  | sig :: sigs =>
    WaitpidAns.ok (WStatus.stopped sig) :: WaitpidAns.ok WStatus.continued :: stopContinue sigs

/-- Where a reader of the string stands with respect to the pairs of dirt
characters (the 1st with the 2nd, the 3rd with the 4th, ...): outside every
pair, right after the opening character of a pair, or inside a pair that
holds at least one character. -/
inductive PairState
  | outside
  | opened
  | inside
deriving DecidableEq, Repr

/-- The string without its empty pairs: a dirt character that opens a pair
is dropped together with the one that closes it when the latter follows
immediately; every other character is kept, in order. -/
def dropEmptyPairs (dirt : Char) : PairState → CStr → CStr
  | _, [] => []
  | PairState.outside, c :: s =>
    if c = dirt then dropEmptyPairs dirt PairState.opened s
    else c :: dropEmptyPairs dirt PairState.outside s
  | PairState.opened, c :: s =>
    if c = dirt then dropEmptyPairs dirt PairState.outside s
    else dirt :: c :: dropEmptyPairs dirt PairState.inside s
  | PairState.inside, c :: s =>
    if c = dirt then dirt :: dropEmptyPairs dirt PairState.outside s
    else c :: dropEmptyPairs dirt PairState.inside s

/-- The string a result of `strepclean` stands for, `none` for NULL. -/
def Cleaned.content (arg : CStr) : Cleaned → Option CStr
  | Cleaned.null => none
  | Cleaned.itself => some arg
  | Cleaned.fresh t => some t

/-- The spawning loop of `pipe_chain` with the non-blocking sweep removed:
the pipe, the stage, the close of the write end, and on to the next
stage. -/
def stage_loop_nosweep (env : Env) (commands : List Stage) : Nat → Nat → Int → Int → OS → Loop
  | 0, i, inFd, remain, os => Loop.done i inFd remain os
  | k + 1, i, inFd, remain, os =>
    match sys_pipe env os with
    | (none, os1) => Loop.stop (Outcome.ret (-1)) { os1 with pg_errno := ErrorType.EPIPEF }
    | (some (rd, wr), os1) =>
      match commands.get? i with
      | none => Loop.stop Outcome.undef os1
      | some command =>
        match spawn_proc env i command inFd wr os1 with
        | (r, os2) =>
          if r = -1 then
            if os2.pg_errno = ErrorType.ENULL then Loop.stop (Outcome.ret (-1)) os2
            else Loop.stop (Outcome.exit EXIT_FAILURE) os2
          else stage_loop_nosweep env commands k (i + 1) rd remain (sys_close wr os2)

/-- The variant of `pipe_chain` with the non-blocking sweep removed: every
stage is spawned, then every child is waited for by the closing loop. -/
def pipe_chain_nosweep (env : Env) (commands : Option (List Stage)) (n inFd outFd : Int)
    (os : OS) : Outcome × OS :=
  match commands with
  | none => (Outcome.ret (-1), { os with pg_errno := ErrorType.ENULL })
  | some cmds =>
    if inFd = STDOUT_FILENO ∨ outFd = STDIN_FILENO then
      (Outcome.ret (-1), { os with pg_errno := ErrorType.EARG })
    else if n - 1 < INT_MIN then (Outcome.undef, os)
    else
      match stage_loop_nosweep env cmds (n - 1).toNat 0 inFd n os with
      | Loop.stop o os1 => (o, os1)
      | Loop.done i inFd1 remain os1 =>
        match sys_fork env i inFd1 outFd os1 with
        | (none, os2) => (Outcome.exit EXIT_FAILURE, { os2 with pg_errno := ErrorType.EFORK })
        | (some _, os2) =>
          if INT_MAX < remain + 1 then (Outcome.undef, os2)
          else wait_all env (remain + 1).toNat os2

/-- The state after the pipe, the fork and the close of the write end of
one iteration of the spawning loop, all successful, for stage `i` reading
from `inFd`. -/
def after_stage (env : Env) (i : Nat) (inFd : Int) (os : OS) : OS :=
  sys_close (lowestFree (lowestFree os.fds :: os.fds))
    { os with nPipe := os.nPipe + 1,
              fds := lowestFree (lowestFree os.fds :: os.fds) :: lowestFree os.fds :: os.fds,
              trace := (os.trace ++ [Event.pipe (lowestFree os.fds)
                (lowestFree (lowestFree os.fds :: os.fds))]) ++
                [Event.fork i inFd (lowestFree (lowestFree os.fds :: os.fds)) (os.nFork + 1)],
              nFork := os.nFork + 1,
              children := os.children ++ [⟨os.nFork + 1, i, env.termOf os.nFork⟩] }

/-- Two states of the parent that have made the same pipes and forks since
the trace `t0`: same open descriptors, same counters of pipes and forks. -/
def SameSpawns (t0 : List Event) (os os' : OS) : Prop :=
  os.fds = os'.fds ∧ os.nFork = os'.nFork ∧ os.nPipe = os'.nPipe ∧
  ∃ l l', os.trace = t0 ++ l ∧ os'.trace = t0 ++ l' ∧ forksOf l = forksOf l' ∧
    pipesOf l = pipesOf l'

/-- The words of a string: its maximal runs of non-delimiter characters, in
order. -/
def words (delim : CStr) : CStr → List CStr
  | [] => []
  | c :: s =>
    if delim.contains c then words delim s
    else
      match s with
      | [] => [[c]]
      | x :: _ =>
        if delim.contains x then [c] :: words delim s
        else
          match words delim s with
          | w :: ws => (c :: w) :: ws
          | [] => [[c]]

/-- The string without its terminating newline, if it has one. -/
def lineBody (s : CStr) : CStr :=
  if s.getLast? = some '\n' then s.dropLast else s

/-- The arguments of a call of `pipe_chain_r` (the append flag apart) and
`pg_errno` at the call. -/
structure ChainCall where
  commands : List Stage
  n : Int
  input : Option CStr
  output : Option CStr
  pg_errno : ErrorType
deriving DecidableEq, Repr

/-- The call of `pipe_chain_r` that `handle_cmd_line` reaches on a command
line with a pipe: the stages passed, their number, the two file names and
`pg_errno` at the call; `none` when the call is not reached. -/
def pipe_chain_r_call (sh : Shell) (cmd_line : CStr) (pgErr : ErrorType) : Option ChainCall :=
  match ctoken_counter cmd_line ['|'] with
  | none => none
  | some pipe_token_cnt =>
    if pipe_token_cnt > 1 then
      match ctokenize cmd_line ['|'] with
      | some (some pipe_tokens) =>
        match resolve_pipeline pipe_tokens pipe_token_cnt pgErr with
        | some (Resolution.ok input output _ pipe_tokens1 e _) =>
          match tokenize_stages pipe_tokens1 with
          | some (some (cmd :: args) :: stages) =>
            match special_switch sh.dir (cmd :: args) e with
            | (none, e1) => some ⟨some (cmd :: args) :: stages, pipe_token_cnt, input, output, e1⟩
            | (some _, _) => none
          | _ => none
        | _ => none
      | _ => none
    else none

/-! ## Concrete environments and inputs used to run the model -/

/-- An environment in which every call succeeds, the first child exits with
the failure code and the others with 0, no child is seen by the sweep and
the blocking wait reports the oldest child first. -/
def envFirstFails : Env where
  pipeOk := fun _ => true
  forkOk := fun _ => true
  termOf := fun k => if k = 0 then Term.exited EXIT_FAILURE else Term.exited 0
  poll := fun _ => PollAns.running
  block := fun _ => WaitAns.child 0

/-- An environment in which every call succeeds and every child exits
with 0. -/
def envAllOk : Env where
  pipeOk := fun _ => true
  forkOk := fun _ => true
  termOf := fun _ => Term.exited 0
  poll := fun _ => PollAns.running
  block := fun _ => WaitAns.child 0

/-- A shell with the three standard descriptors open and no child. -/
def os0 : OS := OS.init [0, 1, 2] ErrorType.EOK Errno.EOTHER WStatus.other

/-- Two stages, `ls` and `wc`. -/
def twoStages : List Stage := [some [['l', 's']], some [['w', 'c']]]

/-- The stage strings of `ls | sort > out`. -/
def lsSortOut : List CStr :=
  [['l', 's', ' '], [' ', 's', 'o', 'r', 't', ' ', '>', ' ', 'o', 'u', 't']]

/-- The stage strings of `ls | sort >> out`. -/
def lsSortAppend : List CStr :=
  [['l', 's', ' '], [' ', 's', 'o', 'r', 't', ' ', '>', '>', ' ', 'o', 'u', 't']]

/-- What the redirections of `ls | sort > out` resolve to: no input file,
the output file `out` without append, the last stage cut to ` sort `, after
the calls with `REDIN`, `REDOUTA` and `REDOUT`. -/
def lsSortOutResolution : Resolution :=
  Resolution.ok none (some ['o', 'u', 't']) 0
    [['l', 's', ' '], [' ', 's', 'o', 'r', 't', ' ']] ErrorType.EOK [REDIN, REDOUTA, REDOUT]

/-- The stage strings of `ls | a > b > cd`. -/
def lsTwoOutputs : List CStr :=
  [['l', 's', ' '], [' ', 'a', ' ', '>', ' ', 'b', ' ', '>', ' ', 'c', 'd']]

/-- An environment in which every call succeeds, every child exits with 0
and each poll of the sweep reports the oldest unreaped child. -/
def envPollAll : Env where
  pipeOk := fun _ => true
  forkOk := fun _ => true
  termOf := fun _ => Term.exited 0
  poll := fun _ => PollAns.child 0
  block := fun _ => WaitAns.child 0

/-- An environment in which every `fork` fails. -/
def envNoFork : Env where
  pipeOk := fun _ => true
  forkOk := fun _ => false
  termOf := fun _ => Term.exited 0
  poll := fun _ => PollAns.running
  block := fun _ => WaitAns.child 0

/-- Five stages `a`. -/
def fiveStages : List Stage :=
  [some [['a']], some [['a']], some [['a']], some [['a']], some [['a']]]

/-- The answers to a command line whose child exits with 0. -/
def shellOk : Shell where
  env := envAllOk
  openIn := some 5
  openOut := some 6
  dir := ⟨true, true⟩
  waits := [WaitpidAns.ok (WStatus.exited 0)]

/-- The answers to a command line when `fork` fails. -/
def shellNoFork : Shell where
  env := envNoFork
  openIn := some 5
  openOut := some 6
  dir := ⟨true, true⟩
  waits := []

/-- The command line `true`. -/
def lineTrue : CStr := ['t', 'r', 'u', 'e', '\n']

/-- The command line `ls`. -/
def lineLs : CStr := ['l', 's', '\n']

/-- The command line `ls | wc`. -/
def lineLsWc : CStr := ['l', 's', ' ', '|', ' ', 'w', 'c', '\n']

/-- The command line `cmd > a >> b`. -/
def lineTwoOutputs : CStr :=
  ['c', 'm', 'd', ' ', '>', ' ', 'a', ' ', '>', '>', ' ', 'b', '\n']

/-- The command line `ls | cmd >> a > b`. -/
def linePipeTwoOutputs : CStr :=
  ['l', 's', ' ', '|', ' ', 'c', 'm', 'd', ' ', '>', '>', ' ', 'a', ' ', '>', ' ', 'b', '\n']

/-- The command line `ls | c > a > bb`. -/
def linePipeSameTwice : CStr :=
  ['l', 's', ' ', '|', ' ', 'c', ' ', '>', ' ', 'a', ' ', '>', ' ', 'b', 'b', '\n']

/-- The descriptor table of a process with its three standard streams. -/
def stdTable : FdTable :=
  [(0, FileRef.inherited 0), (1, FileRef.inherited 1), (2, FileRef.inherited 2)]

/-- The answers of a system on which every call of `redirect` succeeds. -/
def fileAllOk : FileAns := ⟨true, true, true, true, true⟩

/-- An environment in which every pipe and fork succeeds and every
non-blocking `waitpid` is interrupted (`EINTR`). -/
def envPollFails : Env where
  pipeOk := fun _ => true
  forkOk := fun _ => true
  termOf := fun _ => Term.exited 0
  poll := fun _ => PollAns.fail Errno.EINTR
  block := fun _ => WaitAns.child 0

/-- An environment in which every call succeeds, the first child exits with
the failure code and the others with 0, and each poll of the sweep reports
the oldest unreaped child. -/
def envFirstFailsSeen : Env where
  pipeOk := fun _ => true
  forkOk := fun _ => true
  termOf := fun k => if k = 0 then Term.exited EXIT_FAILURE else Term.exited 0
  poll := fun _ => PollAns.child 0
  block := fun _ => WaitAns.child 0

/-- Three stages `a`. -/
def threeStages : List Stage := [some [['a']], some [['a']], some [['a']]]

/-- The command line `ls |` followed by three blanks. -/
def lineBlankStage : CStr := ['l', 's', ' ', '|', ' ', ' ', ' ', '\n']

/-- The command line of three blanks. -/
def lineBlank : CStr := [' ', ' ', ' ', '\n']

/-! ## Frame facts of the system calls -/

theorem toStatus_exited_iff (t : Term) (c : Nat) :
    t.toStatus = WStatus.exited c ↔ t = Term.exited c := by
  cases t <;> simp [Term.toStatus]

theorem mem_eraseIdx_of_ne {l : List Child} {k : Nat} {c x : Child}
    (hk : l.get? k = some c) (hx : x ∈ l) (hne : x ≠ c) : x ∈ l.eraseIdx k := by
  rw [List.mem_eraseIdx_iff_getElem?]
  obtain ⟨i, hi⟩ := List.mem_iff_get?.mp hx
  refine ⟨i, ?_, by simpa using hi⟩
  intro hik
  subst hik
  rw [hi] at hk
  exact hne (Option.some.inj hk)

theorem reapAt_spec (k : Nat) (os : OS) (h : os.children ≠ []) :
    ∃ c, os.children.get? (k % os.children.length) = some c ∧
      reapAt k os = some (c,
        { os with children := os.children.eraseIdx (k % os.children.length),
                  reaped := os.reaped ++ [c.pid], status := c.st.toStatus }) := by
  have hlen : 0 < os.children.length := List.length_pos.mpr h
  have hlt : k % os.children.length < os.children.length := Nat.mod_lt _ hlen
  refine ⟨os.children.get ⟨_, hlt⟩, List.get?_eq_get hlt, ?_⟩
  simp only [reapAt, List.get?_eq_get hlt]

/-- The three ways a non-blocking `waitpid` ends when the call itself does
not fail: no child at all, no child finished yet, or one child collected. -/
theorem sys_waitpid_nohang_spec (env : Env) (os : OS)
    (hpoll : ∀ e, env.poll os.nPoll ≠ PollAns.fail e)
    (hpid : ∀ c ∈ os.children, 0 < c.pid) :
    ((sys_waitpid_nohang env os).1 = -1 ∧ (sys_waitpid_nohang env os).2.errno = Errno.ECHILD ∧
      (sys_waitpid_nohang env os).2.children = os.children ∧
      (sys_waitpid_nohang env os).2.nFork = os.nFork) ∨
    ((sys_waitpid_nohang env os).1 = 0 ∧
      (sys_waitpid_nohang env os).2.children = os.children ∧
      (sys_waitpid_nohang env os).2.nFork = os.nFork) ∨
    (∃ k c, os.children.get? k = some c ∧ k < os.children.length ∧
      (sys_waitpid_nohang env os).1 ≠ -1 ∧ (sys_waitpid_nohang env os).1 ≠ 0 ∧
      (sys_waitpid_nohang env os).2.children = os.children.eraseIdx k ∧
      (sys_waitpid_nohang env os).2.status = c.st.toStatus ∧
      (sys_waitpid_nohang env os).2.nFork = os.nFork) := by
  unfold sys_waitpid_nohang
  by_cases hc : os.children = []
  · left; simp [hc]
  · simp only [hc, if_false]
    cases hp : env.poll os.nPoll with
    | running => right; left; simp
    | fail e => exact absurd hp (hpoll e)
    | child k =>
      right; right
      obtain ⟨c, hget, hreap⟩ := reapAt_spec k { os with nPoll := os.nPoll + 1 } hc
      simp only at hget hreap
      have hlt : k % os.children.length < os.children.length :=
        Nat.mod_lt _ (List.length_pos.mpr hc)
      have hpos : 0 < c.pid := hpid c (List.get?_mem hget)
      refine ⟨k % os.children.length, c, hget, hlt, ?_⟩
      simp only [hreap]
      refine ⟨by omega, by omega, ?_, ?_, ?_⟩ <;> first | rfl | trivial

/-- The sweep on a kernel whose polls do not fail: either it meets a child
that exited with the failure code and makes `pipe_chain` return -1 with
`EFCHLD`, or it ends having removed only children that did not fail, each
removal counted in `remain_proc`. -/
theorem sweep_spec (env : Env) (hpoll : ∀ k e, env.poll k ≠ PollAns.fail e)
    (m : Nat) (remain : Int) (os : OS) (hpid : ∀ c ∈ os.children, 0 < c.pid) :
    (∃ os1, sweep env m remain os = Sweep.abort (-1) os1 ∧
      os1.pg_errno = ErrorType.EFCHLD ∧ ∃ c ∈ os.children, c.failed) ∨
    (∃ remain1 os1, sweep env m remain os = Sweep.done remain1 os1 ∧
      remain1 - (os1.children.length : Int) = remain - (os.children.length : Int) ∧
      (∀ c ∈ os1.children, c ∈ os.children) ∧
      ((∃ c ∈ os.children, c.failed) → ∃ c ∈ os1.children, c.failed) ∧
      os1.children.length ≤ os.children.length ∧
      os1.nFork = os.nFork) := by
  induction m generalizing remain os with
  | zero => right; exact ⟨remain, os, rfl, rfl, fun c h => h, fun h => h, le_refl _, rfl⟩
  | succ m ih =>
    unfold sweep
    rcases sys_waitpid_nohang_spec env os (hpoll os.nPoll) hpid with
      ⟨h1, h2, h3, h4⟩ | ⟨h1, h3, h4⟩ | ⟨k, c, hget, hlt, h1, h0, h3, h5, h4⟩
    · -- no child at all
      generalize sys_waitpid_nohang env os = r at h1 h2 h3 h4
      obtain ⟨v, os1⟩ := r
      simp only at h1 h2 h3 h4
      subst h1
      simp only [if_true, h2, ne_eq, not_true_eq_false, if_false]
      have hpid1 : ∀ c ∈ os1.children, 0 < c.pid := by rw [h3]; exact hpid
      rcases ih remain os1 hpid1 with ⟨os2, e1, e2, e3⟩ | ⟨r2, os2, e1, e2, e3, e4, e5, e6⟩
      · left; exact ⟨os2, e1, e2, by rwa [h3] at e3⟩
      · right
        refine ⟨r2, os2, e1, ?_, ?_, ?_, ?_, ?_⟩
        · rw [e2, h3]
        · intro x hx; rw [← h3]; exact e3 x hx
        · intro hx; rw [← h3] at hx; exact e4 hx
        · rw [← h3]; exact e5
        · rw [e6, h4]
    · -- children still running
      generalize sys_waitpid_nohang env os = r at h1 h3 h4
      obtain ⟨v, os1⟩ := r
      simp only at h1 h3 h4
      subst h1
      right
      refine ⟨remain, os1, by simp, by rw [h3], ?_, ?_, by rw [h3], h4⟩
      · intro x hx; rw [← h3]; exact hx
      · intro hx; rw [h3]; exact hx
    · -- a child is collected
      generalize sys_waitpid_nohang env os = r at h1 h0 h3 h4 h5
      obtain ⟨v, os1⟩ := r
      simp only at h1 h0 h3 h4 h5
      simp only [h1, h0, if_false]
      have hmem : c ∈ os.children := List.get?_mem hget
      have hlen : os1.children.length + 1 = os.children.length := by
        rw [h3, List.length_eraseIdx_of_lt hlt]; omega
      have hsub : ∀ x ∈ os1.children, x ∈ os.children := by
        intro x hx; rw [h3] at hx; exact List.mem_of_mem_eraseIdx hx
      have hpid1 : ∀ x ∈ os1.children, 0 < x.pid := fun x hx => hpid x (hsub x hx)
      have cont : ¬ c.failed →
          (∃ os2, sweep env m (remain - 1) os1 = Sweep.abort (-1) os2 ∧
            os2.pg_errno = ErrorType.EFCHLD ∧ ∃ c ∈ os.children, c.failed) ∨
          (∃ remain1 os2, sweep env m (remain - 1) os1 = Sweep.done remain1 os2 ∧
            remain1 - (os2.children.length : Int) = remain - (os.children.length : Int) ∧
            (∀ c ∈ os2.children, c ∈ os.children) ∧
            ((∃ c ∈ os.children, c.failed) → ∃ c ∈ os2.children, c.failed) ∧
            os2.children.length ≤ os.children.length ∧
            os2.nFork = os.nFork) := by
        intro hnf
        rcases ih (remain - 1) os1 hpid1 with ⟨os2, e1, e2, x, hx, hxf⟩ |
          ⟨r2, os2, e1, e2, e3, e4, e5, e6⟩
        · left; exact ⟨os2, e1, e2, x, hsub x hx, hxf⟩
        · right
          refine ⟨r2, os2, e1, ?_, fun x hx => hsub x (e3 x hx), ?_, by omega, by rw [e6, h4]⟩
          · rw [e2]; omega
          · rintro ⟨x, hx, hxf⟩
            apply e4
            refine ⟨x, ?_, hxf⟩
            rw [h3]
            exact mem_eraseIdx_of_ne hget hx (fun h => hnf (h ▸ hxf))
      cases hst : c.st with
      | exited code =>
        rw [hst] at h5
        simp only [Term.toStatus] at h5
        simp only [h5]
        by_cases hcode : code = EXIT_FAILURE
        · left
          simp only [hcode, if_true]
          exact ⟨_, rfl, rfl, c, hmem, by unfold Child.failed; rw [hst, hcode]⟩
        · simp only [hcode, if_false]
          apply cont
          unfold Child.failed; rw [hst]; simpa using hcode
      | signaled sig =>
        rw [hst] at h5
        simp only [Term.toStatus] at h5
        simp only [h5]
        apply cont
        unfold Child.failed; rw [hst]; simp

/-- The two ways a blocking `wait` ends when the call itself does not fail:
no child at all (`status` is left as it was), or one child collected. -/
theorem sys_wait_spec (env : Env) (os : OS) (hblock : ∀ e, env.block os.nWait ≠ WaitAns.fail e) :
    (os.children = [] ∧ (sys_wait env os).2.children = [] ∧
      (sys_wait env os).2.status = os.status) ∨
    (∃ k c, os.children.get? k = some c ∧ k < os.children.length ∧
      (sys_wait env os).2.children = os.children.eraseIdx k ∧
      (sys_wait env os).2.status = c.st.toStatus) := by
  unfold sys_wait
  by_cases hc : os.children = []
  · left; simp [hc]
  · simp only [hc, if_false]
    cases hp : env.block os.nWait with
    | fail e => exact absurd hp (hblock e)
    | child k =>
      right
      obtain ⟨c, hget, hreap⟩ := reapAt_spec k { os with nWait := os.nWait + 1 } hc
      simp only at hget hreap
      refine ⟨k % os.children.length, c, hget, Nat.mod_lt _ (List.length_pos.mpr hc), ?_⟩
      simp only [hreap]
      exact ⟨trivial, trivial⟩

/-- The closing loop when no unreaped child failed and the first `wait`
cannot see a stale failure status: it returns 0. -/
theorem wait_all_success (env : Env) (hblock : ∀ k e, env.block k ≠ WaitAns.fail e)
    (m : Nat) (os : OS) (hnone : ∀ c ∈ os.children, ¬ c.failed)
    (hst : os.children ≠ [] ∨ os.status ≠ WStatus.exited EXIT_FAILURE) :
    (wait_all env m os).1 = Outcome.ret 0 := by
  induction m generalizing os with
  | zero => rfl
  | succ m ih =>
    unfold wait_all
    rcases sys_wait_spec env os (hblock os.nWait) with ⟨h1, h2, h3⟩ | ⟨k, c, hget, hlt, h2, h3⟩
    · generalize sys_wait env os = r at h2 h3
      obtain ⟨v, os1⟩ := r
      simp only at h2 h3 ⊢
      have hs : os1.status ≠ WStatus.exited EXIT_FAILURE := by
        rw [h3]; exact hst.resolve_left (fun h => h h1)
      have hrec := ih os1 (by rw [h2]; simp) (Or.inr hs)
      cases hs1 : os1.status with
      | exited code =>
        simp only
        rw [hs1] at hs
        have : code ≠ EXIT_FAILURE := fun h => hs (by rw [h])
        simp only [this, if_false]
        exact hrec
      | signaled s => exact hrec
      | stopped s => exact hrec
      | continued => exact hrec
      | other => exact hrec
    · generalize sys_wait env os = r at h2 h3
      obtain ⟨v, os1⟩ := r
      simp only at h2 h3 ⊢
      have hcf : ¬ c.failed := hnone c (List.get?_mem hget)
      have hs : os1.status ≠ WStatus.exited EXIT_FAILURE := by
        rw [h3]; intro h; exact hcf ((toStatus_exited_iff _ _).mp h)
      have hrec := ih os1
        (by intro x hx; rw [h2] at hx; exact hnone x (List.mem_of_mem_eraseIdx hx)) (Or.inr hs)
      cases hs1 : os1.status with
      | exited code =>
        simp only
        rw [hs1] at hs
        have : code ≠ EXIT_FAILURE := fun h => hs (by rw [h])
        simp only [this, if_false]
        exact hrec
      | signaled s => exact hrec
      | stopped s => exact hrec
      | continued => exact hrec
      | other => exact hrec

/-- The closing loop when some unreaped child failed and the loop runs at
least once per unreaped child: it returns -1 with `EFCHLD`. -/
theorem wait_all_failure (env : Env) (hblock : ∀ k e, env.block k ≠ WaitAns.fail e)
    (m : Nat) (os : OS) (hsome : ∃ c ∈ os.children, c.failed)
    (hm : os.children.length ≤ m) :
    (wait_all env m os).1 = Outcome.ret (-1) ∧
    (wait_all env m os).2.pg_errno = ErrorType.EFCHLD := by
  induction m generalizing os with
  | zero =>
    obtain ⟨c, hc, _⟩ := hsome
    have : os.children = [] := List.length_eq_zero.mp (Nat.le_zero.mp hm)
    rw [this] at hc
    exact absurd hc (List.not_mem_nil c)
  | succ m ih =>
    unfold wait_all
    rcases sys_wait_spec env os (hblock os.nWait) with ⟨h1, _, _⟩ | ⟨k, c, hget, hlt, h2, h3⟩
    · obtain ⟨c, hc, _⟩ := hsome
      rw [h1] at hc
      exact absurd hc (List.not_mem_nil c)
    · generalize sys_wait env os = r at h2 h3
      obtain ⟨v, os1⟩ := r
      simp only at h2 h3
      have hlen : os1.children.length ≤ m := by
        rw [h2, List.length_eraseIdx_of_lt hlt]; omega
      have cont : ¬ c.failed →
          (wait_all env m os1).1 = Outcome.ret (-1) ∧
          (wait_all env m os1).2.pg_errno = ErrorType.EFCHLD := by
        intro hnf
        apply ih os1 _ hlen
        obtain ⟨x, hx, hxf⟩ := hsome
        exact ⟨x, by rw [h2]; exact mem_eraseIdx_of_ne hget hx (fun h => hnf (h ▸ hxf)), hxf⟩
      cases hst : c.st with
      | exited code =>
        rw [hst] at h3
        simp only [Term.toStatus] at h3
        simp only [h3]
        by_cases hcode : code = EXIT_FAILURE
        · simp only [hcode, if_true, and_self]
        · simp only [hcode, if_false]
          apply cont
          unfold Child.failed; rw [hst]; simpa using hcode
      | signaled sig =>
        rw [hst] at h3
        simp only [Term.toStatus] at h3
        simp only [h3]
        apply cont
        unfold Child.failed; rw [hst]; simp

/-- The spawning loop on a kernel where no pipe, fork or poll fails and
every stage read is a non-NULL argument vector: either the sweep met a
failed stage and `pipe_chain` returns -1 with `EFCHLD`, or all the
iterations ran and the invariant holds for the stages spawned. -/
theorem stage_loop_spec (env : Env) (hpipe : ∀ k, env.pipeOk k = true)
    (hfork : ∀ k, env.forkOk k = true) (hpoll : ∀ k e, env.poll k ≠ PollAns.fail e)
    (cmds : List Stage) (f0 : Nat) (n : Int) (N : Nat)
    (hcmds : ∀ j, j < N → ∃ a, cmds.get? j = some (some a))
    (k i : Nat) (inFd remain : Int) (os : OS) (hN : i + k = N)
    (hinv : ChainInv env f0 n i remain os) :
    (∃ os1, stage_loop env cmds k i inFd remain os = Loop.stop (Outcome.ret (-1)) os1 ∧
      os1.pg_errno = ErrorType.EFCHLD ∧
      ∃ j, j < N ∧ env.termOf (f0 + j) = Term.exited EXIT_FAILURE) ∨
    (∃ inFd1 remain1 os1, stage_loop env cmds k i inFd remain os = Loop.done N inFd1 remain1 os1 ∧
      ChainInv env f0 n N remain1 os1) := by
  induction k generalizing i inFd remain os with
  | zero =>
    right
    have : i = N := by omega
    subst this
    exact ⟨inFd, remain, os, rfl, hinv⟩
  | succ k ih =>
    obtain ⟨a, ha⟩ := hcmds i (by omega)
    unfold stage_loop
    simp only [sys_pipe, hpipe, if_true, ha, spawn_proc, sys_fork, hfork]
    have hne : ¬ (((os.nFork + 1 : Nat) : Int) = -1) := by omega
    simp only [hne, if_false]
    generalize hos3 : sys_close (lowestFree (lowestFree os.fds :: os.fds))
      { os with nPipe := os.nPipe + 1,
                fds := lowestFree (lowestFree os.fds :: os.fds) :: lowestFree os.fds :: os.fds,
                trace := (os.trace ++ [Event.pipe (lowestFree os.fds)
                  (lowestFree (lowestFree os.fds :: os.fds))]) ++
                  [Event.fork i inFd (lowestFree (lowestFree os.fds :: os.fds)) (os.nFork + 1)],
                nFork := os.nFork + 1,
                children := os.children ++ [⟨os.nFork + 1, i, env.termOf os.nFork⟩] } = os3
    have hch : os3.children = os.children ++ [⟨os.nFork + 1, i, env.termOf os.nFork⟩] := by
      rw [← hos3]; rfl
    have hnf : os3.nFork = os.nFork + 1 := by rw [← hos3]; rfl
    have hpid3 : ∀ c ∈ os3.children, 0 < c.pid := by
      intro c hc
      rw [hch, List.mem_append] at hc
      rcases hc with hc | hc
      · exact hinv.pid c hc
      · rw [List.mem_singleton] at hc; subst hc; exact Nat.succ_pos _
    have hsound3 : ∀ c ∈ os3.children, c.failed →
        ∃ j, j < i + 1 ∧ env.termOf (f0 + j) = Term.exited EXIT_FAILURE := by
      intro c hc hcf
      rw [hch, List.mem_append] at hc
      rcases hc with hc | hc
      · obtain ⟨j, hj, hjf⟩ := hinv.sound c hc hcf
        exact ⟨j, by omega, hjf⟩
      · rw [List.mem_singleton] at hc
        subst hc
        refine ⟨i, by omega, ?_⟩
        rw [← hinv.nFork]; exact hcf
    have hcomplete3 : ∀ j, j < i + 1 → env.termOf (f0 + j) = Term.exited EXIT_FAILURE →
        ∃ c ∈ os3.children, c.failed := by
      intro j hj hjf
      by_cases hji : j < i
      · obtain ⟨c, hc, hcf⟩ := hinv.complete j hji hjf
        exact ⟨c, by rw [hch]; exact List.mem_append_left _ hc, hcf⟩
      · have : j = i := by omega
        subst this
        refine ⟨⟨os.nFork + 1, j, env.termOf os.nFork⟩, by rw [hch]; simp, ?_⟩
        unfold Child.failed
        simp only
        rw [hinv.nFork]; exact hjf
    rcases sweep_spec env hpoll i remain os3 hpid3 with
      ⟨os4, e1, e2, c, hc, hcf⟩ | ⟨r4, os4, e1, e2, e3, e4, e5, e6⟩
    · left
      rw [e1]
      obtain ⟨j, hj, hjf⟩ := hsound3 c hc hcf
      exact ⟨os4, rfl, e2, j, by omega, hjf⟩
    · rw [e1]
      simp only
      apply ih (i + 1) _ r4 os4 (by omega)
      have hlen3 : os3.children.length = os.children.length + 1 := by rw [hch]; simp
      refine ⟨by rw [e6, hnf, hinv.nFork]; omega, ?_, ?_, ?_, ?_, ?_⟩
      · have := hinv.remain
        have := hinv.len
        push_cast
        omega
      · have := hinv.len; omega
      · exact fun c hc => hpid3 c (e3 c hc)
      · exact fun c hc hcf => hsound3 c (e3 c hc) hcf
      · intro j hj hjf
        exact e4 (hcomplete3 j hj hjf)

/-! ## Claims on pipe_chain and wait_child -/

/-- C1 (as the code behaves): with two stages, no failing call, the first
child exiting with `EXIT_FAILURE` and reported first by `wait`, `pipe_chain`
returns -1 after a single successful wait: one process has been reaped and
the second stage is still in the process table, never waited for. -/
theorem pipe_chain_leaves_unreaped_child :
    (pipe_chain envFirstFails (some twoStages) 2 0 1 os0).1 = Outcome.ret (-1) ∧
    (pipe_chain envFirstFails (some twoStages) 2 0 1 os0).2.nFork = 2 ∧
    (pipe_chain envFirstFails (some twoStages) 2 0 1 os0).2.reaped = [1] ∧
    (pipe_chain envFirstFails (some twoStages) 2 0 1 os0).2.children =
      [⟨2, 1, Term.exited 0⟩] := by
  decide

/-- C2: for every pipeline of n >= 1 stages (n + 1 representable as an
int, every stage a non-NULL argument vector, descriptors not wired
backwards) run by a process that has no other child, on a kernel where no
pipe or fork call fails and no wait call fails while a child is left to be
reported, `pipe_chain` returns -1 with `pg_errno = EFCHLD` if at least one
of the n stages exits with `EXIT_FAILURE`, and returns 0 otherwise.  (The
stage number j is run by the fork number `os.nFork + j` of the process.) -/
theorem pipe_chain_classification (env : Env) (cmds : List Stage) (n inFd outFd : Int) (os : OS)
    (hn : 1 ≤ n) (hmax : n < INT_MAX)
    (hlen : (cmds.length : Int) = n) (hargv : ∀ c ∈ cmds, c ≠ none)
    (hin : inFd ≠ STDOUT_FILENO) (hout : outFd ≠ STDIN_FILENO)
    (hpipe : ∀ k, env.pipeOk k = true) (hfork : ∀ k, env.forkOk k = true)
    (hpoll : ∀ k e, env.poll k ≠ PollAns.fail e)
    (hblock : ∀ k e, env.block k ≠ WaitAns.fail e)
    (hown : os.children = []) :
    ((∃ j : Nat, (j : Int) < n ∧ env.termOf (os.nFork + j) = Term.exited EXIT_FAILURE) →
      (pipe_chain env (some cmds) n inFd outFd os).1 = Outcome.ret (-1) ∧
      (pipe_chain env (some cmds) n inFd outFd os).2.pg_errno = ErrorType.EFCHLD) ∧
    ((¬ ∃ j : Nat, (j : Int) < n ∧ env.termOf (os.nFork + j) = Term.exited EXIT_FAILURE) →
      (pipe_chain env (some cmds) n inFd outFd os).1 = Outcome.ret 0) := by
  have hcmds : ∀ j, j < (n - 1).toNat → ∃ a, cmds.get? j = some (some a) := by
    intro j hj
    have hjl : j < cmds.length := by omega
    have hmem : cmds.get ⟨j, hjl⟩ ∈ cmds := List.get_mem _ _ _
    cases hc : cmds.get ⟨j, hjl⟩ with
    | none => exact absurd hc (hargv _ hmem)
    | some a => exact ⟨a, by rw [List.get?_eq_get hjl, hc]⟩
  have hinv0 : ChainInv env os.nFork n 0 n os :=
    ⟨rfl, by rw [hown]; simp, by rw [hown]; simp, by rw [hown]; simp, by rw [hown]; simp,
      fun j hj => absurd hj (Nat.not_lt_zero j)⟩
  have hw : ¬ (inFd = STDOUT_FILENO ∨ outFd = STDIN_FILENO) := by
    rintro (h | h)
    · exact hin h
    · exact hout h
  have hmin : ¬ (n - 1 < INT_MIN) := by unfold INT_MIN; omega
  unfold pipe_chain
  simp only [hw, if_false, hmin]
  rcases stage_loop_spec env hpipe hfork hpoll cmds os.nFork n (n - 1).toNat hcmds
      (n - 1).toNat 0 inFd n os (by omega) hinv0 with
    ⟨os1, e1, e2, j, hj, hjf⟩ | ⟨inFd1, remain1, os1, e1, inv⟩
  · rw [e1]
    simp only
    exact ⟨fun _ => ⟨trivial, e2⟩, fun h => absurd ⟨j, by omega, hjf⟩ h⟩
  · rw [e1]
    simp only [sys_fork, hfork, if_true]
    generalize hos2 :
      ({ os1 with nFork := os1.nFork + 1,
                  children := os1.children ++
                    [⟨os1.nFork + 1, (n - 1).toNat, env.termOf os1.nFork⟩],
                  trace := os1.trace ++
                    [Event.fork (n - 1).toNat inFd1 outFd (os1.nFork + 1)] } : OS) = os2
    have hch : os2.children = os1.children ++
        [⟨os1.nFork + 1, (n - 1).toNat, env.termOf os1.nFork⟩] := by rw [← hos2]
    have hlen2 : os2.children.length = os1.children.length + 1 := by rw [hch]; simp
    have hrem : remain1 + 1 = ((os2.children.length + 1 : Nat) : Int) := by
      have := inv.remain
      push_cast
      omega
    have hmx : ¬ (INT_MAX < ((os2.children.length + 1 : Nat) : Int)) := by
      have := inv.len
      unfold INT_MAX at *
      push_cast
      omega
    rw [hrem]
    simp only [hmx, if_false, Int.toNat_ofNat]
    have hnfork : os1.nFork = os.nFork + (n - 1).toNat := inv.nFork
    by_cases hbad : ∃ c ∈ os2.children, c.failed
    · have hres := wait_all_failure env hblock (os2.children.length + 1) os2 hbad (by omega)
      refine ⟨fun _ => hres, fun h => ?_⟩
      exfalso
      apply h
      obtain ⟨c, hc, hcf⟩ := hbad
      rw [hch, List.mem_append] at hc
      rcases hc with hc | hc
      · obtain ⟨j, hj, hjf⟩ := inv.sound c hc hcf
        exact ⟨j, by omega, hjf⟩
      · rw [List.mem_singleton] at hc
        subst hc
        refine ⟨(n - 1).toNat, by omega, ?_⟩
        rw [← hnfork]; exact hcf
    · have hnone : ∀ c ∈ os2.children, ¬ c.failed := fun c hc hcf => hbad ⟨c, hc, hcf⟩
      have hne : os2.children ≠ [] := by
        intro h; rw [h] at hlen2; simp at hlen2
      have hres := wait_all_success env hblock (os2.children.length + 1) os2 hnone (Or.inl hne)
      refine ⟨fun h => ?_, fun _ => hres⟩
      exfalso
      obtain ⟨j, hj, hjf⟩ := h
      by_cases hjl : j < (n - 1).toNat
      · obtain ⟨c, hc, hcf⟩ := inv.complete j hjl hjf
        exact hnone c (by rw [hch]; exact List.mem_append_left _ hc) hcf
      · have hje : j = (n - 1).toNat := by omega
        subst hje
        apply hnone ⟨os1.nFork + 1, (n - 1).toNat, env.termOf os1.nFork⟩ (by rw [hch]; simp)
        unfold Child.failed
        simp only
        rw [hnfork]; exact hjf

theorem pipe_chain_classification_witness :
    (pipe_chain envFirstFails (some twoStages) 2 0 1 os0).1 = Outcome.ret (-1) ∧
    (pipe_chain envFirstFails (some twoStages) 2 0 1 os0).2.pg_errno = ErrorType.EFCHLD :=
  (pipe_chain_classification envFirstFails twoStages 2 0 1 os0 (by decide) (by decide)
    (by decide) (by decide) (by decide) (by decide) (fun _ => rfl) (fun _ => rfl)
    (fun _ _ h => by cases h) (fun _ _ h => by cases h) rfl).1 ⟨0, by decide, rfl⟩

/-- C3: for every (non-NULL) command array and every n, a call with
`inFd = STDOUT_FILENO` or `outFd = STDIN_FILENO` returns -1 with
`pg_errno = EARG`, and nothing else of the state changes: no pipe, fork or
wait call is made (the trace, the counters and the process table are those
of the entry state). -/
theorem pipe_chain_backwards_wiring (env : Env) (cmds : List Stage) (n inFd outFd : Int)
    (os : OS) (h : inFd = STDOUT_FILENO ∨ outFd = STDIN_FILENO) :
    pipe_chain env (some cmds) n inFd outFd os =
      (Outcome.ret (-1), { os with pg_errno := ErrorType.EARG }) := by
  simp [pipe_chain, h]

theorem pipe_chain_backwards_wiring_witness :
    ((1 : Int) = STDOUT_FILENO ∨ (1 : Int) = STDIN_FILENO) ∧
    pipe_chain envAllOk (some twoStages) 2 1 1 os0 =
      (Outcome.ret (-1), { os0 with pg_errno := ErrorType.EARG }) :=
  ⟨Or.inl rfl, pipe_chain_backwards_wiring envAllOk twoStages 2 1 1 os0 (Or.inl rfl)⟩

/-- C5: for every pid > 0 whose first notification is terminal,
`wait_child` returns -1 with `pg_errno = EFCHLD` if the child exited with
`EXIT_FAILURE`, 0 if it exited with any other code, and 0 if it was
terminated by a signal (one `waitpid` call each, `pg_errno` untouched on
success); for every pid <= 0 it returns -1 with `pg_errno = EARG` and makes
no `waitpid` call. -/
theorem wait_child_classification (pid : Int) (rest : List WaitpidAns) (pgErr : ErrorType) :
    (0 < pid →
      wait_child pid (WaitpidAns.ok (WStatus.exited EXIT_FAILURE) :: rest) pgErr =
        ⟨WaitEnd.ret (-1), ErrorType.EFCHLD, 1⟩ ∧
      (∀ code, code ≠ EXIT_FAILURE →
        wait_child pid (WaitpidAns.ok (WStatus.exited code) :: rest) pgErr =
          ⟨WaitEnd.ret 0, pgErr, 1⟩) ∧
      (∀ sig, wait_child pid (WaitpidAns.ok (WStatus.signaled sig) :: rest) pgErr =
          ⟨WaitEnd.ret 0, pgErr, 1⟩)) ∧
    (pid ≤ 0 → wait_child pid rest pgErr = ⟨WaitEnd.ret (-1), ErrorType.EARG, 0⟩) := by
  refine ⟨fun hpos => ?_, fun hneg => by simp [wait_child, hneg]⟩
  have hp : ¬ pid ≤ 0 := by omega
  refine ⟨by simp [wait_child, hp, wait_child_loop], fun code hcode => ?_, fun sig => ?_⟩
  · simp [wait_child, hp, wait_child_loop, hcode]
  · simp [wait_child, hp, wait_child_loop]

theorem wait_child_classification_witness :
    wait_child 7 [WaitpidAns.ok (WStatus.exited 2)] ErrorType.EOK =
      ⟨WaitEnd.ret 0, ErrorType.EOK, 1⟩ ∧
    wait_child (-1) [] ErrorType.EOK = ⟨WaitEnd.ret (-1), ErrorType.EARG, 0⟩ :=
  ⟨((wait_child_classification 7 [] ErrorType.EOK).1 (by decide)).2.1 2 (by decide),
   (wait_child_classification (-1) [] ErrorType.EOK).2 (by decide)⟩

/-! ## Facts on the string functions -/
theorem isPrefixOf_cons_ne {c x : Char} (hx : x ≠ c) (sym t : CStr) :
    (c :: sym).isPrefixOf (x :: t) = false := by
  simp [List.isPrefixOf, Ne.symm hx]

theorem isPrefixOf_append_self (sym r : CStr) : sym.isPrefixOf (sym ++ r) = true := by
  rw [List.isPrefixOf_iff_prefix]; exact List.prefix_append sym r

/-- A text without the character `c` holds no occurrence of a string that
starts with `c`. -/
theorem strstr_none_of_not_mem {c : Char} (sym : CStr) :
    ∀ t : CStr, c ∉ t → strstr t (c :: sym) = none
  | [], _ => by simp [strstr, List.isPrefixOf]
  | x :: t, h => by
    have hx : x ≠ c := fun e => h (by rw [e]; exact List.mem_cons_self _ _)
    have ht : c ∉ t := fun e => h (List.mem_cons_of_mem _ e)
    simp only [strstr, isPrefixOf_cons_ne hx, Bool.false_eq_true, if_false]
    exact strstr_none_of_not_mem sym t ht

theorem strstr_append_of_not_mem {c : Char} (sym r : CStr) :
    ∀ t : CStr, c ∉ t → strstr (t ++ (c :: sym) ++ r) (c :: sym) = some ((c :: sym) ++ r)
  | [], _ => by
    have := isPrefixOf_append_self (c :: sym) r
    simp only [List.nil_append, List.cons_append] at this ⊢
    simp only [strstr, this, if_true]
  | x :: t, h => by
    have hx : x ≠ c := fun e => h (by rw [e]; exact List.mem_cons_self _ _)
    have ht : c ∉ t := fun e => h (List.mem_cons_of_mem _ e)
    have ih := strstr_append_of_not_mem sym r t ht
    simp only [List.cons_append, List.append_assoc] at ih ⊢
    simp only [strstr, isPrefixOf_cons_ne hx, Bool.false_eq_true, if_false]
    exact ih

theorem isPrefixOf_short_run {c : Char} :
    ∀ (sym u t : CStr), AllC c sym → AllC c u → u.length < sym.length → c ∉ t →
      sym.isPrefixOf (u ++ t) = false
  | [], u, _, _, _, hl, _ => by simp at hl
  | s :: sym, [], [], _, _, _, _ => by simp [List.isPrefixOf]
  | s :: sym, [], x :: t, hs, _, _, ht => by
    have hsc : s = c := hs s (List.mem_cons_self _ _)
    have hx : x ≠ c := fun e => ht (by rw [e]; exact List.mem_cons_self _ _)
    subst hsc
    simpa using isPrefixOf_cons_ne hx sym t
  | s :: sym, y :: u, t, hs, hu, hl, ht => by
    have hs' : AllC c sym := fun x hx => hs x (List.mem_cons_of_mem _ hx)
    have hu' : AllC c u := fun x hx => hu x (List.mem_cons_of_mem _ hx)
    have hl' : u.length < sym.length := by simpa using hl
    have ih := isPrefixOf_short_run sym u t hs' hu' hl' ht
    simp only [List.cons_append, List.isPrefixOf, List.append_eq, ih, Bool.and_false]

theorem strstr_short_run {c : Char} (sym : CStr) (hs : AllC c (c :: sym)) :
    ∀ (u t : CStr), AllC c u → u.length < (c :: sym).length → c ∉ t →
      strstr (u ++ t) (c :: sym) = none
  | [], t, _, _, ht => by simpa using strstr_none_of_not_mem sym t ht
  | y :: u, t, hu, hl, ht => by
    have hu' : AllC c u := fun x hx => hu x (List.mem_cons_of_mem _ hx)
    have h1 := isPrefixOf_short_run (c :: sym) (y :: u) t hs hu hl ht
    simp only [List.cons_append] at h1 ⊢
    simp only [strstr, h1, Bool.false_eq_true, if_false]
    exact strstr_short_run sym hs u t hu' (by simp at hl ⊢; omega) ht

theorem isPrefixOf_of_length_lt : ∀ (sym u : CStr), u.length < sym.length →
    sym.isPrefixOf u = false
  | [], u, h => by simp at h
  | _ :: _, [], _ => by simp [List.isPrefixOf]
  | s :: sym, x :: u, h => by
    have := isPrefixOf_of_length_lt sym u (by simpa using h)
    simp only [List.isPrefixOf, this, Bool.and_false]

theorem strstr_none_of_length_lt (sym : CStr) : ∀ u : CStr, u.length < sym.length →
    strstr u sym = none
  | [], h => by
    simp only [strstr, isPrefixOf_of_length_lt sym [] h, Bool.false_eq_true, if_false]
  | x :: u, h => by
    simp only [strstr, isPrefixOf_of_length_lt sym (x :: u) h, Bool.false_eq_true, if_false]
    exact strstr_none_of_length_lt sym u (by simp at h ⊢; omega)

theorem strstr_self_append (sym r : CStr) (h : sym ≠ []) : strstr (sym ++ r) sym = some (sym ++ r) := by
  cases sym with
  | nil => exact absurd rfl h
  | cons s sym =>
    have := isPrefixOf_append_self (s :: sym) r
    simp only [List.cons_append] at this ⊢
    simp only [strstr, this, if_true]

/-- The next `strcnt(sym)` characters of a string that does not start with
`c` do not hold the symbol. -/
theorem strstr_take_of_noHead {c : Char} (sym r : CStr) (h : NoHead c r) :
    strstr (r.take (c :: sym).length) (c :: sym) = none := by
  cases r with
  | nil => simp [strstr, List.isPrefixOf]
  | cons x r =>
    have hx : x ≠ c := h x rfl
    simp only [List.length_cons, List.take_succ_cons, strstr, isPrefixOf_cons_ne hx,
      Bool.false_eq_true, if_false]
    apply strstr_none_of_length_lt
    simp only [List.length_take, List.length_cons]
    omega

theorem strskp_loop_stop (skstr : CStr) (fuel : Nat) (str : CStr) (offset : Nat)
    (h : strstr (str.take skstr.length) skstr = none) :
    strskp_loop skstr (fuel + 1) str offset = some offset := by
  simp only [strskp_loop, h]

theorem strskp_noHead {c : Char} (sym r : CStr) (h : NoHead c r) :
    strskp r (c :: sym) = some 0 :=
  strskp_loop_stop (c :: sym) r.length r 0 (strstr_take_of_noHead sym r h)

/-- One symbol in front of a text that does not start with `c` is skipped,
and nothing more. -/
theorem strskp_symbol {c : Char} (sym r : CStr) (h : NoHead c r) :
    strskp ((c :: sym) ++ r) (c :: sym) = some (c :: sym).length := by
  have h1 : ((c :: sym) ++ r).take (c :: sym).length = c :: sym := by
    rw [List.take_append_eq_append_take]; simp
  have h2 : strstr (c :: sym) (c :: sym) = some (c :: sym) := by
    simpa using strstr_self_append (c :: sym) [] (by simp)
  have h3 : ((c :: sym) ++ r).drop (c :: sym).length = r := List.drop_left _ _
  have hf : ((c :: sym) ++ r).length + 1 = (sym.length + r.length) + 1 + 1 := by
    simp only [List.length_append, List.length_cons]; omega
  unfold strskp
  rw [hf, strskp_loop, h1, h2]
  simp only
  rw [h3, strskp_loop_stop _ _ _ _ (strstr_take_of_noHead sym r h)]
  simp

theorem stoken_loop_stop (dmstr : CStr) (fuel : Nat) (substr : CStr) (counter : Int)
    (h : strstr substr dmstr = none) :
    stoken_loop dmstr (fuel + 1) substr counter = some counter := by
  simp only [stoken_loop, h]

/-- One iteration of the counting loop: a text without `c`, the symbol, and
a rest that does not start with `c`. -/
theorem stoken_loop_step {c : Char} (sym t r : CStr) (fuel : Nat) (counter : Int)
    (ht : c ∉ t) (hr : NoHead c r) :
    stoken_loop (c :: sym) (fuel + 1) (t ++ (c :: sym) ++ r) counter =
      stoken_loop (c :: sym) fuel r (counter + 1) := by
  simp only [stoken_loop, strstr_append_of_not_mem sym r t ht, strskp_symbol sym r hr]
  rw [List.drop_left]

theorem joinSym_noHead {c : Char} (sym : CStr) (t : CStr) (ts : List CStr)
    (h : Pieces c (t :: ts)) : NoHead c (joinSym sym (t :: ts)) := by
  obtain ⟨hne, hc⟩ := h t (List.mem_cons_self _ _)
  cases t with
  | nil => exact absurd rfl hne
  | cons x t =>
    have hx : x ≠ c := fun e => hc (by rw [e]; exact List.mem_cons_self _ _)
    intro y hy
    cases ts with
    | nil => simp only [joinSym, List.head?_cons, Option.some.injEq] at hy; exact hy ▸ hx
    | cons t1 ts =>
      simp only [joinSym, List.cons_append, List.head?_cons, Option.some.injEq] at hy
      exact hy ▸ hx

/-- The counting loop on pieces joined by the symbol: one count per symbol. -/
theorem stoken_loop_joinSym {c : Char} (sym : CStr) :
    ∀ (ts : List CStr) (t : CStr) (fuel : Nat) (counter : Int), Pieces c (t :: ts) →
      ts.length < fuel →
      stoken_loop (c :: sym) fuel (joinSym (c :: sym) (t :: ts)) counter =
        some (counter + (ts.length : Int))
  | [], t, fuel, counter, h, hf => by
    obtain ⟨k, rfl⟩ : ∃ k, fuel = k + 1 := ⟨fuel - 1, by simp at hf; omega⟩
    simp only [joinSym, List.length_nil, Nat.cast_zero, add_zero]
    exact stoken_loop_stop _ _ _ _ (strstr_none_of_not_mem sym t (h t (List.mem_cons_self _ _)).2)
  | t1 :: ts, t, fuel, counter, h, hf => by
    obtain ⟨k, rfl⟩ : ∃ k, fuel = k + 1 := ⟨fuel - 1, by simp at hf; omega⟩
    have h' : Pieces c (t1 :: ts) := fun x hx => h x (List.mem_cons_of_mem _ hx)
    simp only [joinSym]
    rw [stoken_loop_step sym t _ k counter (h t (List.mem_cons_self _ _)).2
      (joinSym_noHead (c :: sym) t1 ts h')]
    rw [stoken_loop_joinSym sym ts t1 k (counter + 1) h' (by simp at hf; omega)]
    simp only [List.length_cons, Nat.cast_add, Nat.cast_one]
    congr 1
    omega

theorem joinSym_length {c : Char} (sym : CStr) :
    ∀ (ts : List CStr) (t : CStr), Pieces c (t :: ts) →
      ts.length + 1 ≤ (joinSym sym (t :: ts)).length
  | [], t, h => by
    have := (h t (List.mem_cons_self _ _)).1
    simp only [joinSym, List.length_nil, zero_add]
    exact List.length_pos.mpr this
  | t1 :: ts, t, h => by
    have h' : Pieces c (t1 :: ts) := fun x hx => h x (List.mem_cons_of_mem _ hx)
    have := joinSym_length sym ts t1 h'
    have ht := List.length_pos.mpr (h t (List.mem_cons_self _ _)).1
    simp only [joinSym, List.length_append, List.length_cons] at this ⊢
    omega

/-- Two or more joined pieces end with the symbol followed by the last
piece. -/
theorem joinSym_last (sym : CStr) :
    ∀ (ts : List CStr) (t t1 : CStr),
      ∃ X, joinSym sym (t :: t1 :: ts) = X ++ sym ++ (t1 :: ts).getLast (by simp)
  | [], t, t1 => ⟨t, by simp [joinSym]⟩
  | t2 :: ts, t, t1 => by
    obtain ⟨X, hX⟩ := joinSym_last sym ts t1 t2
    refine ⟨t ++ sym ++ X, ?_⟩
    have : joinSym sym (t :: t1 :: t2 :: ts) = t ++ sym ++ joinSym sym (t1 :: t2 :: ts) := rfl
    rw [this, hX]
    simp [List.getLast_cons]

/-- The closing test of `stoken_counter` finds nothing when the string ends
with the symbol followed by at least two characters free of `c`. -/
theorem strstr_tail_none {c : Char} (sym X tm : CStr) (hs : AllC c (c :: sym))
    (htm : c ∉ tm) (hlen : 2 ≤ tm.length) :
    strstr ((X ++ (c :: sym) ++ tm).drop
      ((X ++ (c :: sym) ++ tm).length - (c :: sym).length - 1)) (c :: sym) = none := by
  have hn : (X ++ (c :: sym) ++ tm).length - (c :: sym).length - 1 =
      X.length + (tm.length - 1) := by
    simp only [List.length_append, List.length_cons]; omega
  rw [hn, List.append_assoc, List.drop_append, List.drop_append_eq_append_drop]
  apply strstr_short_run sym hs
  · intro x hx; exact hs x (List.mem_of_mem_drop hx)
  · simp only [List.length_drop, List.length_cons]; omega
  · intro h; exact htm (List.mem_of_mem_drop h)

/-- Counting theorem: for two or more non-empty pieces free of `c`, joined by
a symbol made of `c`, the last piece at least two characters long,
`stoken_counter` returns the number of pieces. -/
theorem stoken_counter_joinSym {c : Char} (sym : CStr) (hs : AllC c (c :: sym))
    (t t1 : CStr) (ts : List CStr) (h : Pieces c (t :: t1 :: ts))
    (hlast : 2 ≤ ((t1 :: ts).getLast (by simp)).length) :
    stoken_counter (joinSym (c :: sym) (t :: t1 :: ts)) (c :: sym) =
      some ((ts.length : Int) + 2) := by
  have hlen := joinSym_length (c :: sym) (t1 :: ts) t h
  have hne : joinSym (c :: sym) (t :: t1 :: ts) ≠ [] := by
    intro e; rw [e] at hlen; simp at hlen
  obtain ⟨X, hX⟩ := joinSym_last (c :: sym) ts t t1
  have hmem : (t1 :: ts).getLast (by simp) ∈ t :: t1 :: ts :=
    List.mem_cons_of_mem _ (List.getLast_mem _)
  have htail := strstr_tail_none sym X _ hs (h _ hmem).2 hlast
  rw [← hX] at htail
  have hoff : strcnt (joinSym (c :: sym) (t :: t1 :: ts)) - strcnt (c :: sym) - 1 =
      (((joinSym (c :: sym) (t :: t1 :: ts)).length - (c :: sym).length - 1 : Nat) : Int) := by
    have : (c :: sym).length + 1 ≤ (joinSym (c :: sym) (t :: t1 :: ts)).length := by
      rw [hX]; simp only [List.length_append, List.length_cons] at hlast ⊢; omega
    unfold strcnt
    omega
  unfold stoken_counter
  simp only [hne, if_false, strskp_noHead sym _ (joinSym_noHead (c :: sym) t (t1 :: ts) h),
    List.drop_zero]
  rw [stoken_loop_joinSym sym (t1 :: ts) t _ 0 h (by omega)]
  simp only [hoff, Int.toNat_ofNat, htail, Option.isSome_none, Bool.false_eq_true, if_false]
  split
  · omega
  · simp only [List.length_cons, Nat.cast_add, Nat.cast_one, zero_add]
    congr 1

theorem strip_newline_of_last {tok : CStr} {x : Char} (h : tok.getLast? = some x)
    (hx : x ≠ '\n') : strip_newline tok = some tok := by
  simp only [strip_newline, h, hx, if_false]

/-- A non-empty string without newline is left as it is by the closing
step. -/
theorem strip_newline_of_not_mem {tok : CStr} (hne : tok ≠ []) (hn : '\n' ∉ tok) :
    strip_newline tok = some tok := by
  cases h : tok.getLast? with
  | none => exact absurd (List.getLast?_eq_none_iff.mp h) hne
  | some x =>
    have hx : x ∈ tok := List.mem_of_getLast?_eq_some h
    exact strip_newline_of_last h (fun e => hn (e ▸ hx))

/-- The two tokens of a command part and a file part around one symbol. -/
theorem stokenize_two {c : Char} (sym : CStr) (hs : AllC c (c :: sym)) (cmd rest : CStr)
    (hcmd : cmd ≠ []) (hc1 : c ∉ cmd) (hc2 : c ∉ rest) (hlen : 2 ≤ rest.length)
    (hnl : '\n' ∉ rest) :
    stokenize (cmd ++ (c :: sym) ++ rest) (c :: sym) = some (some [cmd, rest]) := by
  have hrest : rest ≠ [] := by intro e; rw [e] at hlen; simp at hlen
  have hp : Pieces c [cmd, rest] := by
    intro t ht
    simp only [List.mem_cons, List.mem_singleton, List.not_mem_nil, or_false] at ht
    rcases ht with rfl | rfl
    · exact ⟨hcmd, hc1⟩
    · exact ⟨hrest, hc2⟩
  have hcount := stoken_counter_joinSym sym hs cmd rest [] hp (by simpa using hlen)
  have hj : joinSym (c :: sym) [cmd, rest] = cmd ++ (c :: sym) ++ rest := rfl
  rw [hj] at hcount
  have hnh : NoHead c (cmd ++ (c :: sym) ++ rest) := by
    rw [← hj]; exact joinSym_noHead (c :: sym) cmd [rest] hp
  have hnr : NoHead c rest := by
    intro x hx e
    cases rest with
    | nil => simp at hx
    | cons y r =>
      simp only [List.head?_cons, Option.some.injEq] at hx
      exact hc2 (by rw [← e, ← hx]; exact List.mem_cons_self _ _)
  have htok : (cmd ++ (c :: sym) ++ rest).take
      ((cmd ++ (c :: sym) ++ rest).length - ((c :: sym) ++ rest).length) = cmd := by
    have : (cmd ++ (c :: sym) ++ rest).length - ((c :: sym) ++ rest).length = cmd.length := by
      simp only [List.length_append, List.length_cons]; omega
    rw [this, List.append_assoc, List.take_left]
  have hend : (match ((c :: sym) ++ rest).drop (c :: sym).length with
      | '\n' :: _ => []
      | next => next) = rest := by
    rw [List.drop_left]
    cases rest with
    | nil => rfl
    | cons y r =>
      have : y ≠ '\n' := fun e => hnl (by rw [← e]; exact List.mem_cons_self _ _)
      split
      · rename_i heq
        simp only [List.cons.injEq] at heq
        exact absurd heq.1 this
      · rfl
  have h1 : sstrtok (some (cmd ++ (c :: sym) ++ rest)) (c :: sym) none =
      some (some cmd, some rest) := by
    simp only [sstrtok, strskp_noHead sym _ hnh, List.drop_zero,
      strstr_append_of_not_mem sym rest cmd hc1, strskp_symbol sym rest hnr]
    rw [htok, hend]
  have h2 : sstrtok none (c :: sym) (some rest) = some (some rest, none) := by
    cases rest with
    | nil => exact absurd rfl hrest
    | cons y r =>
      simp only [sstrtok, strstr_none_of_not_mem sym (y :: r) hc2]
  have h3 : strip_last [cmd, rest] = some [cmd, rest] := by
    simp only [strip_last, List.getLast?_cons_cons, List.getLast?_singleton,
      strip_newline_of_not_mem hrest hnl, List.dropLast_cons₂, List.dropLast_single,
      List.singleton_append]
  have h20 : ((2 : Int) = 0) = False := by simp
  simp only [stokenize, hcount, List.length_nil, Nat.cast_zero, zero_add, h20, if_false, h1]
  have : (2 : Int).toNat - 1 = 1 := by decide
  rw [this]
  simp only [stokenize_rest, h2, h3]

theorem strpbrk_single (delim : CStr) (c : Char) :
    (strpbrk [c] delim).isSome = delim.contains c := by
  simp only [strpbrk]
  cases h : delim.contains c <;> simp

theorem skip_delim_cons (delim : CStr) (c : Char) (s : CStr) :
    skip_delim (c :: s) delim = if delim.contains c then skip_delim s delim + 1 else 0 := by
  simp only [skip_delim, strpbrk_single]

theorem lastIsDelim_cons (delim : CStr) (b : Bool) (c : Char) (s : CStr) :
    lastIsDelim delim b (c :: s) = lastIsDelim delim (delim.contains c) s := by
  cases s with
  | nil => simp [lastIsDelim]
  | cons y s =>
    simp only [lastIsDelim, List.getLast?_cons_cons]
    cases h : (y :: s).getLast? with
    | none => simp at h
    | some z => rfl

/-- Words and delimiter runs alternate. -/
theorem words_runs (delim : CStr) : ∀ s : CStr,
    (countWords delim true s + (lastIsDelim delim false s).toNat = delimRuns delim false s) ∧
    (countWords delim false s + (lastIsDelim delim true s).toNat = delimRuns delim true s + 1)
  | [] => by simp [countWords, delimRuns, lastIsDelim]
  | c :: s => by
    obtain ⟨g, h⟩ := words_runs delim s
    by_cases hc : delim.contains c
    · simp only [countWords, delimRuns, lastIsDelim_cons, hc, if_true, Bool.false_eq_true,
        if_false]
      omega
    · simp only [Bool.not_eq_true] at hc
      simp only [countWords, delimRuns, lastIsDelim_cons, hc, Bool.false_eq_true, if_false,
        if_true]
      omega

theorem delimRuns_skip (delim : CStr) : ∀ s : CStr,
    delimRuns delim true s = delimRuns delim false (s.drop (skip_delim s delim))
  | [] => by simp [delimRuns, skip_delim]
  | c :: s => by
    by_cases hc : delim.contains c
    · simp only [skip_delim_cons, hc, if_true, List.drop_succ_cons, delimRuns, zero_add]
      exact delimRuns_skip delim s
    · simp only [Bool.not_eq_true] at hc
      simp only [skip_delim_cons, hc, Bool.false_eq_true, if_false, List.drop_zero, delimRuns]

theorem length_drop_skip_delim (delim : CStr) (s : CStr) :
    (s.drop (skip_delim s delim)).length ≤ s.length := by
  simp only [List.length_drop]; omega

theorem strpbrk_none_runs (delim : CStr) : ∀ (s : CStr) (b : Bool),
    strpbrk s delim = none → delimRuns delim b s = 0
  | [], _, _ => rfl
  | c :: s, b, h => by
    by_cases hc : delim.contains c
    · simp only [strpbrk, hc, if_true] at h
      cases h
    · simp only [Bool.not_eq_true] at hc
      simp only [strpbrk, hc, Bool.false_eq_true, if_false] at h
      simp only [delimRuns, hc, Bool.false_eq_true, if_false]
      exact strpbrk_none_runs delim s false h

theorem strpbrk_some_runs (delim : CStr) : ∀ (s p : CStr),
    strpbrk s delim = some p →
      delimRuns delim false s = delimRuns delim false p ∧ p.length ≤ s.length ∧
      ∃ x q, p = x :: q ∧ delim.contains x = true
  | [], p, h => by simp [strpbrk] at h
  | c :: s, p, h => by
    by_cases hc : delim.contains c
    · simp only [strpbrk, hc, if_true, Option.some.injEq] at h
      subst h
      exact ⟨rfl, le_refl _, c, s, rfl, hc⟩
    · simp only [Bool.not_eq_true] at hc
      simp only [strpbrk, hc, Bool.false_eq_true, if_false] at h
      obtain ⟨h1, h2, h3⟩ := strpbrk_some_runs delim s p h
      refine ⟨?_, ?_, h3⟩
      · simp only [delimRuns, hc, Bool.false_eq_true, if_false]; exact h1
      · simp only [List.length_cons]; omega

/-- The counting loop of `ctoken_counter` adds one per run of delimiters. -/
theorem ctoken_loop_eq (delim : CStr) : ∀ (fuel : Nat) (substr : CStr) (counter : Int),
    substr.length < fuel →
      ctoken_loop delim fuel substr counter =
        some (counter + (delimRuns delim false substr : Int))
  | 0, _, _, h => absurd h (Nat.not_lt_zero _)
  | fuel + 1, substr, counter, h => by
    unfold ctoken_loop
    cases hp : strpbrk substr delim with
    | none => simp [strpbrk_none_runs delim substr false hp]
    | some p =>
      obtain ⟨h1, h2, x, q, rfl, hx⟩ := strpbrk_some_runs delim substr p hp
      simp only
      have hlen : ((x :: q).drop (skip_delim (x :: q) delim)).length < fuel := by
        simp only [skip_delim_cons, hx, if_true, List.drop_succ_cons]
        have := length_drop_skip_delim delim q
        simp only [List.length_cons] at h2
        omega
      rw [ctoken_loop_eq delim fuel _ (counter + 1) hlen, h1]
      have : delimRuns delim false (x :: q) =
          1 + delimRuns delim false ((x :: q).drop (skip_delim (x :: q) delim)) := by
        simp only [delimRuns, hx, if_true, Bool.false_eq_true, if_false, skip_delim_cons,
          List.drop_succ_cons]
        rw [delimRuns_skip]
      rw [this]
      push_cast
      congr 1
      omega

theorem drop_length_sub_one_of_getLast? : ∀ (s : CStr) (x : Char), s.getLast? = some x →
    s.drop (s.length - 1) = [x]
  | [], _, h => by simp at h
  | [a], x, h => by simpa using h
  | a :: b :: s, x, h => by
    rw [List.getLast?_cons_cons] at h
    have ih := drop_length_sub_one_of_getLast? (b :: s) x h
    have : (a :: b :: s).length - 1 = ((b :: s).length - 1) + 1 := by simp
    rw [this, List.drop_succ_cons]
    exact ih

/-- Counting theorem of `ctoken_counter`, for a non-empty string that does
not end with a newline: the result is the number of words. -/
theorem ctoken_counter_eq (delim : CStr) (s : CStr) (hne : s ≠ [])
    (hnl : s.getLast? ≠ some '\n') :
    ctoken_counter s delim = some (countWords delim false s : Int) := by
  obtain ⟨x, hx⟩ : ∃ x, s.getLast? = some x := by
    cases h : s.getLast? with
    | none => exact absurd (List.getLast?_eq_none_iff.mp h) hne
    | some x => exact ⟨x, rfl⟩
  have hpos : 0 < s.length := List.length_pos.mpr hne
  have hdrop : s.drop (s.length - 1) = [x] := drop_length_sub_one_of_getLast? s x hx
  have hw := (words_runs delim s).2
  have hl : lastIsDelim delim true s = delim.contains x := by
    simp only [lastIsDelim, hx]
  rw [hl, delimRuns_skip] at hw
  unfold ctoken_counter
  simp only [hne, if_false, hnl, sub_zero]
  rw [ctoken_loop_eq delim _ _ 0 (by have := length_drop_skip_delim delim s; omega)]
  have hoff : strcnt s - 1 = ((s.length - 1 : Nat) : Int) := by unfold strcnt; omega
  simp only [hoff, Int.toNat_ofNat, hdrop, strpbrk_single]
  have : ¬ (((s.length - 1 : Nat) : Int) < 0) := by omega
  simp only [this, if_false]
  by_cases hc : delim.contains x
  · simp only [hc, if_true, Bool.toNat_true] at hw ⊢
    congr 1
    omega
  · simp only [Bool.not_eq_true] at hc
    simp only [hc, Bool.false_eq_true, if_false, Bool.toNat_false] at hw ⊢
    congr 1
    omega

theorem countWords_dropWhile (delim : CStr) : ∀ s : CStr,
    countWords delim false (s.dropWhile (fun c => delim.contains c)) = countWords delim false s
  | [] => rfl
  | c :: s => by
    cases hc : delim.contains c
    · simp only [List.dropWhile, hc]
    · simp only [List.dropWhile, hc, countWords, if_true]
      exact countWords_dropWhile delim s

theorem countWords_after_word (delim : CStr) : ∀ t : CStr,
    countWords delim false ((t.dropWhile (fun x => !delim.contains x)).drop 1) =
      countWords delim true t
  | [] => rfl
  | y :: t => by
    cases hy : delim.contains y
    · simp only [List.dropWhile, hy, Bool.not_false, countWords, Bool.false_eq_true, if_false,
        if_true, zero_add]
      exact countWords_after_word delim t
    · simp only [List.dropWhile, hy, Bool.not_true, List.drop_succ_cons, List.drop_zero,
        countWords, if_true]

theorem countWords_pos_of_mem (delim : CStr) : ∀ s : CStr,
    (∃ x ∈ s, delim.contains x = false) → 0 < countWords delim false s
  | [], h => by obtain ⟨x, hx, _⟩ := h; simp at hx
  | c :: s, h => by
    cases hc : delim.contains c
    · simp only [countWords, hc, Bool.false_eq_true, if_false]; omega
    · simp only [countWords, hc, if_true]
      apply countWords_pos_of_mem delim s
      obtain ⟨x, hx, hxd⟩ := h
      rcases List.mem_cons.mp hx with rfl | hx
      · rw [hc] at hxd; cases hxd
      · exact ⟨x, hx, hxd⟩

/-- One call of `strtok` on a string that still holds a word: the token is
the first word, and one word less is left. -/
theorem strtok_spec (delim s : CStr) (h : 0 < countWords delim false s) :
    ∃ saved, strtok s delim = some (firstWord delim s, saved) ∧
      countWords delim false s = countWords delim false saved + 1 ∧
      firstWord delim s ≠ [] ∧ (∀ x ∈ firstWord delim s, x ∈ s) ∧ (∀ x ∈ saved, x ∈ s) := by
  have hsub : ∀ x ∈ s.dropWhile (fun c => delim.contains c), x ∈ s :=
    fun x hx => (List.dropWhile_sublist _).subset hx
  rw [← countWords_dropWhile] at h ⊢
  unfold strtok firstWord
  cases hs : s.dropWhile (fun c => delim.contains c) with
  | nil => rw [hs] at h; simp [countWords] at h
  | cons c t =>
    rw [hs] at hsub h
    have hc : delim.contains c = false := by
      have := List.head_dropWhile_not (fun c => delim.contains c) s (by rw [hs]; simp)
      simp only [hs, List.head_cons] at this
      simpa using this
    refine ⟨_, rfl, ?_, ?_, ?_, ?_⟩
    · simp only [countWords, hc, Bool.false_eq_true, if_false, List.dropWhile, Bool.not_false]
      rw [countWords_after_word]
      omega
    · simp only [List.takeWhile, hc, Bool.not_false]
      exact List.cons_ne_nil _ _
    · intro x hx
      exact hsub x ((List.takeWhile_sublist _).subset hx)
    · intro x hx
      exact hsub x ((List.dropWhile_sublist _).subset (List.mem_of_mem_drop hx))

/-- The copying loop of `ctokenize` asked for no more tokens than there are
words: it is defined, and the tokens are non-empty pieces of the string,
the first one its first word. -/
theorem ctokenize_rest_spec (delim : CStr) : ∀ (k : Nat) (s : CStr),
    k ≤ countWords delim false s →
      ∃ toks, ctokenize_rest delim k s = some toks ∧ toks.length = k ∧
        (∀ t ∈ toks, t ≠ [] ∧ ∀ x ∈ t, x ∈ s) ∧
        (0 < k → toks.head? = some (firstWord delim s))
  | 0, s, _ => ⟨[], rfl, rfl, by simp, by simp⟩
  | k + 1, s, h => by
    obtain ⟨saved, h1, h2, h3, h4, h5⟩ := strtok_spec delim s (by omega)
    obtain ⟨toks, e1, e2, e3, _⟩ := ctokenize_rest_spec delim k saved (by omega)
    refine ⟨firstWord delim s :: toks, ?_, by simp [e2], ?_, fun _ => rfl⟩
    · simp only [ctokenize_rest, h1, e1]
    · intro t ht
      rcases List.mem_cons.mp ht with rfl | ht
      · exact ⟨h3, h4⟩
      · exact ⟨(e3 t ht).1, fun x hx => h5 x ((e3 t ht).2 x hx)⟩

/-- The function `ctokenize` on a string without newline that holds a word:
the array returned starts with the first word. -/
theorem ctokenize_spec (delim s : CStr) (hnl : '\n' ∉ s)
    (hw : ∃ x ∈ s, delim.contains x = false) :
    ∃ toks, ctokenize s delim = some (some (firstWord delim s :: toks)) := by
  have hne : s ≠ [] := by
    obtain ⟨x, hx, _⟩ := hw
    intro e; rw [e] at hx; simp at hx
  have hlast : s.getLast? ≠ some '\n' := fun e => hnl (List.mem_of_getLast?_eq_some e)
  have hpos := countWords_pos_of_mem delim s hw
  obtain ⟨toks, e1, e2, e3, e4⟩ := ctokenize_rest_spec delim (countWords delim false s) s
    (le_refl _)
  cases toks with
  | nil => simp at e2; omega
  | cons t0 toks =>
    have ht0 : t0 = firstWord delim s := by
      have := e4 hpos
      simpa using this
    have hstrip : strip_last (t0 :: toks) = some (t0 :: toks) := by
      unfold strip_last
      cases hl : (t0 :: toks).getLast? with
      | none => simp at hl
      | some last =>
        have hmem : last ∈ t0 :: toks := List.mem_of_getLast?_eq_some hl
        have hl1 := strip_newline_of_not_mem (e3 last hmem).1
          (fun hx => hnl ((e3 last hmem).2 _ hx))
        simp only [hl1]
        rw [List.dropLast_append_getLast? last hl]
    have hz : ¬ ((countWords delim false s : Int) = 0) := by omega
    refine ⟨toks, ?_⟩
    subst ht0
    simp only [ctokenize, ctoken_counter_eq delim s hne hlast, hz, if_false, Int.toNat_ofNat,
      e1, hstrip]

/-- The symbols searched by `pipe_redirect_filename` are made of a single
character. -/
theorem redirect_target_symbol {tokens redirection : Int} {symb : CStr} {index : Int}
    (h : redirect_target tokens redirection = some (symb, index)) :
    ∃ c sym, symb = c :: sym ∧ AllC c (c :: sym) := by
  unfold redirect_target at h
  split at h
  · simp only [Option.some.injEq, Prod.mk.injEq] at h
    exact ⟨'<', [], h.1.symm, by intro x hx; simpa using hx⟩
  · split at h
    · simp only [Option.some.injEq, Prod.mk.injEq] at h
      exact ⟨'>', [], h.1.symm, by intro x hx; simpa using hx⟩
    · split at h
      · simp only [Option.some.injEq, Prod.mk.injEq] at h
        refine ⟨'>', ['>'], h.1.symm, ?_⟩
        intro x hx
        simp only [List.mem_cons, List.mem_singleton, List.not_mem_nil, or_false, or_self] at hx
        exact hx
      · cases h

theorem pieces_of_forall {c : Char} {sym : CStr} {ts : List CStr}
    (h : ∀ p ∈ ts, p ≠ [] ∧ ∀ x ∈ c :: sym, x ∉ p) : Pieces c ts :=
  fun p hp => ⟨(h p hp).1, (h p hp).2 c (List.mem_cons_self _ _)⟩

theorem strstr_ne_none_iff (n : CStr) : ∀ s : CStr,
    strstr s n ≠ none ↔ ∃ a b, s = a ++ n ++ b
  | [] => by
    constructor
    · intro h
      by_cases hp : n.isPrefixOf [] = true
      · have : n = [] := by
          cases n with
          | nil => rfl
          | cons x n => simp [List.isPrefixOf] at hp
        exact ⟨[], [], by simp [this]⟩
      · simp [strstr, hp] at h
    · rintro ⟨a, b, h⟩
      have hn : n = [] := by
        have := congrArg List.length h
        simp only [List.length_nil, List.length_append] at this
        exact List.length_eq_zero.mp (by omega)
      subst hn
      simp [strstr, List.isPrefixOf]
  | c :: s => by
    have ih := strstr_ne_none_iff n s
    constructor
    · intro h
      by_cases hp : n.isPrefixOf (c :: s) = true
      · obtain ⟨b, hb⟩ := List.isPrefixOf_iff_prefix.mp hp
        exact ⟨[], b, by simpa using hb.symm⟩
      · simp only [strstr, hp, if_false] at h
        obtain ⟨a, b, hab⟩ := ih.mp h
        exact ⟨c :: a, b, by simp [hab]⟩
    · rintro ⟨a, b, h⟩
      by_cases hp : n.isPrefixOf (c :: s) = true
      · simp [strstr, hp]
      · simp only [strstr, hp, if_false]
        apply ih.mpr
        cases a with
        | nil =>
          exfalso
          apply hp
          rw [List.isPrefixOf_iff_prefix]
          exact ⟨b, by simpa using h.symm⟩
        | cons y a =>
          simp only [List.cons_append, List.cons.injEq] at h
          exact ⟨a, b, by simpa using h.2⟩

theorem strstr_take_none {s n : CStr} (h : strstr s n = none) (k : Nat) :
    strstr (s.take k) n = none := by
  by_contra hc
  obtain ⟨a, b, hab⟩ := (strstr_ne_none_iff n _).mp hc
  apply (strstr_ne_none_iff n s).mpr _ h
  refine ⟨a, b ++ s.drop k, ?_⟩
  have := List.take_append_drop k s
  rw [hab] at this
  simpa [List.append_assoc] using this.symm

theorem strstr_drop_none {s n : CStr} (h : strstr s n = none) (k : Nat) :
    strstr (s.drop k) n = none := by
  by_contra hc
  obtain ⟨a, b, hab⟩ := (strstr_ne_none_iff n _).mp hc
  apply (strstr_ne_none_iff n s).mpr _ h
  refine ⟨s.take k ++ a, b, ?_⟩
  have := List.take_append_drop k s
  rw [hab] at this
  simpa [List.append_assoc] using this.symm

/-- A stage that does not hold the symbol and is long enough for the
closing test counts as one token. -/
theorem stoken_counter_absent (str dmstr : CStr) (hne : str ≠ [])
    (habs : strstr str dmstr = none) (hlen : dmstr.length + 1 ≤ str.length) :
    stoken_counter str dmstr = some 1 := by
  have h1 : strskp str dmstr = some 0 :=
    strskp_loop_stop dmstr str.length str 0 (strstr_take_none habs _)
  have h2 : ¬ (strcnt str - strcnt dmstr - 1 < 0) := by unfold strcnt; omega
  simp only [stoken_counter, hne, if_false, h1, List.drop_zero,
    stoken_loop_stop dmstr str.length str 0 habs, h2, strstr_drop_none habs,
    Option.isSome_none, Bool.false_eq_true, zero_add]

/-! ## Claims on the redirection resolver -/

/-- C6 (as stated, refuted): in the last stage ` sort > a b` the symbol ">"
occurs exactly once and the text that follows it, blanks removed at both
ends, is `a b`, but the file name returned is `a`; and in the last stage
`> out`, where ">" also occurs exactly once, no redirection is reported and
the stage is left as it is. -/
theorem pipe_redirect_filename_first_word_only :
    pipe_redirect_filename
        [['l', 's', ' '], [' ', 's', 'o', 'r', 't', ' ', '>', ' ', 'a', ' ', 'b']] 2 REDOUT
        ErrorType.EOK =
      some ⟨some ['a'], ErrorType.EOK, [['l', 's', ' '], [' ', 's', 'o', 'r', 't', ' ']]⟩ ∧
    pipe_redirect_filename [['l', 's', ' '], ['>', ' ', 'o', 'u', 't']] 2 REDOUT
        ErrorType.EOK =
      some ⟨none, ErrorType.EOK, [['l', 's', ' '], ['>', ' ', 'o', 'u', 't']]⟩ := by
  decide

/-- C6 (amended): let the eligible stage be `cmd ++ symb ++ rest`, where
`symb` is the symbol searched, `cmd` is non-empty, neither `cmd` nor `rest`
holds a character of the symbol, and `rest` has at least two characters, no
newline and a character other than a blank.  Then `pipe_redirect_filename`
returns the first blank-delimited word of `rest`, leaves `pg_errno` as it
was, and truncates the stage in place to `cmd`. -/
theorem pipe_redirect_filename_splits (pipe_tokens : List CStr) (tokens redirection : Int)
    (pgErr : ErrorType) (symb : CStr) (index : Int) (cmd rest : CStr)
    (htarget : redirect_target tokens redirection = some (symb, index))
    (hidx : 0 ≤ index)
    (hstage : pipe_tokens.get? index.toNat = some (cmd ++ symb ++ rest))
    (hcmd : cmd ≠ []) (hc1 : ∀ x ∈ symb, x ∉ cmd) (hc2 : ∀ x ∈ symb, x ∉ rest)
    (hlen : 2 ≤ rest.length) (hnl : '\n' ∉ rest) (hword : ∃ x ∈ rest, x ≠ ' ') :
    pipe_redirect_filename pipe_tokens tokens redirection pgErr =
      some ⟨some (firstWord [' '] rest), pgErr, pipe_tokens.set index.toNat cmd⟩ := by
  obtain ⟨c, sym, rfl, hs⟩ := redirect_target_symbol htarget
  have hcc : c ∈ c :: sym := List.mem_cons_self _ _
  have hrest : rest ≠ [] := by intro e; rw [e] at hlen; simp at hlen
  have hp : Pieces c [cmd, rest] := by
    intro t ht
    simp only [List.mem_cons, List.mem_singleton, List.not_mem_nil, or_false] at ht
    rcases ht with rfl | rfl
    · exact ⟨hcmd, hc1 c hcc⟩
    · exact ⟨hrest, hc2 c hcc⟩
  have hcount : stoken_counter (cmd ++ (c :: sym) ++ rest) (c :: sym) = some 2 := by
    have := stoken_counter_joinSym sym hs cmd rest [] hp (by simpa using hlen)
    simpa [joinSym] using this
  have htok := stokenize_two sym hs cmd rest hcmd (hc1 c hcc) (hc2 c hcc) hlen hnl
  obtain ⟨toks, hfn⟩ := ctokenize_spec [' '] rest hnl (by
    obtain ⟨x, hx, hxb⟩ := hword
    exact ⟨x, hx, by simpa using hxb⟩)
  have hneg : ¬ (index < 0) := by omega
  have h21 : ¬ ((2 : Int) = 1) := by decide
  have htake : (cmd ++ (c :: sym) ++ rest).take cmd.length = cmd := by
    rw [List.append_assoc, List.take_left]
  simp only [pipe_redirect_filename, htarget, hneg, if_false, hstage, hcount, h21, if_true,
    htok, hfn, htake]

/-- C7 (as the code behaves): the last stage `sort > a >` holds the symbol
">" twice, and `pipe_redirect_filename` does not fail with `ESYNTAX`, the
error its header documents for more than one redirection symbol in one
command: it returns the file name `a` with `pg_errno` left at `EOK` and
cuts the stage to `sort `. -/
theorem pipe_redirect_filename_trailing_symbol :
    ['s', 'o', 'r', 't', ' ', '>', ' ', 'a', ' ', '>'] =
      ['s', 'o', 'r', 't', ' '] ++ ['>'] ++ [' ', 'a', ' '] ++ ['>'] ∧
    pipe_redirect_filename
        [['l', 's', ' '], ['s', 'o', 'r', 't', ' ', '>', ' ', 'a', ' ', '>']] 2 REDOUT
        ErrorType.EOK =
      some ⟨some ['a'], ErrorType.EOK, [['l', 's', ' '], ['s', 'o', 'r', 't', ' ']]⟩ := by
  decide

/-- Where the code does report the documented error: let the eligible stage
be made of three or more non-empty pieces, none holding a character of the
symbol searched, joined by the symbol (`t sym t1 sym t2 ...`), the last
piece at least two characters long.  Then `pipe_redirect_filename` returns
NULL with `pg_errno = ESYNTAX` and leaves the stages unchanged. -/
theorem pipe_redirect_filename_syntax_error (pipe_tokens : List CStr)
    (tokens redirection : Int) (pgErr : ErrorType) (symb : CStr) (index : Int)
    (t t1 t2 : CStr) (ts : List CStr)
    (htarget : redirect_target tokens redirection = some (symb, index))
    (hidx : 0 ≤ index)
    (hstage : pipe_tokens.get? index.toNat = some (joinSym symb (t :: t1 :: t2 :: ts)))
    (hpieces : ∀ p ∈ t :: t1 :: t2 :: ts, p ≠ [] ∧ ∀ x ∈ symb, x ∉ p)
    (hlast : 2 ≤ ((t2 :: ts).getLast (List.cons_ne_nil _ _)).length) :
    pipe_redirect_filename pipe_tokens tokens redirection pgErr =
      some ⟨none, ErrorType.ESYNTAX, pipe_tokens⟩ := by
  obtain ⟨c, sym, rfl, hs⟩ := redirect_target_symbol htarget
  have hp : Pieces c (t :: t1 :: t2 :: ts) := pieces_of_forall hpieces
  have hcount := stoken_counter_joinSym sym hs t t1 (t2 :: ts) hp
    (by simpa [List.getLast_cons] using hlast)
  have hneg : ¬ (index < 0) := by omega
  have h1 : ¬ ((((t2 :: ts).length : Nat) : Int) + 2 = 1) := by
    simp only [List.length_cons]; omega
  have h2 : ¬ ((((t2 :: ts).length : Nat) : Int) + 2 = 2) := by
    simp only [List.length_cons]; omega
  have h3 : ¬ ((((t2 :: ts).length : Nat) : Int) + 2 = -1) := by
    simp only [List.length_cons]; omega
  simp only [pipe_redirect_filename, htarget, hneg, if_false, hstage, hcount, h1, h2, h3]

/-- C8 (as the code behaves): for the pipeline `ls|wc` the last stage `wc`
does not hold ">>", but it is shorter than the symbol plus one character:
the closing test of `stoken_counter` starts one character before the string
and the call has no defined result. -/
theorem pipe_redirect_filename_short_stage :
    stoken_counter ['w', 'c'] ['>', '>'] = none ∧
    pipe_redirect_filename [['l', 's'], ['w', 'c']] 2 REDOUTA ErrorType.EOK = none := by
  decide

/-- Where the eligible stage is long enough for the closing test (at least
one character more than the symbol) and does not hold the symbol,
`pipe_redirect_filename` returns NULL with `pg_errno = EOK` and leaves the
stages unchanged. -/
theorem pipe_redirect_filename_absent (pipe_tokens : List CStr) (tokens redirection : Int)
    (pgErr : ErrorType) (symb : CStr) (index : Int) (stage : CStr)
    (htarget : redirect_target tokens redirection = some (symb, index))
    (hidx : 0 ≤ index) (hstage : pipe_tokens.get? index.toNat = some stage)
    (habs : strstr stage symb = none) (hlen : symb.length + 1 ≤ stage.length) :
    pipe_redirect_filename pipe_tokens tokens redirection pgErr =
      some ⟨none, ErrorType.EOK, pipe_tokens⟩ := by
  have hne : stage ≠ [] := by intro e; rw [e] at hlen; simp at hlen
  have hneg : ¬ (index < 0) := by omega
  simp only [pipe_redirect_filename, htarget, hneg, if_false, hstage,
    stoken_counter_absent stage symb hne habs hlen, if_true]

/-- C9 (as the code behaves): on the pipeline `ls|wc>> out` the resolver
succeeds for ">>" (file name `out`, last stage truncated to `wc`); called
again on the truncated stages with the same symbol it has no defined
result, the stage `wc` being shorter than the symbol plus one character.
On the last stage `>ab> cd` it succeeds for ">" (file name `cd`) but cuts
the stage after as many characters as the command part `ab` has, leaving
`>a`; called again it returns NULL with `pg_errno = ESYNTAX`. -/
theorem pipe_redirect_filename_second_call :
    pipe_redirect_filename [['l', 's'], ['w', 'c', '>', '>', ' ', 'o', 'u', 't']] 2 REDOUTA
        ErrorType.EOK =
      some ⟨some ['o', 'u', 't'], ErrorType.EOK, [['l', 's'], ['w', 'c']]⟩ ∧
    pipe_redirect_filename [['l', 's'], ['w', 'c']] 2 REDOUTA ErrorType.EOK = none ∧
    pipe_redirect_filename [['l', 's'], ['>', 'a', 'b', '>', ' ', 'c', 'd']] 2 REDOUT
        ErrorType.EOK =
      some ⟨some ['c', 'd'], ErrorType.EOK, [['l', 's'], ['>', 'a']]⟩ ∧
    pipe_redirect_filename [['l', 's'], ['>', 'a']] 2 REDOUT ErrorType.EOK =
      some ⟨none, ErrorType.ESYNTAX, [['l', 's'], ['>', 'a']]⟩ := by
  decide

theorem check_redirect_symb_clean (t : CStr) (h1 : '<' ∉ t) (h2 : '>' ∉ t) :
    check_redirect_symb t = -1 := by
  simp only [check_redirect_symb, strstr_none_of_not_mem [] t h1,
    strstr_none_of_not_mem ['>'] t h2, strstr_none_of_not_mem [] t h2, Option.isSome_none,
    Bool.false_eq_true, if_false]

theorem argv_of_prefix (pre : List CStr) (rest : List (Option CStr)) :
    argv_of (pre.map some ++ none :: rest) = pre := by
  induction pre with
  | nil => rfl
  | cons a pre ih => simp only [List.map_cons, List.cons_append, argv_of, List.append_eq, ih]

theorem token_array_eq (pre : List CStr) (op file : CStr) :
    token_array (pre ++ [op, file]) = pre.map some ++ [some op, some file, none] := by
  simp [token_array]

theorem get?_op (pre : List CStr) (op file : CStr) :
    (pre.map some ++ [some op, some file, none]).get? pre.length = some (some op) := by
  rw [List.get?_eq_getElem?, List.getElem?_append_right (by simp)]
  simp

theorem get?_file (pre : List CStr) (op file : CStr) :
    (pre.map some ++ [some op, some file, none]).get? (pre.length + 1) = some (some file) := by
  rw [List.get?_eq_getElem?, List.getElem?_append_right (by simp)]
  simp

theorem set_op (pre : List CStr) (op file : CStr) :
    (pre.map some ++ [some op, some file, none]).set pre.length none =
      pre.map some ++ none :: [some file, none] := by
  have : pre.length = (pre.map some).length + 0 := by simp
  rw [this, List.set_append_right _ _ (by simp)]
  simp

/-- The last iteration of the scan (`skip = 0`): the entry before the last
is the operator, the last one the file name. -/
theorem scan_loop_last (pre : List CStr) (op file : CStr) (fuel : Nat)
    (hop : op = ['<'] ∨ op = ['>'] ∨ op = ['>', '>']) :
    scan_loop ((pre.length : Int) + 2) (fuel + 1) 0
        ⟨pre.map some ++ [some op, some file, none], none, none, 1⟩ =
      some ⟨pre.map some ++ none :: [some file, none],
        if op = ['<'] then some file else none,
        if op = ['<'] then none else some file,
        if op = ['>'] then 0 else 1⟩ := by
  have h1 : ((pre.length : Int) + 2 - 2 - 0).toNat = pre.length := by simp
  have h2 : ((pre.length : Int) + 2 - 1 - 0).toNat = pre.length + 1 := by omega
  have h3 : ¬ ((pre.length : Int) + 2 - 2 - 0 < 0) := by omega
  have hneg : ((0 : Int) - 2 < 0) := by decide
  have hend : ∀ st, scan_loop ((pre.length : Int) + 2) fuel (0 - 2) st = some st := by
    intro st
    cases fuel with
    | zero => simp only [scan_loop, hneg, if_true]
    | succ f => simp only [scan_loop, hneg, if_true]
  unfold scan_loop
  simp only [lt_self_iff_false, if_false, h3, h1, h2, get?_op, get?_file, set_op, hend]
  have hlt : check_redirect_symb ['<'] = REDIN := by decide
  have hgt : check_redirect_symb ['>'] = REDOUT := by decide
  have hgg : check_redirect_symb ['>', '>'] = REDOUTA := by decide
  rcases hop with rfl | rfl | rfl
  · rw [if_pos hlt]; simp
  · rw [if_neg (by rw [hgt]; decide), if_neg (by rw [hgt]; decide), if_pos hgt]; simp
  · rw [if_neg (by rw [hgg]; decide), if_pos hgg]; simp

/-- C10: for every single-command token list of at least three tokens
(`pre ++ [op, file]` with `pre` non-empty) whose next-to-last token `op` is
exactly "<", ">" or ">>" and whose other tokens contain neither '<' nor '>',
the redirection scan of `handle_cmd_line` is defined and yields: for "<" the
last token as input file and no output file; for ">>" the last token as
output file with the append flag left at 1; for ">" the last token as
output file with the append flag 0; and in each case the tokens before the
operator, in order, as the argument vector. -/
theorem redirect_scan_single (pre : List CStr) (op file : CStr) (hpre : pre ≠ [])
    (hop : op = ['<'] ∨ op = ['>'] ∨ op = ['>', '>'])
    (hclean : ∀ t ∈ pre, '<' ∉ t ∧ '>' ∉ t) :
    ∃ st, redirect_scan (token_array (pre ++ [op, file])) ((pre ++ [op, file]).length : Int) =
        some st ∧
      argv_of st.redirect_cmd = pre ∧
      (op = ['<'] → st.input = some file ∧ st.output = none) ∧
      (op = ['>', '>'] → st.input = none ∧ st.output = some file ∧ st.append = 1) ∧
      (op = ['>'] → st.input = none ∧ st.output = some file ∧ st.append = 0) := by
  have hlen : (((pre ++ [op, file]).length : Nat) : Int) = (pre.length : Int) + 2 := by
    simp
  have hres : redirect_scan (token_array (pre ++ [op, file])) ((pre.length : Int) + 2) =
      some ⟨pre.map some ++ none :: [some file, none],
        if op = ['<'] then some file else none,
        if op = ['<'] then none else some file,
        if op = ['>'] then 0 else 1⟩ := by
    have h3 : (pre.length : Int) + 2 ≥ 3 := by
      have := List.length_pos.mpr hpre
      omega
    rw [token_array_eq]
    unfold redirect_scan
    by_cases h5 : (pre.length : Int) + 2 ≥ 5
    · -- five tokens or more: the entry three before the last is looked at first
      simp only [h5, if_true]
      have hi : ((pre.length : Int) + 2 - 2 - 2).toNat = pre.length - 2 := by omega
      have hn : ¬ ((pre.length : Int) + 2 - 2 - 2 < 0) := by omega
      have hlt : pre.length - 2 < pre.length := by omega
      have hget : (pre.map some ++ [some op, some file, none]).get? (pre.length - 2) =
          some (some (pre.get ⟨pre.length - 2, hlt⟩)) := by
        rw [List.get?_eq_getElem?, List.getElem?_append_left (by simpa using hlt)]
        simp [List.getElem?_eq_getElem hlt]
      have hcl := hclean _ (List.get_mem pre _ hlt)
      have hchk := check_redirect_symb_clean _ hcl.1 hcl.2
      have h20 : (2 : Int) - 2 = 0 := by decide
      have h2n : ¬ ((2 : Int) < 0) := by decide
      rw [scan_loop]
      simp only [h2n, if_false, hn, hi, hget, hchk, h20]
      rw [if_neg (by decide), if_neg (by decide), if_neg (by decide)]
      exact scan_loop_last pre op file 0 hop
    · simp only [h5, if_false, h3, if_true]
      exact scan_loop_last pre op file 1 hop
  rw [hlen, hres]
  refine ⟨_, rfl, argv_of_prefix pre _, ?_, ?_, ?_⟩
  · rintro rfl; simp
  · rintro rfl; simp
  · rintro rfl; simp

/-- The witness of the amended C6: the last stage of `ls | sort > out`. -/
theorem pipe_redirect_filename_splits_witness :
    pipe_redirect_filename lsSortOut 2 REDOUT ErrorType.EOK =
      some ⟨some ['o', 'u', 't'], ErrorType.EOK,
        [['l', 's', ' '], [' ', 's', 'o', 'r', 't', ' ']]⟩ :=
  pipe_redirect_filename_splits lsSortOut 2 REDOUT ErrorType.EOK ['>'] 1
    [' ', 's', 'o', 'r', 't', ' '] [' ', 'o', 'u', 't'] rfl (by decide) rfl (by decide)
    (by decide) (by decide) (by decide) (by decide) ⟨'o', by decide, by decide⟩

/-- An instance of the documented error: the last stage of `ls | a > b > cd`. -/
theorem pipe_redirect_filename_syntax_error_witness :
    pipe_redirect_filename lsTwoOutputs 2 REDOUT ErrorType.EOK =
      some ⟨none, ErrorType.ESYNTAX, lsTwoOutputs⟩ :=
  pipe_redirect_filename_syntax_error lsTwoOutputs 2 REDOUT ErrorType.EOK ['>'] 1
    [' ', 'a', ' '] [' ', 'b', ' '] [' ', 'c', 'd'] [] rfl (by decide) rfl (by decide)
    (by decide)

/-- The witness of C10: the tokens of `cmd arg >> out.txt`. -/
theorem redirect_scan_single_witness :
    ∃ st, redirect_scan
        (token_array ([['c', 'm', 'd'], ['a', 'r', 'g']] ++
          [['>', '>'], ['o', 'u', 't', '.', 't', 'x', 't']]))
        (([['c', 'm', 'd'], ['a', 'r', 'g']] ++
          [['>', '>'], ['o', 'u', 't', '.', 't', 'x', 't']]).length : Int) = some st ∧
      argv_of st.redirect_cmd = [['c', 'm', 'd'], ['a', 'r', 'g']] ∧
      st.input = none ∧ st.output = some ['o', 'u', 't', '.', 't', 'x', 't'] ∧
      st.append = 1 := by
  obtain ⟨st, h1, h2, _, h4, _⟩ := redirect_scan_single [['c', 'm', 'd'], ['a', 'r', 'g']]
    ['>', '>'] ['o', 'u', 't', '.', 't', 'x', 't'] (by decide) (Or.inr (Or.inr rfl))
    (by decide)
  exact ⟨st, h1, h2, h4 rfl⟩

/-! ## Claims on the shell, the child side and redirect -/

/-- A call through `consult` is the call of `pipe_redirect_filename` with the
same arguments, and the kind passed is appended to the kinds consulted. -/
theorem consult_eq_some {consulted : List Int} {pipe_tokens : List CStr} {cnt k : Int}
    {pgErr : ErrorType} {r : Resolved} {l : List Int}
    (h : consult consulted pipe_tokens cnt k pgErr = some (r, l)) :
    pipe_redirect_filename pipe_tokens cnt k pgErr = some r ∧ l = consulted ++ [k] := by
  unfold consult at h
  split at h
  · cases h
  · next r0 h0 =>
    simp only [Option.some.injEq, Prod.mk.injEq] at h
    obtain ⟨rfl, rfl⟩ := h
    exact ⟨h0, rfl⟩

/-- C11: for every token, `check_redirect_symb` returns `REDIN` if the token
holds "<", otherwise `REDOUTA` if it holds ">>", otherwise `REDOUT` if it
holds ">", otherwise -1; the token ">>" is classified `REDOUTA`, which is
not `REDOUT`; and for every pipeline the redirection kinds that
`handle_cmd_line` passes to `pipe_redirect_filename` are, in the order of
the calls, `REDIN`, then `REDOUTA`, then `REDOUT` (the calls made are the
first one, the first two or all three).  The calls themselves: the first is
`pipe_redirect_filename(pipe_tokens, cnt, REDIN)`; if it fails it is the
only one; otherwise the second is the call with `REDOUTA` on the stages the
first left; the third is the call with `REDOUT` on the stages the second
left, made exactly when the second returned NULL with `pg_errno = EOK`. -/
theorem check_redirect_symb_precedence (token : CStr) (pipe_tokens : List CStr) (cnt : Int)
    (pgErr : ErrorType) :
    (Holds token ['<'] → check_redirect_symb token = REDIN) ∧
    (¬ Holds token ['<'] → Holds token ['>', '>'] → check_redirect_symb token = REDOUTA) ∧
    (¬ Holds token ['<'] → ¬ Holds token ['>', '>'] → Holds token ['>'] →
      check_redirect_symb token = REDOUT) ∧
    (¬ Holds token ['<'] → ¬ Holds token ['>', '>'] → ¬ Holds token ['>'] →
      check_redirect_symb token = -1) ∧
    (check_redirect_symb ['>', '>'] = REDOUTA ∧ REDOUTA ≠ REDOUT) ∧
    (∀ r, resolve_pipeline pipe_tokens cnt pgErr = some r →
      r.consulted = [REDIN] ∨ r.consulted = [REDIN, REDOUTA] ∨
      r.consulted = [REDIN, REDOUTA, REDOUT]) ∧
    (∀ r, resolve_pipeline pipe_tokens cnt pgErr = some r →
      ∃ r1, pipe_redirect_filename pipe_tokens cnt REDIN pgErr = some r1 ∧
        ((resolver_failed r1 = true ∧ r.consulted = [REDIN]) ∨
         (resolver_failed r1 = false ∧
          ∃ r2, pipe_redirect_filename r1.pipe_tokens cnt REDOUTA r1.pg_errno = some r2 ∧
            ((¬ (r2.fname = none ∧ r2.pg_errno = ErrorType.EOK) ∧
              r.consulted = [REDIN, REDOUTA]) ∨
             (r2.fname = none ∧ r2.pg_errno = ErrorType.EOK ∧
              (∃ r3, pipe_redirect_filename r2.pipe_tokens cnt REDOUT r2.pg_errno =
                some r3) ∧
              r.consulted = [REDIN, REDOUTA, REDOUT]))))) := by
  have hiff : ∀ symb : CStr, Holds token symb ↔ (strstr token symb).isSome = true := by
    intro symb
    rw [← Option.ne_none_iff_isSome]
    exact (strstr_ne_none_iff symb token).symm
  have hcalls : ∀ r, resolve_pipeline pipe_tokens cnt pgErr = some r →
      ∃ r1, pipe_redirect_filename pipe_tokens cnt REDIN pgErr = some r1 ∧
        ((resolver_failed r1 = true ∧ r.consulted = [REDIN]) ∨
         (resolver_failed r1 = false ∧
          ∃ r2, pipe_redirect_filename r1.pipe_tokens cnt REDOUTA r1.pg_errno = some r2 ∧
            ((¬ (r2.fname = none ∧ r2.pg_errno = ErrorType.EOK) ∧
              r.consulted = [REDIN, REDOUTA]) ∨
             (r2.fname = none ∧ r2.pg_errno = ErrorType.EOK ∧
              (∃ r3, pipe_redirect_filename r2.pipe_tokens cnt REDOUT r2.pg_errno =
                some r3) ∧
              r.consulted = [REDIN, REDOUTA, REDOUT])))) := by
    intro r hr
    unfold resolve_pipeline at hr
    split at hr
    · cases hr
    · next r1 c1 h1 =>
      obtain ⟨e1, rfl⟩ := consult_eq_some h1
      refine ⟨r1, e1, ?_⟩
      split at hr
      · next hf =>
        cases hr
        exact Or.inl ⟨hf, rfl⟩
      · next hf =>
        have hf0 : resolver_failed r1 = false := by simpa using hf
        refine Or.inr ⟨hf0, ?_⟩
        split at hr
        · cases hr
        · next r2 c2 h2 =>
          obtain ⟨e2, rfl⟩ := consult_eq_some h2
          refine ⟨r2, e2, ?_⟩
          split at hr
          · next out ho =>
            cases hr
            exact Or.inl ⟨fun h => (by rw [ho] at h; cases h.1), rfl⟩
          · next hn =>
            split at hr
            · next hok =>
              split at hr
              · cases hr
              · next r3 c3 h3 =>
                obtain ⟨e3, rfl⟩ := consult_eq_some h3
                refine Or.inr ⟨hn, hok, ⟨r3, e3⟩, ?_⟩
                split at hr
                · cases hr; rfl
                · cases hr; rfl
            · next hok =>
              split at hr
              · cases hr
                exact Or.inl ⟨fun h => hok h.2, rfl⟩
              · cases hr
                exact Or.inl ⟨fun h => hok h.2, rfl⟩
  refine ⟨?_, ?_, ?_, ?_, ⟨by decide, by decide⟩, ?_, ?_⟩
  · intro h
    simp only [check_redirect_symb, (hiff _).mp h, if_true]
  · intro h1 h2
    rw [hiff] at h1 h2
    simp [check_redirect_symb, h1, h2]
  · intro h1 h2 h3
    rw [hiff] at h1 h2 h3
    simp [check_redirect_symb, h1, h2, h3]
  · intro h1 h2 h3
    rw [hiff] at h1 h2 h3
    simp [check_redirect_symb, h1, h2, h3]
  · intro r hr
    obtain ⟨r1, _, h⟩ := hcalls r hr
    rcases h with ⟨_, h⟩ | ⟨_, r2, _, ⟨_, h⟩ | ⟨_, _, _, h⟩⟩
    · exact Or.inl h
    · exact Or.inr (Or.inl h)
    · exact Or.inr (Or.inr h)
  · exact hcalls

/-- The witness of C11: the token `a>>b` is classified `REDOUTA`; on the
stages of `ls | sort >> out` the calls with `REDIN` and `REDOUTA` are made
and the file is opened for appending; on the stages of `ls | sort > out`
all three calls are made. -/
theorem check_redirect_symb_precedence_witness :
    (Holds ['a', '>', '>', 'b'] ['>', '>'] ∧
      check_redirect_symb ['a', '>', '>', 'b'] = REDOUTA) ∧
    resolve_pipeline lsSortAppend 2 ErrorType.EOK =
      some (Resolution.ok none (some ['o', 'u', 't']) 1
        [['l', 's', ' '], [' ', 's', 'o', 'r', 't', ' ']] ErrorType.EOK [REDIN, REDOUTA]) ∧
    resolve_pipeline lsSortOut 2 ErrorType.EOK = some lsSortOutResolution ∧
    (lsSortOutResolution.consulted = [REDIN] ∨
      lsSortOutResolution.consulted = [REDIN, REDOUTA] ∨
      lsSortOutResolution.consulted = [REDIN, REDOUTA, REDOUT]) :=
  ⟨⟨⟨['a'], ['b'], rfl⟩,
    (check_redirect_symb_precedence ['a', '>', '>', 'b'] [] 0 ErrorType.EOK).2.1
      (fun h => absurd ((strstr_ne_none_iff ['<'] ['a', '>', '>', 'b']).mpr h) (by decide))
      ⟨['a'], ['b'], rfl⟩⟩,
    by decide, by decide,
    (check_redirect_symb_precedence [] lsSortOut 2 ErrorType.EOK).2.2.2.2.2.1
      lsSortOutResolution (by decide)⟩

/-- C14 (as the code behaves): after `pipe_chain` has run the two stages
`ls` and `wc` and returned 0, the read end of the pipe it created
(descriptor 3) is still open in the parent: the write end (4) was closed,
the read end never is, and the open descriptors are not those of the
entry. -/
theorem pipe_chain_leaks_read_end :
    (pipe_chain envAllOk (some twoStages) 2 0 1 os0).1 = Outcome.ret 0 ∧
    os0.fds = [0, 1, 2] ∧
    (pipe_chain envAllOk (some twoStages) 2 0 1 os0).2.fds = [3, 0, 1, 2] ∧
    Event.pipe 3 4 ∈ (pipe_chain envAllOk (some twoStages) 2 0 1 os0).2.trace ∧
    Event.close 4 ∈ (pipe_chain envAllOk (some twoStages) 2 0 1 os0).2.trace ∧
    Event.close 3 ∉ (pipe_chain envAllOk (some twoStages) 2 0 1 os0).2.trace := by
  decide

/-- C15 (as stated, refuted): with five stages, no failing pipe or fork and
every poll of the sweep collecting a child, the last two polls find no
child left and return -1 (`ECHILD`), and so does the last blocking wait;
`pipe_chain` returns 0. -/
theorem pipe_chain_ignores_echild :
    (pipe_chain envPollAll (some fiveStages) 5 0 1 os0).1 = Outcome.ret 0 ∧
    Event.waitpid (-1) ∈ (pipe_chain envPollAll (some fiveStages) 5 0 1 os0).2.trace ∧
    Event.wait (-1) ∈ (pipe_chain envPollAll (some fiveStages) 5 0 1 os0).2.trace := by
  decide

/-- C16 (as the code behaves): in the child forked by `pipe_chain` for the
last stage, a failing `dup2` (onto standard input, or onto standard output)
makes `pipe_chain` return -1 with `pg_errno = EDUP` to its caller, inside
the child.  The sibling paths do not return: the child of a stage spawned
through `spawn_proc`, the child of `create_child` and the child of
`create_child_r` end by replacing the image or by `exit(EXIT_FAILURE)`. -/
theorem pipe_chain_last_child_returns :
    pipe_chain_last_child 3 1 ⟨false, true, true⟩ = ChildEnd.returned (-1) ErrorType.EDUP ∧
    pipe_chain_last_child 0 1 ⟨true, false, true⟩ = ChildEnd.returned (-1) ErrorType.EDUP ∧
    (∀ inFd outFd a, pipe_chain_stage_child inFd outFd a = ChildEnd.exec ∨
      pipe_chain_stage_child inFd outFd a = ChildEnd.exit EXIT_FAILURE) ∧
    (∀ a, create_child_child a = ChildEnd.exec ∨
      create_child_child a = ChildEnd.exit EXIT_FAILURE) ∧
    (∀ status a, create_child_r_child status a = ChildEnd.exec ∨
      create_child_r_child status a = ChildEnd.exit EXIT_FAILURE) := by
  refine ⟨by decide, by decide, ?_, ?_, ?_⟩
  · intro inFd outFd a
    unfold pipe_chain_stage_child spawn_proc_child
    split_ifs <;> simp
  · intro a
    unfold create_child_child
    split_ifs <;> simp
  · intro status a
    unfold create_child_r_child
    split_ifs <;> simp

/-- C18 (as the code behaves): when the `open` of the output file fails,
`redirect` returns -1 and leaves `pg_errno` as it was (`EOK` here, not
`EOPEN`); when the `dup2` onto standard output fails, or the `dup` that
backs standard output up, it returns -2 and leaves `pg_errno` as it was.
The input side does what the claim says: for every call with an input
path, a failing `open` gives -1 with `EOPEN` and a failing `dup2` gives -1
with `EDUP`. -/
theorem redirect_output_failure_unreported :
    redirect ⟨true, true, true, false, true⟩ none (some ['o', 'u', 't']) 0 ErrorType.EOK
        stdTable =
      ⟨-1, ErrorType.EOK, (3, FileRef.inherited 1) :: stdTable⟩ ∧
    (redirect ⟨true, true, true, true, false⟩ none (some ['o', 'u', 't']) 0 ErrorType.EOK
        stdTable).ret = -2 ∧
    (redirect ⟨true, true, true, true, false⟩ none (some ['o', 'u', 't']) 0 ErrorType.EOK
        stdTable).pg_errno = ErrorType.EOK ∧
    (redirect ⟨true, true, false, true, true⟩ none (some ['o', 'u', 't']) 0 ErrorType.EOK
        stdTable) = ⟨-2, ErrorType.EOK, stdTable⟩ ∧
    (∀ (dupIn dupBack openOut dupOut : Bool) (path : CStr) (output : Option CStr)
        (append : Int) (pgErr : ErrorType) (t : FdTable),
      (redirect ⟨false, dupIn, dupBack, openOut, dupOut⟩ (some path) output append pgErr
        t).ret = -1 ∧
      (redirect ⟨false, dupIn, dupBack, openOut, dupOut⟩ (some path) output append pgErr
        t).pg_errno = ErrorType.EOPEN) ∧
    (∀ (dupBack openOut dupOut : Bool) (path : CStr) (output : Option CStr)
        (append : Int) (pgErr : ErrorType) (t : FdTable),
      (redirect ⟨true, false, dupBack, openOut, dupOut⟩ (some path) output append pgErr
        t).ret = -1 ∧
      (redirect ⟨true, false, dupBack, openOut, dupOut⟩ (some path) output append pgErr
        t).pg_errno = ErrorType.EDUP) := by
  refine ⟨by decide, by decide, by decide, by decide, ?_, ?_⟩
  · intro dupIn dupBack openOut dupOut path output append pgErr t
    simp [redirect, fd_open]
  · intro dupBack openOut dupOut path output append pgErr t
    simp [redirect, fd_open, fd_dup2]

/-- C20 (as the code behaves): the command line `true`, whose child exits
with 0, makes `handle_cmd_line` return `NOSP` when `pg_errno` is `EOK` on
entry, and -1 when an earlier command line left `pg_errno = EFCHLD`: after
`wait_child` the function looks at `pg_errno`, not at the value
returned. -/
theorem handle_cmd_line_stale_pg_errno :
    (handle_cmd_line shellOk lineTrue os0).1 = CmdEnd.ret NOSP ∧
    (wait_child 1 shellOk.waits ErrorType.EFCHLD).outcome = WaitEnd.ret 0 ∧
    (handle_cmd_line shellOk lineTrue { os0 with pg_errno := ErrorType.EFCHLD }).1 =
      CmdEnd.ret (-1) := by
  decide

/-- C12 (as stated, refuted): the single command `cmd > a >> b` and the
pipeline `ls | cmd >> a > b` each carry two output redirections;
`handle_cmd_line` returns `NOSP` for both, having created one process for
the first and two for the second. -/
theorem handle_cmd_line_two_outputs_accepted :
    (handle_cmd_line shellOk lineTwoOutputs os0).1 = CmdEnd.ret NOSP ∧
    (handle_cmd_line shellOk lineTwoOutputs os0).2.nFork = 1 ∧
    (handle_cmd_line shellOk linePipeTwoOutputs os0).1 = CmdEnd.ret NOSP ∧
    (handle_cmd_line shellOk linePipeTwoOutputs os0).2.nFork = 2 := by
  decide

/-- C17 (as stated, refuted): when `fork` fails for the single command `ls`,
`handle_cmd_line` returns -1 with `pg_errno` reset to `EOK`; the process
does not terminate. -/
theorem handle_cmd_line_single_fork_failure :
    (handle_cmd_line shellNoFork lineLs os0).1 = CmdEnd.ret (-1) ∧
    (handle_cmd_line shellNoFork lineLs os0).2.pg_errno = ErrorType.EOK ∧
    (handle_cmd_line shellNoFork lineLs os0).2.trace = [Event.forkFail 0] := by
  decide

/-! ## Traces of the system calls -/

theorem pipesOf_append (l1 l2 : List Event) : pipesOf (l1 ++ l2) = pipesOf l1 ++ pipesOf l2 := by
  induction l1 with
  | nil => rfl
  | cons e l ih => cases e <;> simp [pipesOf, ih]

theorem forksOf_append (l1 l2 : List Event) : forksOf (l1 ++ l2) = forksOf l1 ++ forksOf l2 := by
  induction l1 with
  | nil => rfl
  | cons e l ih => cases e <;> simp [forksOf, ih]

theorem WaitEvents.append {l1 l2 : List Event} (h1 : WaitEvents l1) (h2 : WaitEvents l2) :
    WaitEvents (l1 ++ l2) := by
  intro e he
  rcases List.mem_append.mp he with h | h
  · exact h1 e h
  · exact h2 e h

theorem WaitEvents.pipesOf {l : List Event} (h : WaitEvents l) : pipesOf l = [] := by
  induction l with
  | nil => rfl
  | cons e l ih =>
    have ih' := ih (fun x hx => h x (List.mem_cons_of_mem _ hx))
    rcases h e (List.mem_cons_self _ _) with ⟨r, rfl⟩ | ⟨r, rfl⟩ <;> simpa [Pgsh.pipesOf] using ih'

theorem WaitEvents.forksOf {l : List Event} (h : WaitEvents l) : forksOf l = [] := by
  induction l with
  | nil => rfl
  | cons e l ih =>
    have ih' := ih (fun x hx => h x (List.mem_cons_of_mem _ hx))
    rcases h e (List.mem_cons_self _ _) with ⟨r, rfl⟩ | ⟨r, rfl⟩ <;> simpa [Pgsh.forksOf] using ih'

theorem WaitEvents.no_forkFail {l : List Event} (h : WaitEvents l) (s : Nat) :
    Event.forkFail s ∉ l := by
  intro hm
  rcases h _ hm with ⟨r, hr⟩ | ⟨r, hr⟩ <;> cases hr

/-- A non-blocking `waitpid` adds one event, its return value, and touches
neither the counters of pipes and forks nor the open descriptors. -/
theorem sys_waitpid_nohang_frame (env : Env) (os : OS) :
    (sys_waitpid_nohang env os).2.trace =
      os.trace ++ [Event.waitpid (sys_waitpid_nohang env os).1] ∧
    (sys_waitpid_nohang env os).2.nFork = os.nFork ∧
    (sys_waitpid_nohang env os).2.nPipe = os.nPipe ∧
    (sys_waitpid_nohang env os).2.fds = os.fds ∧
    (sys_waitpid_nohang env os).2.pg_errno = os.pg_errno := by
  unfold sys_waitpid_nohang
  by_cases hc : os.children = []
  · simp [hc]
  · simp only [hc, if_false]
    cases env.poll os.nPoll with
    | running => simp
    | fail e => simp
    | child k =>
      simp only [reapAt]
      cases os.children.get? (k % os.children.length) with
      | none => simp
      | some c => simp

/-- A blocking `wait` adds one event, its return value. -/
theorem sys_wait_trace (env : Env) (os : OS) :
    (sys_wait env os).2.trace = os.trace ++ [Event.wait (sys_wait env os).1] := by
  unfold sys_wait
  by_cases hc : os.children = []
  · simp [hc]
  · simp only [hc, if_false]
    cases env.block os.nWait with
    | fail e => simp
    | child k =>
      simp only [reapAt]
      cases os.children.get? (k % os.children.length) with
      | none => simp
      | some c => simp

/-- The sweep makes wait calls only: its events are `waitpid` events, and
it touches neither the counters of pipes and forks nor the open
descriptors. -/
theorem sweep_frame (env : Env) (m : Nat) (remain : Int) (os : OS) :
    ∃ l, (sweep env m remain os).state.trace = os.trace ++ l ∧ WaitEvents l ∧
      (sweep env m remain os).state.nFork = os.nFork ∧
      (sweep env m remain os).state.nPipe = os.nPipe ∧
      (sweep env m remain os).state.fds = os.fds := by
  induction m generalizing remain os with
  | zero => exact ⟨[], by simp [sweep, Sweep.state], by intro e he; simp at he, rfl, rfl, rfl⟩
  | succ m ih =>
    obtain ⟨h1, h2, h3, h4, _⟩ := sys_waitpid_nohang_frame env os
    have hw : WaitEvents [Event.waitpid (sys_waitpid_nohang env os).1] := by
      intro e he
      rw [List.mem_singleton] at he
      exact Or.inl ⟨_, he⟩
    have hstop : ∀ (e : ErrorType) , ∃ l,
        ({ (sys_waitpid_nohang env os).2 with pg_errno := e } : OS).trace = os.trace ++ l ∧
        WaitEvents l ∧
        ({ (sys_waitpid_nohang env os).2 with pg_errno := e } : OS).nFork = os.nFork ∧
        ({ (sys_waitpid_nohang env os).2 with pg_errno := e } : OS).nPipe = os.nPipe ∧
        ({ (sys_waitpid_nohang env os).2 with pg_errno := e } : OS).fds = os.fds :=
      fun e => ⟨_, h1, hw, h2, h3, h4⟩
    have hcont : ∀ r, ∃ l,
        (sweep env m r (sys_waitpid_nohang env os).2).state.trace = os.trace ++ l ∧
        WaitEvents l ∧
        (sweep env m r (sys_waitpid_nohang env os).2).state.nFork = os.nFork ∧
        (sweep env m r (sys_waitpid_nohang env os).2).state.nPipe = os.nPipe ∧
        (sweep env m r (sys_waitpid_nohang env os).2).state.fds = os.fds := by
      intro r
      obtain ⟨l, e1, e2, e3, e4, e5⟩ := ih r (sys_waitpid_nohang env os).2
      exact ⟨_ ++ l, by rw [e1, h1, List.append_assoc], hw.append e2, e3.trans h2,
        e4.trans h3, e5.trans h4⟩
    unfold sweep
    generalize sys_waitpid_nohang env os = p at h1 h2 h3 h4 hw hstop hcont
    obtain ⟨v, os1⟩ := p
    simp only at h1 h2 h3 h4 hw hstop hcont ⊢
    split_ifs
    · exact hstop ErrorType.EOK
    · exact hcont _
    · exact ⟨_, h1, hw, h2, h3, h4⟩
    · split
      · split_ifs
        · exact hstop ErrorType.EOK
        · exact hcont _
      · exact hcont _

/-- The closing loop makes wait calls only. -/
theorem wait_all_events (env : Env) (m : Nat) (os : OS) :
    ∃ l, (wait_all env m os).2.trace = os.trace ++ l ∧ WaitEvents l := by
  induction m generalizing os with
  | zero => exact ⟨[], by simp [wait_all], by intro e he; simp at he⟩
  | succ m ih =>
    have h1 := sys_wait_trace env os
    have hw : WaitEvents [Event.wait (sys_wait env os).1] := by
      intro e he
      rw [List.mem_singleton] at he
      exact Or.inr ⟨_, he⟩
    have hcont : ∃ l, (wait_all env m (sys_wait env os).2).2.trace = os.trace ++ l ∧
        WaitEvents l := by
      obtain ⟨l, e1, e2⟩ := ih (sys_wait env os).2
      exact ⟨_ ++ l, by rw [e1, h1, List.append_assoc], hw.append e2⟩
    unfold wait_all
    generalize sys_wait env os = p at h1 hw hcont
    obtain ⟨v, os1⟩ := p
    simp only at h1 hw hcont ⊢
    split
    · split_ifs
      · exact ⟨_, h1, hw⟩
      · exact hcont
    · exact hcont

/-- One iteration of the spawning loop in which the pipe and the fork
succeed and the stage is a non-NULL argument vector: the state in which the
sweep is entered, and what the loop does after the sweep. -/
theorem stage_loop_succ (env : Env) (cmds : List Stage) (k i : Nat) (inFd remain : Int)
    (os : OS) (a : List CStr) (hp : env.pipeOk os.nPipe = true)
    (hf : env.forkOk os.nFork = true) (ha : cmds.get? i = some (some a)) :
    ∃ os3 rd wr,
      os3.children = os.children ++ [⟨os.nFork + 1, i, env.termOf os.nFork⟩] ∧
      os3.nFork = os.nFork + 1 ∧ os3.nPipe = os.nPipe + 1 ∧ os3.nPoll = os.nPoll ∧
      os3.fds = rd :: os.fds ∧
      os3.trace = os.trace ++
        [Event.pipe rd wr, Event.fork i inFd wr (os.nFork + 1), Event.close wr] ∧
      stage_loop env cmds (k + 1) i inFd remain os =
        (match sweep env i remain os3 with
         | Sweep.abort v os4 => Loop.stop (Outcome.ret v) os4
         | Sweep.done remain1 os4 => stage_loop env cmds k (i + 1) rd remain1 os4) := by
  refine ⟨sys_close (lowestFree (lowestFree os.fds :: os.fds))
      { os with nPipe := os.nPipe + 1,
                fds := lowestFree (lowestFree os.fds :: os.fds) :: lowestFree os.fds :: os.fds,
                trace := (os.trace ++ [Event.pipe (lowestFree os.fds)
                  (lowestFree (lowestFree os.fds :: os.fds))]) ++
                  [Event.fork i inFd (lowestFree (lowestFree os.fds :: os.fds)) (os.nFork + 1)],
                nFork := os.nFork + 1,
                children := os.children ++ [⟨os.nFork + 1, i, env.termOf os.nFork⟩] },
    lowestFree os.fds, lowestFree (lowestFree os.fds :: os.fds), rfl, rfl, rfl, rfl, ?_, ?_, ?_⟩
  · simp [sys_close]
  · simp [sys_close]
  · have hne : ¬ (((os.nFork + 1 : Nat) : Int) = -1) := by omega
    conv_lhs => unfold stage_loop
    simp only [sys_pipe, hp, if_true, ha, spawn_proc, sys_fork, hf, hne, if_false]

/-- A non-blocking `waitpid` that returns neither -1 nor 0 returns the pid
of a child of the table and stores the status of that child. -/
theorem sys_waitpid_nohang_collected (env : Env) (os : OS)
    (h1 : (sys_waitpid_nohang env os).1 ≠ -1) (h0 : (sys_waitpid_nohang env os).1 ≠ 0) :
    ∃ c ∈ os.children, (sys_waitpid_nohang env os).1 = (c.pid : Int) ∧
      (sys_waitpid_nohang env os).2.status = c.st.toStatus := by
  unfold sys_waitpid_nohang at h1 h0 ⊢
  by_cases hc : os.children = []
  · simp [hc] at h1
  · simp only [hc, if_false] at h1 h0 ⊢
    cases hp : env.poll os.nPoll with
    | running => simp [hp] at h0
    | fail e => simp [hp] at h1
    | child k =>
      obtain ⟨c, hget, hreap⟩ := reapAt_spec k { os with nPoll := os.nPoll + 1 } hc
      simp only at hget hreap
      simp only [hreap]
      exact ⟨c, List.get?_mem hget, rfl, rfl⟩

/-- A sweep that makes `pipe_chain` return has, on a kernel whose polls do
not fail, collected a child that exited with the failure code: the pid of
that child is the value of one of its `waitpid` calls. -/
theorem sweep_abort_observed (env : Env) (hpoll : ∀ k e, env.poll k ≠ PollAns.fail e)
    (m : Nat) (remain : Int) (os : OS) (hc : Consistent env os) (v : Int) (os1 : OS)
    (h : sweep env m remain os = Sweep.abort v os1) :
    v = -1 ∧ os1.pg_errno = ErrorType.EFCHLD ∧
    ∃ l, os1.trace = os.trace ++ l ∧ WaitEvents l ∧
      ∃ p : Nat, Event.waitpid ((p : Int) + 1) ∈ l ∧
        env.termOf p = Term.exited EXIT_FAILURE := by
  induction m generalizing remain os with
  | zero => simp [sweep] at h
  | succ m ih =>
    have hpid : ∀ c ∈ os.children, 0 < c.pid := fun c hm => (hc c hm).1
    have htr := (sys_waitpid_nohang_frame env os).1
    have hcol := sys_waitpid_nohang_collected env os
    have hw : WaitEvents [Event.waitpid (sys_waitpid_nohang env os).1] := by
      intro e he
      rw [List.mem_singleton] at he
      exact Or.inl ⟨_, he⟩
    have hsub : ∀ x ∈ (sys_waitpid_nohang env os).2.children, x ∈ os.children := by
      rcases sys_waitpid_nohang_spec env os (hpoll os.nPoll) hpid with
        ⟨_, _, h3, _⟩ | ⟨_, h3, _⟩ | ⟨k, c, _, _, _, _, h3, _, _⟩
      · intro x hx; rwa [h3] at hx
      · intro x hx; rwa [h3] at hx
      · intro x hx; rw [h3] at hx; exact List.mem_of_mem_eraseIdx hx
    have hech : (sys_waitpid_nohang env os).1 = -1 →
        (sys_waitpid_nohang env os).2.errno = Errno.ECHILD := by
      intro hm1
      rcases sys_waitpid_nohang_spec env os (hpoll os.nPoll) hpid with
        ⟨_, h2, _, _⟩ | ⟨h1, _, _⟩ | ⟨k, c, _, _, h1, _, _, _, _⟩
      · exact h2
      · rw [h1] at hm1; exact absurd hm1 (by decide)
      · exact absurd hm1 h1
    unfold sweep at h
    generalize sys_waitpid_nohang env os = r at h htr hcol hw hsub hech
    obtain ⟨w, os2⟩ := r
    simp only at h htr hcol hw hsub hech
    have hc2 : Consistent env os2 := fun x hx => hc x (hsub x hx)
    have cont : ∀ r2, sweep env m r2 os2 = Sweep.abort v os1 →
        v = -1 ∧ os1.pg_errno = ErrorType.EFCHLD ∧
        ∃ l, os1.trace = os.trace ++ l ∧ WaitEvents l ∧
          ∃ p : Nat, Event.waitpid ((p : Int) + 1) ∈ l ∧
            env.termOf p = Term.exited EXIT_FAILURE := by
      intro r2 h2
      obtain ⟨e1, e2, l, e3, e4, p, e5, e6⟩ := ih r2 os2 hc2 h2
      exact ⟨e1, e2, _ ++ l, by rw [e3, htr, List.append_assoc], hw.append e4, p,
        List.mem_append_right _ e5, e6⟩
    by_cases hm1 : w = -1
    · simp only [hm1, if_true, hech hm1, ne_eq, not_true_eq_false, if_false] at h
      exact cont _ h
    · by_cases h0 : w = 0
      · simp [h0] at h
      · simp only [hm1, h0, if_false] at h
        obtain ⟨c, hcm, hret, hst⟩ := hcol hm1 h0
        cases hs : os2.status with
        | exited code =>
          rw [hs] at h
          simp only at h
          by_cases hcode : code = EXIT_FAILURE
          · simp only [hcode, if_true, Sweep.abort.injEq] at h
            obtain ⟨hv, hos⟩ := h
            subst hos
            refine ⟨hv.symm, rfl, _, htr, hw, c.pid - 1, ?_, ?_⟩
            · have hpos := (hc c hcm).1
              have : ((c.pid - 1 : Nat) : Int) + 1 = (c.pid : Int) := by omega
              rw [this, ← hret]; simp
            · rw [← (hc c hcm).2]
              rw [hs, hcode] at hst
              exact (toStatus_exited_iff _ _).mp hst.symm
          · simp only [hcode, if_false] at h
            exact cont _ h
        | signaled sig =>
          rw [hs] at h
          simp only at h
          exact cont _ h
        | stopped sig =>
          rw [hs] at h
          simp only at h
          exact cont _ h
        | continued =>
          rw [hs] at h
          simp only at h
          exact cont _ h
        | other =>
          rw [hs] at h
          simp only at h
          exact cont _ h

/-- A sweep that ends normally keeps the process table consistent. -/
theorem sweep_done_consistent (env : Env) (hpoll : ∀ k e, env.poll k ≠ PollAns.fail e)
    (m : Nat) (remain : Int) (os : OS) (hc : Consistent env os) (r : Int) (os1 : OS)
    (h : sweep env m remain os = Sweep.done r os1) : Consistent env os1 := by
  rcases sweep_spec env hpoll m remain os (fun c hm => (hc c hm).1) with
    ⟨os2, e1, _⟩ | ⟨r2, os2, e1, _, e3, _⟩
  · rw [e1] at h; cases h
  · rw [e1] at h
    simp only [Sweep.done.injEq] at h
    obtain ⟨_, rfl⟩ := h
    exact fun x hx => hc x (e3 x hx)

/-- The spawning loop on a kernel where no pipe, fork or poll fails and
every stage read is a non-NULL argument vector: either a sweep collected a
child that exited with the failure code and `pipe_chain` returns -1 with
`EFCHLD`, or all the iterations ran, one pipe and one process each, every
process reading from the current input and writing to the write end of its
pipe, the read end becoming the next input. -/
theorem stage_loop_wiring (env : Env) (hpipe : ∀ k, env.pipeOk k = true)
    (hfork : ∀ k, env.forkOk k = true) (hpoll : ∀ k e, env.poll k ≠ PollAns.fail e)
    (cmds : List Stage) (N : Nat)
    (hcmds : ∀ j, j < N → ∃ a, cmds.get? j = some (some a))
    (k i : Nat) (inFd remain : Int) (os : OS) (hN : i + k = N)
    (hc : Consistent env os) :
    (∃ os1 l, stage_loop env cmds k i inFd remain os = Loop.stop (Outcome.ret (-1)) os1 ∧
      os1.pg_errno = ErrorType.EFCHLD ∧ os1.trace = os.trace ++ l ∧
      ∃ p : Nat, Event.waitpid ((p : Int) + 1) ∈ l ∧
        env.termOf p = Term.exited EXIT_FAILURE) ∨
    (∃ inFd1 remain1 os1 l,
      stage_loop env cmds k i inFd remain os = Loop.done N inFd1 remain1 os1 ∧
      os1.trace = os.trace ++ l ∧ (pipesOf l).length = k ∧
      ∀ outFd, wiring outFd i inFd (pipesOf l) = forksOf l ++ [(N, inFd1, outFd)]) := by
  induction k generalizing i inFd remain os with
  | zero =>
    right
    have : i = N := by omega
    subst this
    exact ⟨inFd, remain, os, [], rfl, by simp, rfl, fun outFd => rfl⟩
  | succ k ih =>
    obtain ⟨a, ha⟩ := hcmds i (by omega)
    obtain ⟨os3, rd, wr, hch, hnf, _, _, _, htr, hstep⟩ :=
      stage_loop_succ env cmds k i inFd remain os a (hpipe _) (hfork _) ha
    have hc3 : Consistent env os3 := by
      intro c hm
      rw [hch] at hm
      rcases List.mem_append.mp hm with h | h
      · exact hc c h
      · rw [List.mem_singleton] at h
        subst h
        exact ⟨Nat.succ_pos _, by simp⟩
    rw [hstep]
    cases hs : sweep env i remain os3 with
    | abort v os4 =>
      left
      obtain ⟨hv, he, l, e1, _, p, e3, e4⟩ :=
        sweep_abort_observed env hpoll i remain os3 hc3 v os4 hs
      subst hv
      exact ⟨os4, [Event.pipe rd wr, Event.fork i inFd wr (os.nFork + 1), Event.close wr] ++ l,
        rfl, he, by rw [e1, htr, List.append_assoc], p, List.mem_append_right _ e3, e4⟩
    | done remain1 os4 =>
      simp only
      have hc4 := sweep_done_consistent env hpoll i remain os3 hc3 remain1 os4 hs
      obtain ⟨lw, e1, e2, _⟩ := sweep_frame env i remain os3
      rw [hs] at e1
      simp only [Sweep.state] at e1
      rcases ih (i + 1) rd remain1 os4 (by omega) hc4 with
        ⟨os5, l, f1, f2, f3, p, f4, f5⟩ | ⟨inFd1, remain2, os5, l, f1, f2, f3, f4⟩
      · left
        refine ⟨os5, [Event.pipe rd wr, Event.fork i inFd wr (os.nFork + 1), Event.close wr]
          ++ lw ++ l, f1, f2, ?_, p, List.mem_append_right _ f4, f5⟩
        rw [f3, e1, htr]; simp only [List.append_assoc]
      · right
        refine ⟨inFd1, remain2, os5,
          [Event.pipe rd wr, Event.fork i inFd wr (os.nFork + 1), Event.close wr] ++ lw ++ l,
          f1, ?_, ?_, ?_⟩
        · rw [f2, e1, htr]; simp only [List.append_assoc]
        · simp [pipesOf_append, pipesOf, e2.pipesOf, f3]
        · intro outFd
          simp [pipesOf_append, pipesOf, e2.pipesOf, forksOf_append, forksOf, e2.forksOf,
            wiring, f4 outFd]

/-- The j-th entry of a wiring. -/
theorem wiring_get? (outFd : Int) (ps : List (Int × Int)) (i : Nat) (inFd : Int) (j : Nat)
    (hj : j ≤ ps.length) :
    (wiring outFd i inFd ps).get? j =
      some (i + j,
        (if j = 0 then inFd else ((ps.get? (j - 1)).map Prod.fst).getD 0),
        (if j = ps.length then outFd else ((ps.get? j).map Prod.snd).getD 0)) := by
  induction ps generalizing i inFd j with
  | nil =>
    have : j = 0 := by simpa using hj
    subst this
    simp [wiring]
  | cons p ps ih =>
    obtain ⟨rd, wr⟩ := p
    cases j with
    | zero => simp [wiring]
    | succ j =>
      have hj2 : j ≤ ps.length := by simpa using hj
      simp only [wiring, List.get?_cons_succ, ih (i + 1) rd j hj2]
      have e1 : i + 1 + j = i + (j + 1) := by omega
      have e2 : (j + 1 = ps.length + 1) ↔ (j = ps.length) := by omega
      cases j with
      | zero => simp [e2, Nat.add_comm]
      | succ j => simp [e2, e1]

theorem wiring_length (outFd : Int) (ps : List (Int × Int)) (i : Nat) (inFd : Int) :
    (wiring outFd i inFd ps).length = ps.length + 1 := by
  induction ps generalizing i inFd with
  | nil => rfl
  | cons p ps ih =>
    obtain ⟨rd, wr⟩ := p
    simp [wiring, ih]

/-- C13: for every pipeline of n >= 2 stages (every stage a non-NULL
argument vector, descriptors not wired backwards) run from a consistent
process table on a kernel where no pipe, fork or poll call fails, if no
non-blocking `waitpid` of the run returns the pid of a child that exits with
`EXIT_FAILURE`, then `pipe_chain` creates exactly n-1 pipes and n processes,
the j-th process created runs stage j, reads from `inFd` if j = 0 and from
the read end of pipe j-1 otherwise, and writes to `outFd` if j = n-1 and to
the write end of pipe j otherwise. -/
theorem pipe_chain_wiring (env : Env) (cmds : List Stage) (n inFd outFd : Int) (os : OS)
    (hn : 2 ≤ n) (hlen : (cmds.length : Int) = n) (hargv : ∀ c ∈ cmds, c ≠ none)
    (hin : inFd ≠ STDOUT_FILENO) (hout : outFd ≠ STDIN_FILENO)
    (hpipe : ∀ k, env.pipeOk k = true) (hfork : ∀ k, env.forkOk k = true)
    (hpoll : ∀ k e, env.poll k ≠ PollAns.fail e)
    (hcons : Consistent env os)
    (hobs : ∀ l, (pipe_chain env (some cmds) n inFd outFd os).2.trace = os.trace ++ l →
      ∀ p : Nat, Event.waitpid ((p : Int) + 1) ∈ l → env.termOf p ≠ Term.exited EXIT_FAILURE) :
    ∃ l, (pipe_chain env (some cmds) n inFd outFd os).2.trace = os.trace ++ l ∧
      ((pipesOf l).length : Int) = n - 1 ∧ ((forksOf l).length : Int) = n ∧
      forksOf l = wiring outFd 0 inFd (pipesOf l) ∧
      ∀ j : Nat, (j : Int) < n →
        (forksOf l).get? j =
          some (j,
            (if j = 0 then inFd else (((pipesOf l).get? (j - 1)).map Prod.fst).getD 0),
            (if (j : Int) = n - 1 then outFd
             else (((pipesOf l).get? j).map Prod.snd).getD 0)) := by
  have hcmds : ∀ j, j < (n - 1).toNat → ∃ a, cmds.get? j = some (some a) := by
    intro j hj
    have hjl : j < cmds.length := by omega
    have hmem : cmds.get ⟨j, hjl⟩ ∈ cmds := List.get_mem _ _ _
    cases hc : cmds.get ⟨j, hjl⟩ with
    | none => exact absurd hc (hargv _ hmem)
    | some a => exact ⟨a, by rw [List.get?_eq_get hjl, hc]⟩
  have hw : ¬ (inFd = STDOUT_FILENO ∨ outFd = STDIN_FILENO) := by
    rintro (h | h)
    · exact hin h
    · exact hout h
  have hmin : ¬ (n - 1 < INT_MIN) := by unfold INT_MIN; omega
  have key : ∀ l, ((pipesOf l).length : Int) = n - 1 →
      forksOf l = wiring outFd 0 inFd (pipesOf l) →
      ((pipesOf l).length : Int) = n - 1 ∧ ((forksOf l).length : Int) = n ∧
      forksOf l = wiring outFd 0 inFd (pipesOf l) ∧
      ∀ j : Nat, (j : Int) < n →
        (forksOf l).get? j =
          some (j,
            (if j = 0 then inFd else (((pipesOf l).get? (j - 1)).map Prod.fst).getD 0),
            (if (j : Int) = n - 1 then outFd
             else (((pipesOf l).get? j).map Prod.snd).getD 0)) := by
    intro l h1 h2
    refine ⟨h1, ?_, h2, ?_⟩
    · rw [h2, wiring_length]; push_cast; omega
    · intro j hj
      rw [h2, wiring_get? outFd _ 0 inFd j (by omega)]
      have e : (j = (pipesOf l).length) ↔ ((j : Int) = n - 1) := by omega
      simp only [Nat.zero_add, e]
  unfold pipe_chain at hobs ⊢
  simp only [hw, if_false, hmin] at hobs ⊢
  rcases stage_loop_wiring env hpipe hfork hpoll cmds (n - 1).toNat hcmds
      (n - 1).toNat 0 inFd n os (by omega) hcons with
    ⟨os1, l, h1, _, h3, p, h4, h5⟩ | ⟨inFd1, remain1, os1, l, h1, h2, h3, h4⟩
  · exfalso
    rw [h1] at hobs
    exact hobs l h3 p h4 h5
  · rw [h1]
    simp only [sys_fork, hfork]
    have hfinal : ∀ r : Outcome × OS,
        (∃ lw, r.2.trace = os1.trace ++
          [Event.fork (n - 1).toNat inFd1 outFd (os1.nFork + 1)] ++ lw ∧ WaitEvents lw) →
        ∃ l, r.2.trace = os.trace ++ l ∧
          ((pipesOf l).length : Int) = n - 1 ∧ ((forksOf l).length : Int) = n ∧
          forksOf l = wiring outFd 0 inFd (pipesOf l) ∧
          ∀ j : Nat, (j : Int) < n →
            (forksOf l).get? j =
              some (j,
                (if j = 0 then inFd else (((pipesOf l).get? (j - 1)).map Prod.fst).getD 0),
                (if (j : Int) = n - 1 then outFd
                 else (((pipesOf l).get? j).map Prod.snd).getD 0)) := by
      intro r ⟨lw, hr, hwe⟩
      refine ⟨l ++ [Event.fork (n - 1).toNat inFd1 outFd (os1.nFork + 1)] ++ lw, ?_, ?_⟩
      · rw [hr, h2]; simp only [List.append_assoc]
      · apply key
        · simp only [pipesOf_append, hwe.pipesOf, pipesOf, List.append_nil, h3]
          omega
        · simp only [pipesOf_append, hwe.pipesOf, pipesOf, List.append_nil, forksOf_append,
            hwe.forksOf, forksOf, h4 outFd]
    apply hfinal
    simp only [sys_fork, hfork, if_true]
    split_ifs
    · exact ⟨[], by simp, by intro e he; simp at he⟩
    · obtain ⟨lw, e1, e2⟩ := wait_all_events env (remain1 + 1).toNat
        { os1 with nFork := os1.nFork + 1,
                   trace := os1.trace ++ [Event.fork (n - 1).toNat inFd1 outFd (os1.nFork + 1)],
                   children := os1.children ++
                     [⟨os1.nFork + 1, (n - 1).toNat, env.termOf os1.nFork⟩] }
      exact ⟨lw, e1, e2⟩

theorem pipe_chain_wiring_witness :
    ∃ l, (pipe_chain envAllOk (some twoStages) 2 0 1 os0).2.trace = os0.trace ++ l ∧
      ((pipesOf l).length : Int) = 2 - 1 ∧ ((forksOf l).length : Int) = 2 ∧
      forksOf l = wiring 1 0 0 (pipesOf l) ∧
      ∀ j : Nat, (j : Int) < 2 →
        (forksOf l).get? j =
          some (j,
            (if j = 0 then 0 else (((pipesOf l).get? (j - 1)).map Prod.fst).getD 0),
            (if (j : Int) = 2 - 1 then 1
             else (((pipesOf l).get? j).map Prod.snd).getD 0)) :=
  pipe_chain_wiring envAllOk twoStages 2 0 1 os0 (by decide) (by decide) (by decide)
    (by decide) (by decide) (fun _ => rfl) (fun _ => rfl) (fun _ _ h => by cases h)
    (fun c hm => by cases hm)
    (fun _ _ p _ h => by cases h)

/-! ## A failing fork -/

/-- In the spawning loop of `pipe_chain` a failed fork is the last event:
the loop is left at once with `exit(EXIT_FAILURE)`. -/
theorem stage_loop_forkFail (env : Env) (cmds : List Stage) (k i : Nat) (inFd remain : Int)
    (os : OS) :
    ∃ l, (stage_loop env cmds k i inFd remain os).state.trace = os.trace ++ l ∧
      ∀ s, Event.forkFail s ∈ l →
        (∃ os1, stage_loop env cmds k i inFd remain os =
          Loop.stop (Outcome.exit EXIT_FAILURE) os1) ∧
        l.getLast? = some (Event.forkFail s) := by
  induction k generalizing i inFd remain os with
  | zero => exact ⟨[], by simp [stage_loop, Loop.state], by intro s hs; simp at hs⟩
  | succ k ih =>
    by_cases hp : env.pipeOk os.nPipe = true
    · cases hc : cmds.get? i with
      | none =>
        refine ⟨[Event.pipe (lowestFree os.fds) (lowestFree (lowestFree os.fds :: os.fds))],
          ?_, by intro s hs; simp at hs⟩
        unfold stage_loop
        simp only [sys_pipe, hp, if_true, hc, Loop.state]
      | some command =>
        cases command with
        | none =>
          refine ⟨[Event.pipe (lowestFree os.fds) (lowestFree (lowestFree os.fds :: os.fds))],
            ?_, by intro s hs; simp at hs⟩
          unfold stage_loop
          simp only [sys_pipe, hp, if_true, hc, spawn_proc, Loop.state]
        | some a =>
          by_cases hf : env.forkOk os.nFork = true
          · obtain ⟨os3, rd, wr, _, _, _, _, _, htr, hstep⟩ :=
              stage_loop_succ env cmds k i inFd remain os a hp hf hc
            rw [hstep]
            obtain ⟨lw, e1, e2, _⟩ := sweep_frame env i remain os3
            cases hs : sweep env i remain os3 with
            | abort v os4 =>
              rw [hs] at e1
              simp only [Sweep.state] at e1
              refine ⟨[Event.pipe rd wr, Event.fork i inFd wr (os.nFork + 1), Event.close wr]
                ++ lw, ?_, ?_⟩
              · simp only [Loop.state]
                rw [e1, htr]; simp only [List.append_assoc]
              · intro s hm
                exfalso
                rcases List.mem_append.mp hm with h | h
                · simp at h
                · exact e2.no_forkFail s h
            | done remain1 os4 =>
              rw [hs] at e1
              simp only [Sweep.state] at e1
              simp only
              obtain ⟨l, f1, f2⟩ := ih (i + 1) rd remain1 os4
              refine ⟨[Event.pipe rd wr, Event.fork i inFd wr (os.nFork + 1), Event.close wr]
                ++ lw ++ l, ?_, ?_⟩
              · rw [f1, e1, htr]; simp only [List.append_assoc]
              · intro s hm
                have hl : Event.forkFail s ∈ l := by
                  rcases List.mem_append.mp hm with h | h
                  · exfalso
                    rcases List.mem_append.mp h with h | h
                    · simp at h
                    · exact e2.no_forkFail s h
                  · exact h
                obtain ⟨g1, g2⟩ := f2 s hl
                refine ⟨g1, ?_⟩
                rw [List.getLast?_append, g2]
                rfl
          · refine ⟨[Event.pipe (lowestFree os.fds) (lowestFree (lowestFree os.fds :: os.fds)),
              Event.forkFail i], ?_, ?_⟩
            · unfold stage_loop
              simp only [sys_pipe, hp, if_true, hc, spawn_proc, sys_fork, hf]
              simp [Loop.state]
            · intro s hs
              have hs2 : s = i := by simpa using hs
              subst hs2
              refine ⟨?_, rfl⟩
              unfold stage_loop
              simp only [sys_pipe, hp, if_true, hc, spawn_proc, sys_fork, hf]
              simp
    · refine ⟨[Event.pipeFail], ?_, by intro s hs; simp at hs⟩
      unfold stage_loop
      simp [sys_pipe, hp, Loop.state]

/-- In `pipe_chain` a failed fork is the last event and the process
terminates with `EXIT_FAILURE`. -/
theorem pipe_chain_forkFail (env : Env) (commands : Option (List Stage)) (n inFd outFd : Int)
    (os : OS) :
    ∃ l, (pipe_chain env commands n inFd outFd os).2.trace = os.trace ++ l ∧
      ∀ s, Event.forkFail s ∈ l →
        (pipe_chain env commands n inFd outFd os).1 = Outcome.exit EXIT_FAILURE ∧
        l.getLast? = some (Event.forkFail s) := by
  unfold pipe_chain
  cases commands with
  | none => exact ⟨[], by simp, by intro s hs; simp at hs⟩
  | some cmds =>
    simp only
    split_ifs
    · exact ⟨[], by simp, by intro s hs; simp at hs⟩
    · exact ⟨[], by simp, by intro s hs; simp at hs⟩
    · obtain ⟨l, f1, f2⟩ := stage_loop_forkFail env cmds (n - 1).toNat 0 inFd n os
      cases hs : stage_loop env cmds (n - 1).toNat 0 inFd n os with
      | stop o os1 =>
        rw [hs] at f1 f2
        simp only [Loop.state] at f1
        refine ⟨l, f1, ?_⟩
        intro s hm
        obtain ⟨⟨os2, g1⟩, g2⟩ := f2 s hm
        simp only [Loop.stop.injEq] at g1
        exact ⟨g1.1, g2⟩
      | done i inFd1 remain1 os1 =>
        rw [hs] at f1 f2
        simp only [Loop.state] at f1
        have hno : ∀ s, Event.forkFail s ∉ l := by
          intro s hm
          obtain ⟨⟨os2, g1⟩, _⟩ := f2 s hm
          cases g1
        simp only
        by_cases hf : env.forkOk os1.nFork = true
        · have hfinal : ∀ r : Outcome × OS,
              (∃ lw, r.2.trace = os1.trace ++
                [Event.fork i inFd1 outFd (os1.nFork + 1)] ++ lw ∧ WaitEvents lw) →
              ∃ l, r.2.trace = os.trace ++ l ∧
                ∀ s, Event.forkFail s ∈ l →
                  r.1 = Outcome.exit EXIT_FAILURE ∧ l.getLast? = some (Event.forkFail s) := by
            intro r ⟨lw, hr, hwe⟩
            refine ⟨l ++ [Event.fork i inFd1 outFd (os1.nFork + 1)] ++ lw, ?_, ?_⟩
            · rw [hr, f1]; simp only [List.append_assoc]
            · intro s hm
              exfalso
              rcases List.mem_append.mp hm with h | h
              · rcases List.mem_append.mp h with h | h
                · exact hno s h
                · simp at h
              · exact hwe.no_forkFail s h
          apply hfinal
          simp only [sys_fork, hf, if_true]
          split_ifs
          · exact ⟨[], by simp, by intro e he; simp at he⟩
          · obtain ⟨lw, e1, e2⟩ := wait_all_events env (remain1 + 1).toNat
              { os1 with nFork := os1.nFork + 1,
                         trace := os1.trace ++ [Event.fork i inFd1 outFd (os1.nFork + 1)],
                         children := os1.children ++
                           [⟨os1.nFork + 1, i, env.termOf os1.nFork⟩] }
            exact ⟨lw, e1, e2⟩
        · refine ⟨l ++ [Event.forkFail i], ?_, ?_⟩
          · simp [sys_fork, hf, f1]
          · intro s hm
            have hs2 : s = i := by
              rcases List.mem_append.mp hm with h | h
              · exact absurd h (hno s)
              · simpa using h
            subst hs2
            refine ⟨by simp [sys_fork, hf], by simp⟩

/-- The same through `pipe_chain_r`, which makes no fork of its own. -/
theorem pipe_chain_r_forkFail (env : Env) (commands : Option (List Stage)) (n : Int)
    (input output : Option CStr) (openIn openOut : OpenAns) (os : OS) :
    ∃ l, (pipe_chain_r env commands n input output openIn openOut os).2.trace = os.trace ++ l ∧
      ∀ s, Event.forkFail s ∈ l →
        (pipe_chain_r env commands n input output openIn openOut os).1 =
          Outcome.exit EXIT_FAILURE ∧
        l.getLast? = some (Event.forkFail s) := by
  unfold pipe_chain_r
  by_cases h : input = none ∧ output = none
  · simp only [h, and_self, if_true]
    exact pipe_chain_forkFail env commands n STDIN_FILENO STDOUT_FILENO os
  · simp only [h, if_false]
    split
    · exact ⟨[], by simp, by intro s hs; simp at hs⟩
    · split
      · exact ⟨[], by simp, by intro s hs; simp at hs⟩
      · exact pipe_chain_forkFail env commands n _ _ _

/-- The same, for a call whose result is known. -/
theorem pipe_chain_r_forkFail_of {env : Env} {commands : Option (List Stage)} {n : Int}
    {input output : Option CStr} {openIn openOut : OpenAns} {os : OS} {r : Outcome × OS}
    (h : pipe_chain_r env commands n input output openIn openOut os = r) :
    ∃ l, r.2.trace = os.trace ++ l ∧
      ∀ s, Event.forkFail s ∈ l →
        r.1 = Outcome.exit EXIT_FAILURE ∧ l.getLast? = some (Event.forkFail s) := by
  subst h
  exact pipe_chain_r_forkFail env commands n input output openIn openOut os

/-- The single-command path: the only event is the fork; when it fails,
`create_child` returns -1 and `handle_cmd_line` returns -1. -/
theorem run_single_forkFail (sh : Shell) (os : OS) :
    ∃ l, (run_single sh os).2.trace = os.trace ++ l ∧
      ∀ s, Event.forkFail s ∈ l →
        (run_single sh os).1 = CmdEnd.ret (-1) ∧ l.getLast? = some (Event.forkFail s) := by
  by_cases hf : sh.env.forkOk os.nFork = true
  · refine ⟨[Event.fork 0 STDIN_FILENO STDOUT_FILENO (os.nFork + 1)], ?_, ?_⟩
    · unfold run_single
      simp only [create_child, sys_fork, hf, if_true]
      split
      · rfl
      · split_ifs <;> rfl
    · intro s hs
      simp at hs
  · refine ⟨[Event.forkFail 0], ?_, ?_⟩
    · simp [run_single, create_child, sys_fork, hf, wait_child]
    · intro s hs
      have hs2 : s = 0 := by simpa using hs
      subst hs2
      refine ⟨by simp [run_single, create_child, sys_fork, hf, wait_child], rfl⟩

/-- A failed fork seen from `handle_cmd_line`: it is the last event; a
pipeline ends in `exit(EXIT_FAILURE)`, a single command in the return
value -1. -/
theorem handle_cmd_line_forkFail (sh : Shell) (cmd_line : CStr) (os : OS) :
    ∃ l, (handle_cmd_line sh cmd_line os).2.trace = os.trace ++ l ∧
      ∀ s, Event.forkFail s ∈ l →
        l.getLast? = some (Event.forkFail s) ∧
        ∃ cnt, ctoken_counter cmd_line ['|'] = some cnt ∧
          ((1 < cnt ∧ (handle_cmd_line sh cmd_line os).1 = CmdEnd.exit EXIT_FAILURE) ∨
           (cnt ≤ 1 ∧ (handle_cmd_line sh cmd_line os).1 = CmdEnd.ret (-1))) := by
  have hnil : ∀ (r : CmdEnd × OS) (P : List Event → Nat → Prop), r.2.trace = os.trace →
      ∃ l, r.2.trace = os.trace ++ l ∧ ∀ s, Event.forkFail s ∈ l → P l s :=
    fun r P h => ⟨[], by simp [h], by intro s hs; simp at hs⟩
  unfold handle_cmd_line
  cases hcnt : ctoken_counter cmd_line ['|'] with
  | none => exact hnil _ _ (by rfl)
  | some cnt =>
    simp only
    by_cases hc : cnt > 1
    · simp only [hc, if_true]
      split
      · split
        · exact hnil _ _ (by rfl)
        · exact hnil _ _ (by rfl)
        · split
          · split
            · exact hnil _ _ (by rfl)
            · split
              · rename_i heq
                obtain ⟨l2, f1, f2⟩ := pipe_chain_r_forkFail_of heq
                refine ⟨l2, ?_, ?_⟩
                · split_ifs <;> exact f1
                · intro s hs
                  exact absurd (f2 s hs).1 (by simp)
              · rename_i heq
                obtain ⟨l2, f1, f2⟩ := pipe_chain_r_forkFail_of heq
                refine ⟨l2, f1, ?_⟩
                intro s hs
                obtain ⟨g1, g2⟩ := f2 s hs
                simp only [Outcome.exit.injEq] at g1
                exact ⟨g2, cnt, rfl, Or.inl ⟨hc, by rw [g1]⟩⟩
              · rename_i heq
                obtain ⟨l2, f1, f2⟩ := pipe_chain_r_forkFail_of heq
                refine ⟨l2, f1, ?_⟩
                intro s hs
                exact absurd (f2 s hs).1 (by simp)
          · exact hnil _ _ (by rfl)
      · exact hnil _ _ (by rfl)
    · simp only [hc, if_false]
      split
      · exact hnil _ _ (by rfl)
      · split_ifs
        · exact hnil _ _ (by rfl)
        · split
          · split
            · exact hnil _ _ (by rfl)
            · split
              · exact hnil _ _ (by rfl)
              · obtain ⟨l2, f1, f2⟩ := run_single_forkFail sh { os with pg_errno := ‹ErrorType› }
                refine ⟨l2, f1, ?_⟩
                intro s hs
                obtain ⟨g1, g2⟩ := f2 s hs
                exact ⟨g2, cnt, rfl, Or.inr ⟨by omega, g1⟩⟩
          · exact hnil _ _ (by rfl)

/-- C17 (amended): whenever a fork fails while `handle_cmd_line` handles a
command line, the failed fork is the last system call of the call (nothing
more is spawned or waited for); for a pipeline (more than one stage string)
the process terminates with `EXIT_FAILURE`, for a single command
`handle_cmd_line` returns -1 and the process goes on. -/
theorem handle_cmd_line_fork_failure (sh : Shell) (cmd_line : CStr) (os : OS) (l : List Event)
    (hl : (handle_cmd_line sh cmd_line os).2.trace = os.trace ++ l) (s : Nat)
    (hs : Event.forkFail s ∈ l) :
    l.getLast? = some (Event.forkFail s) ∧
    ∃ cnt, ctoken_counter cmd_line ['|'] = some cnt ∧
      ((1 < cnt ∧ (handle_cmd_line sh cmd_line os).1 = CmdEnd.exit EXIT_FAILURE) ∨
       (cnt ≤ 1 ∧ (handle_cmd_line sh cmd_line os).1 = CmdEnd.ret (-1))) := by
  obtain ⟨l2, f1, f2⟩ := handle_cmd_line_forkFail sh cmd_line os
  have : l = l2 := by
    rw [hl] at f1
    exact List.append_cancel_left f1
  subst this
  exact f2 s hs

theorem handle_cmd_line_fork_failure_witness :
    [Event.pipe 3 4, Event.forkFail 0].getLast? = some (Event.forkFail 0) ∧
    ∃ cnt, ctoken_counter lineLsWc ['|'] = some cnt ∧
      ((1 < cnt ∧ (handle_cmd_line shellNoFork lineLsWc os0).1 = CmdEnd.exit EXIT_FAILURE) ∨
       (cnt ≤ 1 ∧ (handle_cmd_line shellNoFork lineLsWc os0).1 = CmdEnd.ret (-1))) :=
  handle_cmd_line_fork_failure shellNoFork lineLsWc os0 [Event.pipe 3 4, Event.forkFail 0]
    (by decide) 0 (by decide)

/-! ## A failing wait call -/

/-- A non-blocking `waitpid` that the kernel fails while children exist
returns -1 with the errno of the failure. -/
theorem sys_waitpid_nohang_fail (env : Env) (os : OS) (e : Errno)
    (hch : os.children ≠ []) (hp : env.poll os.nPoll = PollAns.fail e) :
    sys_waitpid_nohang env os =
      (-1, { os with nPoll := os.nPoll + 1, errno := e,
                     trace := os.trace ++ [Event.waitpid (-1)] }) := by
  simp [sys_waitpid_nohang, hch, hp]

/-- The first `waitpid` of a sweep fails with an errno other than `ECHILD`:
the sweep makes `pipe_chain` return -1 with `EWAIT`. -/
theorem sweep_waitpid_failure (env : Env) (m : Nat) (remain : Int) (os : OS)
    (h1 : (sys_waitpid_nohang env os).1 = -1)
    (h2 : (sys_waitpid_nohang env os).2.errno ≠ Errno.ECHILD) :
    sweep env (m + 1) remain os =
      Sweep.abort (-1) { (sys_waitpid_nohang env os).2 with pg_errno := ErrorType.EWAIT } := by
  unfold sweep
  generalize sys_waitpid_nohang env os = r at h1 h2
  obtain ⟨v, os1⟩ := r
  simp only at h1 h2 ⊢
  simp [h1, h2]

/-- The first `waitpid` of a sweep fails with `ECHILD`: the failure is
ignored, the sweep goes on. -/
theorem sweep_waitpid_echild (env : Env) (m : Nat) (remain : Int) (os : OS)
    (h1 : (sys_waitpid_nohang env os).1 = -1)
    (h2 : (sys_waitpid_nohang env os).2.errno = Errno.ECHILD) :
    sweep env (m + 1) remain os = sweep env m remain (sys_waitpid_nohang env os).2 := by
  conv_lhs => unfold sweep
  generalize sys_waitpid_nohang env os = r at h1 h2
  obtain ⟨v, os1⟩ := r
  simp only at h1 h2 ⊢
  simp [h1, h2]

/-- C15 (amended): a `waitpid` call of the non-blocking sweep that returns -1
with an errno other than `ECHILD` makes `pipe_chain` return -1 with
`pg_errno = EWAIT`, while a -1 with `ECHILD` is ignored and the sweep goes
on.  In particular, in a pipeline of at least three stages whose first two
stages are spawned, if the first `waitpid` of the call fails with an errno
other than `ECHILD` then `pipe_chain` returns -1 with `pg_errno = EWAIT`
after exactly two forks. -/
theorem pipe_chain_waitpid_failure (env : Env) (cmds : List Stage) (n inFd outFd : Int)
    (os : OS) (a0 a1 : List CStr) (e : Errno) (m : Nat) (remain : Int) (os' : OS)
    (hn : 3 ≤ n) (h0 : cmds.get? 0 = some (some a0)) (h1 : cmds.get? 1 = some (some a1))
    (hin : inFd ≠ STDOUT_FILENO) (hout : outFd ≠ STDIN_FILENO)
    (hp0 : env.pipeOk os.nPipe = true) (hp1 : env.pipeOk (os.nPipe + 1) = true)
    (hf0 : env.forkOk os.nFork = true) (hf1 : env.forkOk (os.nFork + 1) = true)
    (hpoll : env.poll os.nPoll = PollAns.fail e) (he : e ≠ Errno.ECHILD)
    (hret : (sys_waitpid_nohang env os').1 = -1) :
    ((sys_waitpid_nohang env os').2.errno ≠ Errno.ECHILD →
      sweep env (m + 1) remain os' =
        Sweep.abort (-1)
          { (sys_waitpid_nohang env os').2 with pg_errno := ErrorType.EWAIT }) ∧
    ((sys_waitpid_nohang env os').2.errno = Errno.ECHILD →
      sweep env (m + 1) remain os' = sweep env m remain (sys_waitpid_nohang env os').2) ∧
    (pipe_chain env (some cmds) n inFd outFd os).1 = Outcome.ret (-1) ∧
    (pipe_chain env (some cmds) n inFd outFd os).2.pg_errno = ErrorType.EWAIT ∧
    (pipe_chain env (some cmds) n inFd outFd os).2.nFork = os.nFork + 2 := by
  refine ⟨sweep_waitpid_failure env m remain os' hret,
    sweep_waitpid_echild env m remain os' hret, ?_⟩
  have hw : ¬ (inFd = STDOUT_FILENO ∨ outFd = STDIN_FILENO) := by
    rintro (h | h)
    · exact hin h
    · exact hout h
  have hmin : ¬ (n - 1 < INT_MIN) := by unfold INT_MIN; omega
  obtain ⟨k, hk⟩ : ∃ k, (n - 1).toNat = k + 2 := ⟨(n - 1).toNat - 2, by omega⟩
  unfold pipe_chain
  simp only [hw, if_false, hmin, hk]
  obtain ⟨os3, rd, wr, hch, hnf, hnp, hpl, _, _, hstep⟩ :=
    stage_loop_succ env cmds (k + 1) 0 inFd n os a0 hp0 hf0 h0
  rw [hstep]
  simp only [sweep]
  obtain ⟨os5, rd2, wr2, hch2, hnf2, hnp2, hpl2, _, _, hstep2⟩ :=
    stage_loop_succ env cmds k 1 rd n os3 a1 (by rw [hnp]; exact hp1) (by rw [hnf]; exact hf1) h1
  rw [hstep2]
  have hne : os5.children ≠ [] := by rw [hch2]; simp
  have hfail := sys_waitpid_nohang_fail env os5 e hne (by rw [hpl2, hpl]; exact hpoll)
  have hsw := sweep_waitpid_failure env 0 n os5 (by rw [hfail]) (by rw [hfail]; exact he)
  rw [hsw]
  refine ⟨rfl, rfl, ?_⟩
  simp only [hfail]
  rw [hnf2, hnf]

theorem pipe_chain_waitpid_failure_witness :
    (pipe_chain envPollFails (some fiveStages) 5 0 1 os0).1 = Outcome.ret (-1) ∧
    (pipe_chain envPollFails (some fiveStages) 5 0 1 os0).2.pg_errno = ErrorType.EWAIT ∧
    (pipe_chain envPollFails (some fiveStages) 5 0 1 os0).2.nFork = os0.nFork + 2 :=
  (pipe_chain_waitpid_failure envPollFails fiveStages 5 0 1 os0 [['a']] [['a']] Errno.EINTR
    0 0 os0 (by decide) rfl rfl (by decide) (by decide) rfl rfl rfl rfl rfl (by decide)
    (by decide)).2.2

/-! ## Two output redirections -/

/-- A doubled symbol does not occur where single symbols join pieces that
are free of its character. -/
theorem strstr_double_skip {c : Char} (r : CStr) (hr : NoHead c r) :
    ∀ t : CStr, c ∉ t → strstr (t ++ [c] ++ r) [c, c] = strstr r [c, c]
  | [], _ => by
    have hp : [c, c].isPrefixOf (c :: r) = false := by
      cases r with
      | nil => simp [List.isPrefixOf]
      | cons x r =>
        have hx : x ≠ c := hr x rfl
        simp [List.isPrefixOf, Ne.symm hx]
    show strstr (c :: r) [c, c] = strstr r [c, c]
    simp only [strstr, hp, Bool.false_eq_true, if_false]
  | x :: t, h => by
    have hx : x ≠ c := fun e => h (by rw [e]; exact List.mem_cons_self _ _)
    have ht : c ∉ t := fun e => h (List.mem_cons_of_mem _ e)
    have ih := strstr_double_skip r hr t ht
    simp only [List.cons_append, List.append_assoc] at ih ⊢
    simp only [strstr, isPrefixOf_cons_ne hx, Bool.false_eq_true, if_false]
    exact ih

theorem strstr_double_joinSym {c : Char} :
    ∀ (t : CStr) (ts : List CStr), Pieces c (t :: ts) →
      strstr (joinSym [c] (t :: ts)) [c, c] = none
  | t, [], h => by
    simp only [joinSym]
    exact strstr_none_of_not_mem [c] t (h t (List.mem_cons_self _ _)).2
  | t, t1 :: ts, h => by
    have h1 : Pieces c (t1 :: ts) := fun p hp => h p (List.mem_cons_of_mem _ hp)
    simp only [joinSym]
    rw [strstr_double_skip _ (joinSym_noHead [c] t1 ts h1) t (h t (List.mem_cons_self _ _)).2]
    exact strstr_double_joinSym t1 ts h1

/-- The resolver, from the number of tokens counted in the eligible stage:
a count other than 1, 2 and -1 is a syntax error. -/
theorem pipe_redirect_filename_of_count (pipe_tokens : List CStr) (tokens redirection : Int)
    (pgErr : ErrorType) (symb : CStr) (index : Int) (stage : CStr) (count : Int)
    (htarget : redirect_target tokens redirection = some (symb, index))
    (hidx : 0 ≤ index) (hstage : pipe_tokens.get? index.toNat = some stage)
    (hcount : stoken_counter stage symb = some count)
    (h1 : count ≠ 1) (h2 : count ≠ 2) (h3 : count ≠ -1) :
    pipe_redirect_filename pipe_tokens tokens redirection pgErr =
      some ⟨none, ErrorType.ESYNTAX, pipe_tokens⟩ := by
  have hneg : ¬ (index < 0) := by omega
  simp only [pipe_redirect_filename, htarget, hneg, if_false, hstage, hcount, h1, h2, h3]

/-- The resolution of the input touches the first stage only. -/
theorem pipe_redirect_filename_redin_frame (pipe_tokens : List CStr) (tokens : Int)
    (pgErr : ErrorType) (r : Resolved)
    (h : pipe_redirect_filename pipe_tokens tokens REDIN pgErr = some r) (j : Nat)
    (hj : j ≠ 0) : r.pipe_tokens.get? j = pipe_tokens.get? j := by
  have ht : redirect_target tokens REDIN = some (['<'], 0) := by simp [redirect_target]
  simp only [pipe_redirect_filename, ht] at h
  split at h
  · cases h
  · split at h
    · cases h
    · split at h
      · cases h
      · split_ifs at h
        · cases h; rfl
        · split at h
          · split at h
            · cases h
              simp only [Int.toNat_zero]
              rw [List.get?_eq_getElem?, List.get?_eq_getElem?, List.getElem?_set_ne (Ne.symm hj)]
            · cases h
          · cases h
        · cases h; rfl
        · cases h; rfl

/-- The length of pieces joined by a symbol. -/
theorem joinSym_three_length (sym t t1 t2 : CStr) (ts : List CStr)
    (h : ∀ p ∈ t :: t1 :: t2 :: ts, p ≠ []) :
    sym.length + sym.length + 3 ≤ (joinSym sym (t :: t1 :: t2 :: ts)).length := by
  have e0 : 1 ≤ t.length := List.length_pos.mpr (h t (by simp))
  have e1 : 1 ≤ t1.length := List.length_pos.mpr (h t1 (by simp))
  have e2 : 1 ≤ t2.length := List.length_pos.mpr (h t2 (by simp))
  cases ts with
  | nil => simp only [joinSym, List.length_append]; omega
  | cons t3 ts => simp only [joinSym, List.length_append]; omega

/-- C12 (amended): in a pipeline whose input redirection is resolved without
failure and whose last stage is made of three or more non-empty pieces free
of '>' joined by one and the same output symbol (all ">" or all ">>"), the
last piece at least two characters long, `handle_cmd_line` returns -1 with
`pg_errno = ESYNTAX` and makes no system call. -/
theorem handle_cmd_line_same_output_twice (sh : Shell) (cmd_line : CStr) (os : OS)
    (pipe_tokens : List CStr) (cnt : Int) (r1 : Resolved) (symb t t1 t2 : CStr)
    (ts : List CStr)
    (hcnt : ctoken_counter cmd_line ['|'] = some cnt) (hpipe : 1 < cnt)
    (htok : ctokenize cmd_line ['|'] = some (some pipe_tokens))
    (hin : pipe_redirect_filename pipe_tokens cnt REDIN os.pg_errno = some r1)
    (hinok : resolver_failed r1 = false)
    (hsym : symb = ['>'] ∨ symb = ['>', '>'])
    (hlast : pipe_tokens.get? (cnt - 1).toNat = some (joinSym symb (t :: t1 :: t2 :: ts)))
    (hpieces : ∀ p ∈ t :: t1 :: t2 :: ts, p ≠ [] ∧ '>' ∉ p)
    (hlen : 2 ≤ ((t2 :: ts).getLast (List.cons_ne_nil _ _)).length) :
    handle_cmd_line sh cmd_line os =
      (CmdEnd.ret (-1), { os with pg_errno := ErrorType.ESYNTAX }) := by
  have hp : Pieces '>' (t :: t1 :: t2 :: ts) := hpieces
  have hidx : 0 ≤ cnt - 1 := by omega
  have hj : (cnt - 1).toNat ≠ 0 := by omega
  have hstage : r1.pipe_tokens.get? (cnt - 1).toNat =
      some (joinSym symb (t :: t1 :: t2 :: ts)) := by
    rw [pipe_redirect_filename_redin_frame pipe_tokens cnt os.pg_errno r1 hin _ hj, hlast]
  have hn1 : ((((t2 :: ts).length : Nat) : Int) + 2 ≠ 1) := by
    simp only [List.length_cons]; omega
  have hn2 : ((((t2 :: ts).length : Nat) : Int) + 2 ≠ 2) := by
    simp only [List.length_cons]; omega
  have hn3 : ((((t2 :: ts).length : Nat) : Int) + 2 ≠ -1) := by
    simp only [List.length_cons]; omega
  have hres : resolve_pipeline pipe_tokens cnt os.pg_errno =
      some (Resolution.fail ErrorType.ESYNTAX
        (if symb = ['>'] then [REDIN, REDOUTA, REDOUT] else [REDIN, REDOUTA])) := by
    rcases hsym with rfl | rfl
    · have hs : AllC '>' ['>'] := by intro x hx; simpa using hx
      have hcount := stoken_counter_joinSym [] hs t t1 (t2 :: ts) hp
        (by simpa [List.getLast_cons] using hlen)
      have habs := strstr_double_joinSym t (t1 :: t2 :: ts) hp
      have hl := joinSym_three_length ['>'] t t1 t2 ts (fun p hm => (hpieces p hm).1)
      have e2 := pipe_redirect_filename_absent r1.pipe_tokens cnt REDOUTA r1.pg_errno
        ['>', '>'] (cnt - 1) _ (by simp [redirect_target, REDOUTA, REDIN, REDOUT]) hidx hstage
        habs (by simp only [List.length_cons, List.length_nil] at hl ⊢; omega)
      have e3 := pipe_redirect_filename_of_count r1.pipe_tokens cnt REDOUT ErrorType.EOK
        ['>'] (cnt - 1) _ _ (by simp [redirect_target, REDOUT, REDIN]) hidx hstage
        hcount hn1 hn2 hn3
      have hf3 : resolver_failed ⟨none, ErrorType.ESYNTAX, r1.pipe_tokens⟩ = true := by
        simp [resolver_failed]
      simp only [resolve_pipeline, consult, hin, hinok, Bool.false_eq_true, if_false, e2, e3,
        hf3, if_true, List.nil_append, List.cons_append]
    · have hs : AllC '>' ['>', '>'] := by
        intro x hx
        simp only [List.mem_cons, List.mem_singleton, List.not_mem_nil, or_false, or_self] at hx
        exact hx
      have hcount := stoken_counter_joinSym ['>'] hs t t1 (t2 :: ts) hp
        (by simpa [List.getLast_cons] using hlen)
      have e2 := pipe_redirect_filename_of_count r1.pipe_tokens cnt REDOUTA r1.pg_errno
        ['>', '>'] (cnt - 1) _ _ (by simp [redirect_target, REDOUTA, REDIN, REDOUT]) hidx
        hstage hcount hn1 hn2 hn3
      simp only [resolve_pipeline, consult, hin, hinok, Bool.false_eq_true, if_false, e2,
        List.nil_append, List.cons_append]
      simp
  have hc : cnt > 1 := hpipe
  simp only [handle_cmd_line, hcnt, hc, if_true, htok, hres]

theorem handle_cmd_line_same_output_twice_witness :
    handle_cmd_line shellOk linePipeSameTwice os0 =
      (CmdEnd.ret (-1), { os0 with pg_errno := ErrorType.ESYNTAX }) :=
  handle_cmd_line_same_output_twice shellOk linePipeSameTwice os0
    [['l', 's', ' '], [' ', 'c', ' ', '>', ' ', 'a', ' ', '>', ' ', 'b', 'b']] 2
    ⟨none, ErrorType.EOK, [['l', 's', ' '], [' ', 'c', ' ', '>', ' ', 'a', ' ', '>', ' ', 'b', 'b']]⟩
    ['>'] [' ', 'c', ' '] [' ', 'a', ' '] [' ', 'b', 'b'] []
    (by decide) (by decide) (by decide) (by decide) (by decide) (Or.inl rfl) (by decide)
    (by decide) (by decide)

/-! ## The descriptor table -/

/-- The descriptor `lowestFree` picks is not open. -/
theorem lowestFree_not_mem (fds : List Int) : lowestFree fds ∉ fds := by
  unfold lowestFree
  split
  · rename_i k h
    have := List.find?_some h
    simpa using this
  · rename_i h
    exfalso
    rw [List.find?_eq_none] at h
    have hsub : List.map (fun k : Nat => (k : Int)) (List.range (fds.length + 1)) ⊆ fds := by
      intro x hx
      obtain ⟨k, hk, rfl⟩ := List.mem_map.mp hx
      have := h (k : Int) (by simpa using hk)
      simpa using this
    have hnd : (List.map (fun k : Nat => (k : Int)) (List.range (fds.length + 1))).Nodup :=
      (List.nodup_range _).map (fun a b hab => by simpa using hab)
    have := (List.subperm_of_subset hnd hsub).length_le
    simp at this

theorem lowestFree_nonneg (fds : List Int) : 0 ≤ lowestFree fds := by
  unfold lowestFree
  split
  · rename_i k h
    have := List.mem_of_find?_eq_some h
    simp only [List.pure_def, List.bind_eq_flatMap, List.mem_flatMap, List.mem_range,
      List.mem_singleton] at this
    obtain ⟨a, _, rfl⟩ := this
    exact Int.ofNat_nonneg _
  · exact Int.ofNat_nonneg _

theorem lookup_cons_eq (k a : Int) (b : FileRef) (t : FdTable) :
    List.lookup k ((a, b) :: t) = if k = a then some b else List.lookup k t := by
  by_cases h : k = a
  · simp [List.lookup, h]
  · have : (k == a) = false := by simpa using h
    simp [List.lookup, h, this]

theorem lookup_fd_close (fd k : Int) (t : FdTable) :
    List.lookup k (fd_close fd t) = if k = fd then none else List.lookup k t := by
  induction t with
  | nil => simp [fd_close]
  | cons e t ih =>
    obtain ⟨a, b⟩ := e
    unfold fd_close at ih ⊢
    by_cases ha : a = fd
    · simp only [List.filter, ha, ne_eq, not_true_eq_false, decide_False]
      rw [ih, lookup_cons_eq]
      by_cases hk : k = fd
      · simp [hk]
      · simp [hk]
    · simp only [List.filter, ha, ne_eq, not_false_eq_true, decide_True]
      rw [lookup_cons_eq, lookup_cons_eq, ih]
      by_cases hk : k = fd
      · have : k ≠ a := fun e => ha (e ▸ hk)
        simp [hk, this]
        intro e; exact absurd e.symm ha
      · simp [hk]

theorem lookup_none_of_not_mem (k : Int) (t : FdTable) (h : k ∉ t.map Prod.fst) :
    List.lookup k t = none := by
  induction t with
  | nil => rfl
  | cons e t ih =>
    obtain ⟨a, b⟩ := e
    simp only [List.map_cons, List.mem_cons, not_or] at h
    rw [lookup_cons_eq, if_neg h.1]
    exact ih h.2

theorem lookup_lowestFree (t : FdTable) : List.lookup (lowestFree (t.map Prod.fst)) t = none :=
  lookup_none_of_not_mem _ t (lowestFree_not_mem _)

/-- A successful `open`: a descriptor that was not open now refers to the
file, nothing else changes. -/
theorem fd_open_spec (path : CStr) (mode : OpenMode) (t : FdTable) :
    ∃ f t1, fd_open true path mode t = some (f, t1) ∧ 0 ≤ f ∧ List.lookup f t = none ∧
      ∀ x, List.lookup x t1 = if x = f then some (FileRef.file path mode) else List.lookup x t :=
  ⟨_, _, by simp [fd_open], lowestFree_nonneg _, lookup_lowestFree t,
    fun x => lookup_cons_eq x _ _ t⟩

/-- A successful `dup`: a descriptor that was not open now refers to what
`oldfd` refers to. -/
theorem fd_dup_spec (oldfd : Int) (t : FdTable) (r : FileRef)
    (h : List.lookup oldfd t = some r) :
    ∃ b t1, fd_dup true oldfd t = some (b, t1) ∧ 0 ≤ b ∧ List.lookup b t = none ∧
      ∀ x, List.lookup x t1 = if x = b then some r else List.lookup x t :=
  ⟨_, _, by simp [fd_dup, h], lowestFree_nonneg _, lookup_lowestFree t,
    fun x => lookup_cons_eq x _ _ t⟩

/-- A successful `dup2`: `newfd` now refers to what `oldfd` refers to. -/
theorem fd_dup2_spec (oldfd newfd : Int) (t : FdTable) (r : FileRef)
    (h : List.lookup oldfd t = some r) :
    ∃ t1, fd_dup2 true oldfd newfd t = some t1 ∧
      ∀ x, List.lookup x t1 = if x = newfd then some r else List.lookup x t := by
  by_cases he : oldfd = newfd
  · subst he
    refine ⟨t, by simp [fd_dup2, h], ?_⟩
    intro x
    by_cases hx : x = oldfd
    · rw [if_pos hx, hx, h]
    · rw [if_neg hx]
  · refine ⟨(newfd, r) :: fd_close newfd t, by simp [fd_dup2, h, he], ?_⟩
    intro x
    rw [lookup_cons_eq, lookup_fd_close]
    by_cases hx : x = newfd
    · simp [hx]
    · simp [hx]

/-- The second half of `redirect` when no call fails. -/
theorem redirect_output_success (a : FileAns) (output : Option CStr) (append : Int)
    (pgErr : ErrorType) (t : FdTable) (r1 : FileRef)
    (hb : a.dupBack = true) (ho : a.openOut = true) (hd : a.dupOut = true)
    (h1 : List.lookup 1 t = some r1) :
    0 ≤ (redirect_output a output append pgErr t).ret ∧
    List.lookup (redirect_output a output append pgErr t).ret t = none ∧
    (redirect_output a output append pgErr t).pg_errno = pgErr ∧
    ∀ x, List.lookup x (redirect_output a output append pgErr t).table =
      if x = (redirect_output a output append pgErr t).ret then some r1
      else if x = 1 then
        some (streamAfter output
          (if append ≠ 0 then OpenMode.wrAppend else OpenMode.wrTrunc) r1)
      else List.lookup x t := by
  obtain ⟨b, t1, e1, eb0, eb, el1⟩ := fd_dup_spec 1 t r1 h1
  have hb1 : b ≠ 1 := by intro e; rw [e, h1] at eb; cases eb
  cases output with
  | none =>
    simp only [redirect_output, hb, STDOUT_FILENO, e1]
    refine ⟨eb0, eb, trivial, ?_⟩
    intro x
    rw [el1]
    by_cases hx : x = b
    · simp [hx]
    · by_cases hx1 : x = 1
      · simp [hx, hx1, h1, streamAfter]
      · simp [hx, hx1]
  | some q =>
    obtain ⟨g, t2, e2, _, eg, el2⟩ := fd_open_spec q
      (if append ≠ 0 then OpenMode.wrAppend else OpenMode.wrTrunc) t1
    have hg : List.lookup g t2 = some (FileRef.file q
        (if append ≠ 0 then OpenMode.wrAppend else OpenMode.wrTrunc)) := by
      rw [el2]; simp
    obtain ⟨t3, e3, el3⟩ := fd_dup2_spec g 1 t2 _ hg
    have hgb : g ≠ b := by
      intro e; rw [e, el1] at eg; simp at eg
    have hg1 : g ≠ 1 := by
      intro e; rw [e, el1, if_neg (Ne.symm hb1), h1] at eg; cases eg
    have hgt : List.lookup g t = none := by
      rw [el1, if_neg hgb] at eg; exact eg
    simp only [redirect_output, hb, ho, hd, STDOUT_FILENO, e1, e2, e3]
    refine ⟨eb0, eb, trivial, ?_⟩
    intro x
    rw [lookup_fd_close, el3, el2, el1]
    by_cases hx : x = g
    · subst hx
      simp [hgb, hg1, hgt]
    · by_cases hxb : x = b
      · subst hxb
        simp [hx, hb1]
      · by_cases hx1 : x = 1
        · simp [hx1, Ne.symm hg1, Ne.symm hb1, streamAfter]
        · simp [hx, hxb, hx1]

/-- C19: when no call of `redirect` fails, at least one path is given and
the standard input and the standard output are open on entry, the value
returned is a descriptor (>= 0) that was not open on entry and refers to
what the standard output referred to on entry; the standard input refers to
the input file, opened read-only, if an input path was given and is
unchanged otherwise; the standard output refers to the output file (opened
with `O_APPEND` when `append` is non-zero, with `O_TRUNC` otherwise) if an
output path was given and is unchanged otherwise; every other descriptor is
as on entry, so the descriptors returned by `open` are closed again; and
`pg_errno` is left as it was. -/
theorem redirect_success (a : FileAns) (input output : Option CStr) (append : Int)
    (pgErr : ErrorType) (t : FdTable) (r0 r1 : FileRef)
    (hoi : a.openIn = true) (hdi : a.dupIn = true) (hb : a.dupBack = true)
    (ho : a.openOut = true) (hd : a.dupOut = true)
    (hgiven : input ≠ none ∨ output ≠ none)
    (h0 : List.lookup 0 t = some r0) (h1 : List.lookup 1 t = some r1) :
    0 ≤ (redirect a input output append pgErr t).ret ∧
    List.lookup (redirect a input output append pgErr t).ret t = none ∧
    List.lookup (redirect a input output append pgErr t).ret
      (redirect a input output append pgErr t).table = some r1 ∧
    List.lookup 0 (redirect a input output append pgErr t).table =
      some (streamAfter input OpenMode.rdonly r0) ∧
    List.lookup 1 (redirect a input output append pgErr t).table =
      some (streamAfter output
        (if append ≠ 0 then OpenMode.wrAppend else OpenMode.wrTrunc) r1) ∧
    (∀ x, x ≠ (redirect a input output append pgErr t).ret → x ≠ 0 → x ≠ 1 →
      List.lookup x (redirect a input output append pgErr t).table = List.lookup x t) ∧
    (redirect a input output append pgErr t).pg_errno = pgErr := by
  have hng : ¬ (input = none ∧ output = none) := by
    rintro ⟨e1, e2⟩
    rcases hgiven with h | h
    · exact h e1
    · exact h e2
  cases input with
  | none =>
    unfold redirect
    rw [if_neg hng]
    simp only
    obtain ⟨f1, f2, f3, f4⟩ := redirect_output_success a output append pgErr t r1 hb ho hd h1
    have hr0 : (redirect_output a output append pgErr t).ret ≠ 0 := by
      intro e; rw [e, h0] at f2; cases f2
    have hr1 : (redirect_output a output append pgErr t).ret ≠ 1 := by
      intro e; rw [e, h1] at f2; cases f2
    refine ⟨f1, f2, ?_, ?_, ?_, ?_, f3⟩
    · rw [f4]; simp
    · rw [f4]; simp [Ne.symm hr0, h0, streamAfter]
    · rw [f4]; simp [Ne.symm hr1]
    · intro x hx hx0 hx1
      rw [f4]; simp [hx, hx1]
  | some p =>
    obtain ⟨f, t1, e1, _, ef, el1⟩ := fd_open_spec p OpenMode.rdonly t
    have hf : List.lookup f t1 = some (FileRef.file p OpenMode.rdonly) := by
      rw [el1]; simp
    obtain ⟨t2, e2, el2⟩ := fd_dup2_spec f 0 t1 _ hf
    have hf0 : f ≠ 0 := by intro e; rw [e, h0] at ef; cases ef
    have hf1 : f ≠ 1 := by intro e; rw [e, h1] at ef; cases ef
    have hl : ∀ x, List.lookup x (fd_close f t2) =
        if x = 0 then some (FileRef.file p OpenMode.rdonly) else List.lookup x t := by
      intro x
      rw [lookup_fd_close, el2, el1]
      by_cases hx : x = f
      · subst hx; simp [hf0, ef]
      · by_cases hx0 : x = 0
        · simp [hx0, Ne.symm hf0]
        · simp [hx, hx0]
    have h1' : List.lookup 1 (fd_close f t2) = some r1 := by
      rw [hl]; simp [h1]
    unfold redirect
    rw [if_neg hng]
    simp only [hoi, hdi, STDIN_FILENO, e1, e2]
    obtain ⟨f1, f2, f3, f4⟩ :=
      redirect_output_success a output append pgErr (fd_close f t2) r1 hb ho hd h1'
    have hr0 : (redirect_output a output append pgErr (fd_close f t2)).ret ≠ 0 := by
      intro e; rw [e, hl] at f2; simp at f2
    have hr1 : (redirect_output a output append pgErr (fd_close f t2)).ret ≠ 1 := by
      intro e; rw [e, h1'] at f2; cases f2
    have hrt : List.lookup (redirect_output a output append pgErr (fd_close f t2)).ret t
        = none := by
      rw [hl, if_neg hr0] at f2; exact f2
    refine ⟨f1, hrt, ?_, ?_, ?_, ?_, f3⟩
    · rw [f4]; simp
    · rw [f4, hl]; simp [Ne.symm hr0, streamAfter]
    · rw [f4]; simp [Ne.symm hr1]
    · intro x hx hx0 hx1
      rw [f4, hl]; simp [hx, hx1, hx0]

theorem redirect_success_witness :
    0 ≤ (redirect fileAllOk (some ['i', 'n']) (some ['o', 'u', 't']) 1 ErrorType.EOK
      stdTable).ret ∧
    List.lookup (redirect fileAllOk (some ['i', 'n']) (some ['o', 'u', 't']) 1 ErrorType.EOK
      stdTable).ret stdTable = none ∧
    List.lookup (redirect fileAllOk (some ['i', 'n']) (some ['o', 'u', 't']) 1 ErrorType.EOK
      stdTable).ret
      (redirect fileAllOk (some ['i', 'n']) (some ['o', 'u', 't']) 1 ErrorType.EOK
        stdTable).table = some (FileRef.inherited 1) ∧
    List.lookup 0 (redirect fileAllOk (some ['i', 'n']) (some ['o', 'u', 't']) 1
      ErrorType.EOK stdTable).table =
        some (streamAfter (some ['i', 'n']) OpenMode.rdonly (FileRef.inherited 0)) ∧
    List.lookup 1 (redirect fileAllOk (some ['i', 'n']) (some ['o', 'u', 't']) 1
      ErrorType.EOK stdTable).table =
        some (streamAfter (some ['o', 'u', 't'])
          (if (1 : Int) ≠ 0 then OpenMode.wrAppend else OpenMode.wrTrunc)
          (FileRef.inherited 1)) ∧
    (∀ x, x ≠ (redirect fileAllOk (some ['i', 'n']) (some ['o', 'u', 't']) 1 ErrorType.EOK
        stdTable).ret → x ≠ 0 → x ≠ 1 →
      List.lookup x (redirect fileAllOk (some ['i', 'n']) (some ['o', 'u', 't']) 1
        ErrorType.EOK stdTable).table = List.lookup x stdTable) ∧
    (redirect fileAllOk (some ['i', 'n']) (some ['o', 'u', 't']) 1 ErrorType.EOK
      stdTable).pg_errno = ErrorType.EOK :=
  redirect_success fileAllOk (some ['i', 'n']) (some ['o', 'u', 't']) 1 ErrorType.EOK stdTable
    (FileRef.inherited 0) (FileRef.inherited 1) rfl rfl rfl rfl rfl (Or.inl (by simp))
    (by decide) (by decide)
/-! ## Claims on stopped children and on the special commands -/

/-- The loop of `wait_child` goes through the stop/continue pairs, two
`waitpid` calls each. -/
theorem wait_child_loop_stopContinue (sigs : List Nat) (l : List WaitpidAns)
    (pgErr : ErrorType) (calls : Nat) :
    wait_child_loop (stopContinue sigs ++ l) pgErr calls =
      wait_child_loop l pgErr (calls + 2 * sigs.length) := by
  induction sigs generalizing calls with
  | nil => simp [stopContinue]
  | cons sig sigs ih =>
    simp only [stopContinue, List.cons_append, wait_child_loop, List.length_cons,
      List.append_eq]
    rw [ih]
    congr 1
    omega

/-- C22: for every pid > 0 and every sequence of notifications made of any
number of Stopped notifications, each followed by a Continued one, and then
a terminal status (exited or signaled), `wait_child` returns what it
returns when the terminal status is the first notification, with the same
`pg_errno`, after two more `waitpid` calls per stop/continue pair: -1 with
`EFCHLD` for an exit with `EXIT_FAILURE`, 0 with `pg_errno` untouched for
any other exit and for a signal. -/
theorem wait_child_stop_continue (pid : Int) (sigs : List Nat) (st : WStatus)
    (rest : List WaitpidAns) (pgErr : ErrorType) (hpid : 0 < pid)
    (hterm : (∃ c, st = WStatus.exited c) ∨ (∃ s, st = WStatus.signaled s)) :
    wait_child pid (stopContinue sigs ++ WaitpidAns.ok st :: rest) pgErr =
      { wait_child pid (WaitpidAns.ok st :: rest) pgErr with
        calls := (wait_child pid (WaitpidAns.ok st :: rest) pgErr).calls + 2 * sigs.length } ∧
    (wait_child pid (stopContinue sigs ++ WaitpidAns.ok st :: rest) pgErr).outcome =
      WaitEnd.ret (if st = WStatus.exited EXIT_FAILURE then -1 else 0) ∧
    (wait_child pid (stopContinue sigs ++ WaitpidAns.ok st :: rest) pgErr).pg_errno =
      (if st = WStatus.exited EXIT_FAILURE then ErrorType.EFCHLD else pgErr) := by
  have hp : ¬ (pid ≤ 0) := by omega
  simp only [wait_child, hp, if_false, wait_child_loop_stopContinue]
  rcases hterm with ⟨c, rfl⟩ | ⟨s, rfl⟩
  · by_cases hc : c = EXIT_FAILURE
    · simp [wait_child_loop, hc]; omega
    · simp [wait_child_loop, hc]; omega
  · simp [wait_child_loop]; omega

theorem wait_child_stop_continue_witness :
    wait_child 7 (stopContinue [19, 20] ++ WaitpidAns.ok (WStatus.signaled 9) :: []) ErrorType.EOK =
      { wait_child 7 (WaitpidAns.ok (WStatus.signaled 9) :: []) ErrorType.EOK with
        calls := (wait_child 7 (WaitpidAns.ok (WStatus.signaled 9) :: []) ErrorType.EOK).calls
          + 2 * [19, 20].length } ∧
    (wait_child 7 (stopContinue [19, 20] ++ WaitpidAns.ok (WStatus.signaled 9) :: [])
      ErrorType.EOK).outcome =
      WaitEnd.ret (if WStatus.signaled 9 = WStatus.exited EXIT_FAILURE then -1 else 0) ∧
    (wait_child 7 (stopContinue [19, 20] ++ WaitpidAns.ok (WStatus.signaled 9) :: [])
      ErrorType.EOK).pg_errno =
      (if WStatus.signaled 9 = WStatus.exited EXIT_FAILURE then ErrorType.EFCHLD
       else ErrorType.EOK) :=
  wait_child_stop_continue 7 [19, 20] (WStatus.signaled 9) [] ErrorType.EOK (by decide)
    (Or.inr ⟨9, rfl⟩)

/-- C24 (as the code behaves): a child is stopped by signal 19 and then
killed by signal 9 while stopped; each notification is delivered once, so a
further `waitpid` fails.  The `waitpid(endPID, &status, WCONTINUED)` that
follows the stop takes the termination, the loop then calls `waitpid` again
and `wait_child` returns -1 with `pg_errno = EWAIT`; had the termination
been the first notification it would have returned 0. -/
theorem wait_child_stopped_then_killed :
    wait_child 7
      [WaitpidAns.ok (WStatus.stopped 19), WaitpidAns.ok (WStatus.signaled 9), WaitpidAns.fail]
      ErrorType.EOK = ⟨WaitEnd.ret (-1), ErrorType.EWAIT, 3⟩ ∧
    wait_child 7 [WaitpidAns.ok (WStatus.signaled 9), WaitpidAns.fail] ErrorType.EOK =
      ⟨WaitEnd.ret 0, ErrorType.EOK, 1⟩ := by
  decide

/-- C25 (as the code behaves): the command words `e` and `xi` are classified
`SPEXIT` and the word `d` is classified `SPCD`, for the tests are
`strstr("exit", cmd)` and `strstr("cd", cmd)`: every non-empty part of
"exit" is taken for `exit`, and no longer word that merely holds "exit" is.
The rest is as claimed: "exit" gives `SPEXIT`, "cd" gives `SPCD`, `ls` gives
`NOSP`, NULL gives -1 with `ENULL` and the empty string -1 with
`EEMPTSTR`. -/
theorem special_cmd_id_parts_of_exit :
    special_cmd_id (some ['e']) ErrorType.EOK = (SPEXIT, ErrorType.EOK) ∧
    special_cmd_id (some ['x', 'i']) ErrorType.EOK = (SPEXIT, ErrorType.EOK) ∧
    special_cmd_id (some ['d']) ErrorType.EOK = (SPCD, ErrorType.EOK) ∧
    special_cmd_id (some ['e', 'x', 'i', 't']) ErrorType.EOK = (SPEXIT, ErrorType.EOK) ∧
    special_cmd_id (some ['c', 'd']) ErrorType.EOK = (SPCD, ErrorType.EOK) ∧
    special_cmd_id (some ['l', 's']) ErrorType.EOK = (NOSP, ErrorType.EOK) ∧
    special_cmd_id none ErrorType.EOK = (-1, ErrorType.ENULL) ∧
    special_cmd_id (some []) ErrorType.EOK = (-1, ErrorType.EEMPTSTR) ∧
    (∀ (c : Char) (s : CStr) (pgErr : ErrorType),
      (special_cmd_id (some (c :: s)) pgErr).1 = SPEXIT ↔
        ∃ a b, ['e', 'x', 'i', 't'] = a ++ (c :: s) ++ b) := by
  refine ⟨by decide, by decide, by decide, by decide, by decide, by decide, by decide,
    by decide, ?_⟩
  intro c s pgErr
  rw [← strstr_ne_none_iff (c :: s) ['e', 'x', 'i', 't'], Option.ne_none_iff_isSome]
  unfold special_cmd_id
  simp only
  split_ifs <;> simp_all [SPEXIT, SPCD, NOSP]
/-! ## Claims on stoken_counter -/

/-- C28 (as the code behaves): for the string `a>b` and the delimiter ">"
`stoken_counter` returns 1, not 2: its closing test searches the delimiter
from the offset `strcnt(str) - strcnt(dmstr) - 1`, here in the last two
characters `>b`, finds it and takes the token counted for it back.  With a
last piece of two characters (`a>bc`) it returns 2. -/
theorem stoken_counter_one_char_piece :
    stoken_counter ['a', '>', 'b'] ['>'] = some 1 ∧
    strcnt ['a', '>', 'b'] - strcnt ['>'] - 1 = 1 ∧
    strstr (['a', '>', 'b'].drop 1) ['>'] = some ['>', 'b'] ∧
    stoken_counter ['a', '>', 'b', 'c'] ['>'] = some 2 := by
  decide

/-- C30 (as the code behaves): for the string `ls` and the delimiter ">>"
the offset of the closing test of `stoken_counter` is
`strcnt(str) - strcnt(dmstr) - 1 = -1`: `strstr` is given the address of the
byte before the string, and the call has no defined result. -/
theorem stoken_counter_negative_offset :
    strcnt ['l', 's'] - strcnt ['>', '>'] - 1 = -1 ∧
    stoken_counter ['l', 's'] ['>', '>'] = none ∧
    strcnt ['a'] - strcnt ['<'] - 1 = -1 ∧
    stoken_counter ['a'] ['<'] = none := by
  decide

/-! ## strepclean -/

theorem tmod_two_natCast (n : Nat) : Int.tmod (n : Int) 2 = ((n % 2 : Nat) : Int) := by
  have h := Int.ofNat_tmod n 2
  simpa using h.symm

/-- The inner loop of `strepclean` copies a run of clean characters and
stops at the end of the string or at a dirt character. -/
theorem strepclean_copy_spec (d : Char) : ∀ (rest : CStr) (c : Char), c ≠ d →
    ((strepclean_copy d (c :: rest)).2 = [] ∨
      ∃ r, (strepclean_copy d (c :: rest)).2 = d :: r) ∧
    (strepclean_copy d (c :: rest)).2.length ≤ rest.length ∧
    (strepclean_copy d (c :: rest)).2.count d = (c :: rest).count d ∧
    dropEmptyPairs d PairState.outside (c :: rest) =
      (strepclean_copy d (c :: rest)).1 ++
        dropEmptyPairs d PairState.outside (strepclean_copy d (c :: rest)).2 ∧
    dropEmptyPairs d PairState.inside (c :: rest) =
      (strepclean_copy d (c :: rest)).1 ++
        dropEmptyPairs d PairState.inside (strepclean_copy d (c :: rest)).2
  | [], c, hc => by
    have hcnt : ∀ l : CStr, (c :: l).count d = l.count d :=
      fun l => List.count_cons_of_ne (Ne.symm hc) l
    simp [strepclean_copy, dropEmptyPairs, hc, hcnt]
  | x :: rest, c, hc => by
    have hcnt : ∀ l : CStr, (c :: l).count d = l.count d :=
      fun l => List.count_cons_of_ne (Ne.symm hc) l
    by_cases hx : x = d
    · subst hx
      simp [strepclean_copy, dropEmptyPairs, hc, hcnt]
    · obtain ⟨h1, h2, h3, h4, h5⟩ := strepclean_copy_spec d rest x hx
      have e : strepclean_copy d (c :: x :: rest) =
          (c :: (strepclean_copy d (x :: rest)).1, (strepclean_copy d (x :: rest)).2) := by
        conv_lhs => unfold strepclean_copy
        simp only [hx, if_false]
      rw [e]
      refine ⟨h1, ?_, ?_, ?_, ?_⟩
      · simp only [List.length_cons]; omega
      · rw [h3, hcnt]
      · simp only [List.cons_append]
        rw [← h4]
        simp [dropEmptyPairs, hc]
      · simp only [List.cons_append]
        rw [← h5]
        simp [dropEmptyPairs, hc]

/-- The loop of `strepclean` computes the string without its empty pairs:
entered with the flag clear on a string with an even number of dirt
characters, or with the flag set, right after a dirt character, on a string
with an odd number of them. -/
theorem strepclean_loop_spec (d : Char) : ∀ (fuel : Nat) (rest : CStr), rest.length < fuel →
    (rest.count d % 2 = 0 → ∀ (prev : Option Char) (clean : CStr),
      strepclean_loop d fuel prev rest false clean =
        some (clean ++ dropEmptyPairs d PairState.outside rest,
          (clean ++ dropEmptyPairs d PairState.outside rest).length)) ∧
    (rest.count d % 2 = 1 → ∀ (clean : CStr),
      strepclean_loop d fuel (some d) rest true clean =
        some (clean ++ dropEmptyPairs d PairState.opened rest,
          (clean ++ dropEmptyPairs d PairState.opened rest).length))
  | 0, _, h => absurd h (Nat.not_lt_zero _)
  | fuel + 1, [], _ => by
    refine ⟨fun _ prev clean => ?_, fun h => ?_⟩
    · simp [strepclean_loop, dropEmptyPairs]
    · simp at h
  | fuel + 1, c :: rest, h => by
    have hlen : rest.length < fuel := by simp only [List.length_cons] at h; omega
    by_cases hc : c = d
    · subst hc
      obtain ⟨ih0, ih1⟩ := strepclean_loop_spec c fuel rest hlen
      refine ⟨fun hev prev clean => ?_, fun hodd clean => ?_⟩
      · have : rest.count c % 2 = 1 := by
          simp only [List.count_cons_self] at hev; omega
        simp only [strepclean_loop, if_true, Bool.not_false, ih1 this, dropEmptyPairs]
      · have : rest.count c % 2 = 0 := by
          simp only [List.count_cons_self] at hodd; omega
        simp only [strepclean_loop, if_true, Bool.not_true, ih0 this, dropEmptyPairs]
    · obtain ⟨h1, h2, h3, h4, h5⟩ := strepclean_copy_spec d rest c hc
      generalize hr : strepclean_copy d (c :: rest) = r at h1 h2 h3 h4 h5
      obtain ⟨copied, r2⟩ := r
      simp only at h1 h2 h3 h4 h5
      refine ⟨fun hev prev clean => ?_, fun hodd clean => ?_⟩
      · rcases h1 with rfl | ⟨r3, rfl⟩
        · have e4 : dropEmptyPairs d PairState.outside (c :: rest) = copied := by
            rw [h4]; simp [dropEmptyPairs]
          simp only [strepclean_loop, hc, if_false, Bool.false_eq_true, hr, Bool.not_false,
            if_true, e4]
        · have hlen3 : r3.length < fuel := by simp only [List.length_cons] at h2; omega
          have hodd3 : r3.count d % 2 = 1 := by
            rw [← h3] at hev
            simp only [List.count_cons_self] at hev; omega
          obtain ⟨_, ih1⟩ := strepclean_loop_spec d fuel r3 hlen3
          have e4 : dropEmptyPairs d PairState.outside (c :: rest) =
              copied ++ dropEmptyPairs d PairState.opened r3 := by
            rw [h4]; simp [dropEmptyPairs]
          simp only [strepclean_loop, hc, if_false, Bool.false_eq_true, hr, Bool.not_false,
            if_true, ih1 hodd3, e4, List.append_assoc]
      · rcases h1 with rfl | ⟨r3, rfl⟩
        · rw [← h3] at hodd
          simp at hodd
        · have hlen3 : r3.length < fuel := by simp only [List.length_cons] at h2; omega
          have hev3 : r3.count d % 2 = 0 := by
            rw [← h3] at hodd
            simp only [List.count_cons_self] at hodd; omega
          obtain ⟨ih0, _⟩ := strepclean_loop_spec d fuel r3 hlen3
          have e5 : dropEmptyPairs d PairState.opened (c :: rest) =
              d :: (copied ++ d :: dropEmptyPairs d PairState.outside r3) := by
            have : dropEmptyPairs d PairState.opened (c :: rest) =
                d :: dropEmptyPairs d PairState.inside (c :: rest) := by
              simp [dropEmptyPairs, hc]
            rw [this, h5]
            simp [dropEmptyPairs]
          simp only [strepclean_loop, hc, if_false, if_true, Option.map_some', hr,
            Bool.not_true, Bool.false_eq_true, ih0 hev3, e5, List.append_assoc,
            List.singleton_append, List.cons_append, List.nil_append]

/-- Dropping empty pairs does not lengthen the string (by more than the
opening character still held back). -/
theorem dropEmptyPairs_length (d : Char) : ∀ s : CStr,
    (dropEmptyPairs d PairState.outside s).length ≤ s.length ∧
    (dropEmptyPairs d PairState.opened s).length ≤ s.length + 1 ∧
    (dropEmptyPairs d PairState.inside s).length ≤ s.length
  | [] => by simp [dropEmptyPairs]
  | c :: s => by
    obtain ⟨h1, h2, h3⟩ := dropEmptyPairs_length d s
    by_cases hc : c = d
    · simp only [dropEmptyPairs, hc, if_true, List.length_cons]; omega
    · simp only [dropEmptyPairs, hc, if_false, List.length_cons]; omega

/-- The parity of the number of dirt characters when the empty pairs are
dropped. -/
theorem dropEmptyPairs_count (d : Char) : ∀ s : CStr,
    (s.count d % 2 = 0 → (dropEmptyPairs d PairState.outside s).count d % 2 = 0) ∧
    (s.count d % 2 = 1 → (dropEmptyPairs d PairState.opened s).count d % 2 = 0) ∧
    (s.count d % 2 = 1 → (dropEmptyPairs d PairState.inside s).count d % 2 = 1)
  | [] => by simp [dropEmptyPairs]
  | c :: s => by
    obtain ⟨h1, h2, h3⟩ := dropEmptyPairs_count d s
    by_cases hc : c = d
    · subst hc
      simp only [dropEmptyPairs, if_true, List.count_cons_self]
      refine ⟨fun h => h2 (by omega), fun h => h1 (by omega), fun h => ?_⟩
      have := h1 (by omega)
      omega
    · have hcnt : ∀ l : CStr, (c :: l).count d = l.count d :=
        fun l => List.count_cons_of_ne (Ne.symm hc) l
      simp only [dropEmptyPairs, hc, if_false, hcnt, List.count_cons_self]
      refine ⟨h1, fun h => ?_, h3⟩
      have := h3 h
      omega

/-- A string without empty pairs is left as it is. -/
theorem dropEmptyPairs_idem (d : Char) : ∀ s : CStr,
    (s.count d % 2 = 0 →
      dropEmptyPairs d PairState.outside (dropEmptyPairs d PairState.outside s) =
        dropEmptyPairs d PairState.outside s) ∧
    (s.count d % 2 = 1 →
      dropEmptyPairs d PairState.outside (dropEmptyPairs d PairState.opened s) =
        dropEmptyPairs d PairState.opened s) ∧
    (s.count d % 2 = 1 →
      dropEmptyPairs d PairState.inside (dropEmptyPairs d PairState.inside s) =
        dropEmptyPairs d PairState.inside s)
  | [] => by simp [dropEmptyPairs]
  | c :: s => by
    obtain ⟨h1, h2, h3⟩ := dropEmptyPairs_idem d s
    by_cases hc : c = d
    · subst hc
      simp only [List.count_cons_self]
      refine ⟨fun h => ?_, fun h => ?_, fun h => ?_⟩
      · simp only [dropEmptyPairs, if_true]
        exact h2 (by omega)
      · simp only [dropEmptyPairs, if_true]
        exact h1 (by omega)
      · simp only [dropEmptyPairs, if_true]
        rw [h1 (by omega)]
    · have hcnt : ∀ l : CStr, (c :: l).count d = l.count d :=
        fun l => List.count_cons_of_ne (Ne.symm hc) l
      simp only [hcnt]
      refine ⟨fun h => ?_, fun h => ?_, fun h => ?_⟩
      · simp only [dropEmptyPairs, hc, if_false]
        rw [h1 h]
      · simp only [dropEmptyPairs, hc, if_false, if_true]
        rw [h3 h]
      · simp only [dropEmptyPairs, hc, if_false]
        rw [h3 h]

/-- The result of `strepclean` on a string with an even, non-zero number of
dirt characters. -/
theorem strepclean_even (s : CStr) (d : Char) (pgErr : ErrorType)
    (hev : s.count d % 2 = 0) (hnz : s.count d ≠ 0) :
    strepclean (some s) d pgErr =
      some (Cleaned.fresh (dropEmptyPairs d PairState.outside s), pgErr) := by
  have h1 : ¬ (Int.tmod (char_counter (some s) d) 2 = 1) := by
    simp only [char_counter, tmod_two_natCast, hev]
    decide
  have h2 : ¬ (char_counter (some s) d = 0) := by
    simp only [char_counter]
    exact_mod_cast hnz
  have hl := (strepclean_loop_spec d (s.length + 1) s (Nat.lt_succ_self _)).1 hev none []
  have hlen := (dropEmptyPairs_length d s).1
  simp only [strepclean, h1, h2, if_false, hl, List.nil_append, hlen, if_true]

/-- The result of `strepclean` on a string without dirt character. -/
theorem strepclean_clean (s : CStr) (d : Char) (pgErr : ErrorType) (hz : s.count d = 0) :
    strepclean (some s) d pgErr = some (Cleaned.itself, pgErr) := by
  simp [strepclean, char_counter, hz, Int.tmod]

/-- C26: for every string with an even, non-zero number of dirt characters
`strepclean` returns a new string, the argument without its empty pairs
(the 1st dirt character is paired with the 2nd, the 3rd with the 4th, ...;
a pair is dropped when its two characters follow one another, every other
character is kept in order), and leaves `pg_errno` as it was; for a string
with no dirt character it returns the argument itself; for an odd number of
dirt characters it returns NULL with `pg_errno = EPARSE`. -/
theorem strepclean_drops_empty_pairs (s : CStr) (d : Char) (pgErr : ErrorType) :
    (s.count d % 2 = 0 → s.count d ≠ 0 →
      strepclean (some s) d pgErr =
        some (Cleaned.fresh (dropEmptyPairs d PairState.outside s), pgErr)) ∧
    (s.count d = 0 → strepclean (some s) d pgErr = some (Cleaned.itself, pgErr)) ∧
    (s.count d % 2 = 1 → strepclean (some s) d pgErr = some (Cleaned.null, ErrorType.EPARSE)) := by
  refine ⟨strepclean_even s d pgErr, strepclean_clean s d pgErr, fun hodd => ?_⟩
  have h1 : Int.tmod (char_counter (some s) d) 2 = 1 := by
    simp only [char_counter, tmod_two_natCast, hodd]
    rfl
  simp only [strepclean, h1, if_true]

theorem strepclean_drops_empty_pairs_witness :
    strepclean (some ['l', 's', ' ', '"', '"', '"', 'a', '"']) '"' ErrorType.EOK =
      some (Cleaned.fresh
        (dropEmptyPairs '"' PairState.outside ['l', 's', ' ', '"', '"', '"', 'a', '"']),
        ErrorType.EOK) ∧
    dropEmptyPairs '"' PairState.outside ['l', 's', ' ', '"', '"', '"', 'a', '"'] =
      ['l', 's', ' ', '"', 'a', '"'] :=
  ⟨(strepclean_drops_empty_pairs ['l', 's', ' ', '"', '"', '"', 'a', '"'] '"'
      ErrorType.EOK).1 (by decide) (by decide), by decide⟩

/-- C29: for every string with an even number of dirt characters
`strepclean` returns a string `t` (never NULL) that is not longer than the
argument, and `strepclean` applied to `t` returns a string with the same
content `t`; the loop writes at most `strlen(s)` characters before the
terminator. -/
theorem strepclean_idempotent (s : CStr) (d : Char) (pgErr : ErrorType)
    (hev : s.count d % 2 = 0) :
    ∃ r t r2, strepclean (some s) d pgErr = some (r, pgErr) ∧ r.content s = some t ∧
      t.length ≤ s.length ∧
      strepclean (some t) d pgErr = some (r2, pgErr) ∧ r2.content t = some t ∧
      ∃ j, strepclean_loop d (s.length + 1) none s false [] = some (t, j) ∧ j ≤ s.length := by
  have hl := (strepclean_loop_spec d (s.length + 1) s (Nat.lt_succ_self _)).1 hev none []
  simp only [List.nil_append] at hl
  have hlen := (dropEmptyPairs_length d s).1
  have hidem := (dropEmptyPairs_idem d s).1 hev
  have hpar := (dropEmptyPairs_count d s).1 hev
  by_cases hz : s.count d = 0
  · have hsame : ∀ u : CStr, u.count d = 0 → dropEmptyPairs d PairState.outside u = u := by
      intro u
      induction u with
      | nil => intro _; rfl
      | cons c u ih =>
        intro hu
        have hc : c ≠ d := by
          intro e
          rw [e, List.count_cons_self] at hu
          omega
        rw [List.count_cons_of_ne (Ne.symm hc)] at hu
        simp only [dropEmptyPairs, hc, if_false, ih hu]
    refine ⟨Cleaned.itself, s, Cleaned.itself, strepclean_clean s d pgErr hz, rfl, le_refl _,
      strepclean_clean s d pgErr hz, rfl, s.length, ?_, le_refl _⟩
    rw [hl, hsame s hz]
  · by_cases hz2 : (dropEmptyPairs d PairState.outside s).count d = 0
    · exact ⟨_, _, Cleaned.itself, strepclean_even s d pgErr hev hz, rfl, hlen,
        strepclean_clean _ d pgErr hz2, rfl, _, hl, hlen⟩
    · refine ⟨_, _, Cleaned.fresh (dropEmptyPairs d PairState.outside s),
        strepclean_even s d pgErr hev hz, rfl, hlen, ?_, rfl, _, hl, hlen⟩
      have := strepclean_even _ d pgErr hpar hz2
      rw [hidem] at this
      exact this

theorem strepclean_idempotent_witness :
    ∃ r t r2,
      strepclean (some ['l', 's', ' ', '"', '"', '"', 'a', '"']) '"' ErrorType.EOK =
        some (r, ErrorType.EOK) ∧
      r.content ['l', 's', ' ', '"', '"', '"', 'a', '"'] = some t ∧
      t.length ≤ ['l', 's', ' ', '"', '"', '"', 'a', '"'].length ∧
      strepclean (some t) '"' ErrorType.EOK = some (r2, ErrorType.EOK) ∧
      r2.content t = some t ∧
      ∃ j, strepclean_loop '"' (['l', 's', ' ', '"', '"', '"', 'a', '"'].length + 1) none
        ['l', 's', ' ', '"', '"', '"', 'a', '"'] false [] = some (t, j) ∧
        j ≤ ['l', 's', ' ', '"', '"', '"', 'a', '"'].length :=
  strepclean_idempotent ['l', 's', ' ', '"', '"', '"', 'a', '"'] '"' ErrorType.EOK (by decide)

/-! ## The sweep and the stages spawned -/

/-- C23 (as stated, refuted): with three stages, no failing pipe or fork,
the first stage exiting with the failure code and the poll of the sweep
reporting it, `pipe_chain` returns -1 with `EFCHLD` after two forks: the
third stage is never spawned, where the variant without the sweep spawns
the three of them. -/
theorem pipe_chain_sweep_stops_spawning :
    (pipe_chain envFirstFailsSeen (some threeStages) 3 0 1 os0).1 = Outcome.ret (-1) ∧
    (pipe_chain envFirstFailsSeen (some threeStages) 3 0 1 os0).2.pg_errno = ErrorType.EFCHLD ∧
    forksOf (pipe_chain envFirstFailsSeen (some threeStages) 3 0 1 os0).2.trace =
      [(0, 0, 4), (1, 3, 5)] ∧
    forksOf (pipe_chain_nosweep envFirstFailsSeen (some threeStages) 3 0 1 os0).2.trace =
      [(0, 0, 4), (1, 3, 5), (2, 4, 1)] := by
  decide

/-- One successful iteration of the spawning loop, with the state in which
the sweep is entered written out. -/
theorem stage_loop_step (env : Env) (cmds : List Stage) (k i : Nat) (inFd remain : Int)
    (os : OS) (a : List CStr) (hp : env.pipeOk os.nPipe = true)
    (hf : env.forkOk os.nFork = true) (ha : cmds.get? i = some (some a)) :
    stage_loop env cmds (k + 1) i inFd remain os =
      (match sweep env i remain (after_stage env i inFd os) with
       | Sweep.abort v os4 => Loop.stop (Outcome.ret v) os4
       | Sweep.done remain1 os4 =>
         stage_loop env cmds k (i + 1) (lowestFree os.fds) remain1 os4) := by
  have hne : ¬ (((os.nFork + 1 : Nat) : Int) = -1) := by omega
  conv_lhs => unfold stage_loop
  simp only [sys_pipe, hp, if_true, ha, spawn_proc, sys_fork, hf, hne, if_false, after_stage]

/-- One successful iteration of the loop without sweep. -/
theorem stage_loop_nosweep_step (env : Env) (cmds : List Stage) (k i : Nat)
    (inFd remain : Int) (os : OS) (a : List CStr) (hp : env.pipeOk os.nPipe = true)
    (hf : env.forkOk os.nFork = true) (ha : cmds.get? i = some (some a)) :
    stage_loop_nosweep env cmds (k + 1) i inFd remain os =
      stage_loop_nosweep env cmds k (i + 1) (lowestFree os.fds) remain
        (after_stage env i inFd os) := by
  have hne : ¬ (((os.nFork + 1 : Nat) : Int) = -1) := by omega
  conv_lhs => unfold stage_loop_nosweep
  simp only [sys_pipe, hp, if_true, ha, spawn_proc, sys_fork, hf, hne, if_false, after_stage]

/-- The iteration makes the same pipe and the same fork in two states that
have made the same pipes and forks. -/
theorem after_stage_sameSpawns (env : Env) (i : Nat) (inFd : Int) (t0 : List Event)
    (os os' : OS) (h : SameSpawns t0 os os') :
    SameSpawns t0 (after_stage env i inFd os) (after_stage env i inFd os') := by
  obtain ⟨h1, h2, h3, l, l', e1, e2, e3, e4⟩ := h
  refine ⟨?_, ?_, ?_, l ++ [Event.pipe (lowestFree os.fds)
      (lowestFree (lowestFree os.fds :: os.fds)),
      Event.fork i inFd (lowestFree (lowestFree os.fds :: os.fds)) (os.nFork + 1),
      Event.close (lowestFree (lowestFree os.fds :: os.fds))],
    l' ++ [Event.pipe (lowestFree os.fds)
      (lowestFree (lowestFree os.fds :: os.fds)),
      Event.fork i inFd (lowestFree (lowestFree os.fds :: os.fds)) (os.nFork + 1),
      Event.close (lowestFree (lowestFree os.fds :: os.fds))], ?_, ?_, ?_, ?_⟩
  · simp [after_stage, sys_close, h1]
  · simp [after_stage, sys_close, h2]
  · simp [after_stage, sys_close, h3]
  · simp [after_stage, sys_close, e1]
  · simp [after_stage, sys_close, e2, ← h1, ← h2]
  · simp [forksOf_append, forksOf, e3]
  · simp [pipesOf_append, pipesOf, e4]

/-- A spawning loop that runs to its end has spawned what the loop without
sweep spawns. -/
theorem stage_loop_sameSpawns (env : Env) (hpipe : ∀ k, env.pipeOk k = true)
    (hfork : ∀ k, env.forkOk k = true) (cmds : List Stage) (N : Nat)
    (hcmds : ∀ j, j < N → ∃ a, cmds.get? j = some (some a)) (t0 : List Event) :
    ∀ (k i : Nat) (inFd remain remain' : Int) (os os' : OS), i + k = N →
      SameSpawns t0 os os' →
      ∀ i1 inFd1 r1 os1, stage_loop env cmds k i inFd remain os = Loop.done i1 inFd1 r1 os1 →
        ∃ r1' os1', stage_loop_nosweep env cmds k i inFd remain' os' =
            Loop.done i1 inFd1 r1' os1' ∧ SameSpawns t0 os1 os1'
  | 0, i, inFd, remain, remain', os, os', _, hs, i1, inFd1, r1, os1, h => by
    simp only [stage_loop, Loop.done.injEq] at h
    obtain ⟨rfl, rfl, _, rfl⟩ := h
    exact ⟨remain', os', rfl, hs⟩
  | k + 1, i, inFd, remain, remain', os, os', hN, hs, i1, inFd1, r1, os1, h => by
    obtain ⟨a, ha⟩ := hcmds i (by omega)
    rw [stage_loop_step env cmds k i inFd remain os a (hpipe _) (hfork _) ha] at h
    rw [stage_loop_nosweep_step env cmds k i inFd remain' os' a (hpipe _) (hfork _) ha]
    have hs3 := after_stage_sameSpawns env i inFd t0 os os' hs
    obtain ⟨lw, e1, e2, e3, e4, e5⟩ := sweep_frame env i remain (after_stage env i inFd os)
    cases hsw : sweep env i remain (after_stage env i inFd os) with
    | abort v os4 =>
      rw [hsw] at h
      cases h
    | done remain1 os4 =>
      rw [hsw] at h e1 e3 e4 e5
      simp only [Sweep.state] at e1 e3 e4 e5
      simp only at h
      have hs4 : SameSpawns t0 os4 (after_stage env i inFd os') := by
        obtain ⟨g1, g2, g3, l, l', f1, f2, f3, f4⟩ := hs3
        refine ⟨e5.trans g1, e3.trans g2, e4.trans g3, l ++ lw, l', ?_, f2, ?_, ?_⟩
        · rw [e1, f1, List.append_assoc]
        · rw [forksOf_append, e2.forksOf, List.append_nil, f3]
        · rw [pipesOf_append, e2.pipesOf, List.append_nil, f4]
      exact stage_loop_sameSpawns env hpipe hfork cmds N hcmds t0 k (i + 1) (lowestFree os'.fds)
        remain1 remain' os4 (after_stage env i inFd os') (by omega) hs4 i1 inFd1 r1 os1
        (by rw [← hs.1]; exact h)

/-- The stages of a wiring are numbered in order. -/
theorem wiring_stages (outFd : Int) : ∀ (ps : List (Int × Int)) (i : Nat) (inFd : Int),
    (wiring outFd i inFd ps).map Prod.fst = List.range' i (ps.length + 1)
  | [], i, inFd => by simp [wiring, List.range']
  | (rd, wr) :: ps, i, inFd => by
    simp [wiring, List.range', wiring_stages outFd ps (i + 1) rd]

/-- What `pipe_chain` does once the spawning loop is over without a failing
fork: the last stage is forked, then only wait calls follow. -/
theorem pipe_chain_tail_events (env : Env) (i : Nat) (inFd1 outFd remain : Int) (os1 : OS)
    (hf : env.forkOk os1.nFork = true) :
    ∃ lw, (match sys_fork env i inFd1 outFd os1 with
        | (none, os2) => (Outcome.exit EXIT_FAILURE, { os2 with pg_errno := ErrorType.EFORK })
        | (some _, os2) =>
          if INT_MAX < remain + 1 then (Outcome.undef, os2)
          else wait_all env (remain + 1).toNat os2).2.trace =
      os1.trace ++ [Event.fork i inFd1 outFd (os1.nFork + 1)] ++ lw ∧ WaitEvents lw := by
  simp only [sys_fork, hf, if_true]
  split_ifs
  · exact ⟨[], by simp, by intro e he; simp at he⟩
  · obtain ⟨lw, e1, e2⟩ := wait_all_events env (remain + 1).toNat
      { os1 with nFork := os1.nFork + 1,
                 trace := os1.trace ++ [Event.fork i inFd1 outFd (os1.nFork + 1)],
                 children := os1.children ++ [⟨os1.nFork + 1, i, env.termOf os1.nFork⟩] }
    exact ⟨lw, e1, e2⟩

/-- C23 (amended): for every pipeline of n >= 1 stages (every stage a
non-NULL argument vector, descriptors not wired backwards) run from a
consistent process table on a kernel where no pipe, fork or poll call fails,
if no non-blocking `waitpid` of the run returns the pid of a child that
exits with `EXIT_FAILURE`, then `pipe_chain` makes the same pipes and spawns
the same processes, with the same descriptors, as its variant without the
sweep: the n stages, in order. -/
theorem pipe_chain_sweep_irrelevant (env : Env) (cmds : List Stage) (n inFd outFd : Int)
    (os : OS) (hn : 1 ≤ n) (hlen : (cmds.length : Int) = n) (hargv : ∀ c ∈ cmds, c ≠ none)
    (hin : inFd ≠ STDOUT_FILENO) (hout : outFd ≠ STDIN_FILENO)
    (hpipe : ∀ k, env.pipeOk k = true) (hfork : ∀ k, env.forkOk k = true)
    (hpoll : ∀ k e, env.poll k ≠ PollAns.fail e)
    (hcons : Consistent env os)
    (hobs : ∀ l, (pipe_chain env (some cmds) n inFd outFd os).2.trace = os.trace ++ l →
      ∀ p : Nat, Event.waitpid ((p : Int) + 1) ∈ l → env.termOf p ≠ Term.exited EXIT_FAILURE) :
    ∃ l l', (pipe_chain env (some cmds) n inFd outFd os).2.trace = os.trace ++ l ∧
      (pipe_chain_nosweep env (some cmds) n inFd outFd os).2.trace = os.trace ++ l' ∧
      forksOf l = forksOf l' ∧ pipesOf l = pipesOf l' ∧
      (forksOf l).map Prod.fst = List.range n.toNat := by
  have hcmds : ∀ j, j < (n - 1).toNat → ∃ a, cmds.get? j = some (some a) := by
    intro j hj
    have hjl : j < cmds.length := by omega
    have hmem : cmds.get ⟨j, hjl⟩ ∈ cmds := List.get_mem _ _ _
    cases hc : cmds.get ⟨j, hjl⟩ with
    | none => exact absurd hc (hargv _ hmem)
    | some a => exact ⟨a, by rw [List.get?_eq_get hjl, hc]⟩
  have hw : ¬ (inFd = STDOUT_FILENO ∨ outFd = STDIN_FILENO) := by
    rintro (h | h)
    · exact hin h
    · exact hout h
  have hmin : ¬ (n - 1 < INT_MIN) := by unfold INT_MIN; omega
  unfold pipe_chain at hobs ⊢
  unfold pipe_chain_nosweep
  simp only [hw, if_false, hmin] at hobs ⊢
  rcases stage_loop_wiring env hpipe hfork hpoll cmds (n - 1).toNat hcmds
      (n - 1).toNat 0 inFd n os (by omega) hcons with
    ⟨os1, l, h1, _, h3, p, h4, h5⟩ | ⟨inFd1, remain1, os1, l0, h1, h2, h3, h4⟩
  · exfalso
    rw [h1] at hobs
    exact hobs l h3 p h4 h5
  · obtain ⟨r1', os1', g1, g2, g3, g4, la, lb, f1, f2, f3, f4⟩ :=
      stage_loop_sameSpawns env hpipe hfork cmds (n - 1).toNat hcmds os.trace (n - 1).toNat 0
        inFd n n os os (by omega)
        ⟨rfl, rfl, rfl, [], [], by simp, by simp, rfl, rfl⟩ _ _ _ _ h1
    have hla : la = l0 := by
      rw [h2] at f1
      exact (List.append_cancel_left f1).symm
    subst hla
    rw [h1, g1]
    obtain ⟨lw, e1, e2⟩ :=
      pipe_chain_tail_events env (n - 1).toNat inFd1 outFd remain1 os1 (hfork _)
    obtain ⟨lw', e1', e2'⟩ :=
      pipe_chain_tail_events env (n - 1).toNat inFd1 outFd r1' os1' (hfork _)
    refine ⟨la ++ [Event.fork (n - 1).toNat inFd1 outFd (os1.nFork + 1)] ++ lw,
      lb ++ [Event.fork (n - 1).toNat inFd1 outFd (os1.nFork + 1)] ++ lw', ?_, ?_, ?_, ?_, ?_⟩
    · refine e1.trans ?_
      rw [h2]; simp only [List.append_assoc]
    · refine e1'.trans ?_
      rw [f2, g3]; simp only [List.append_assoc]
    · simp only [forksOf_append, e2.forksOf, e2'.forksOf, f3]
    · simp only [pipesOf_append, e2.pipesOf, e2'.pipesOf, f4]
    · simp only [forksOf_append, e2.forksOf, forksOf, List.append_nil]
      rw [← h4 outFd, wiring_stages, h3, List.range_eq_range']
      congr 1
      omega

theorem pipe_chain_sweep_irrelevant_witness :
    ∃ l l', (pipe_chain envAllOk (some threeStages) 3 0 1 os0).2.trace = os0.trace ++ l ∧
      (pipe_chain_nosweep envAllOk (some threeStages) 3 0 1 os0).2.trace = os0.trace ++ l' ∧
      forksOf l = forksOf l' ∧ pipesOf l = pipesOf l' ∧
      (forksOf l).map Prod.fst = List.range (3 : Int).toNat :=
  pipe_chain_sweep_irrelevant envAllOk threeStages 3 0 1 os0 (by decide) (by decide)
    (by decide) (by decide) (by decide) (fun _ => rfl) (fun _ => rfl) (fun _ _ h => by cases h)
    (fun c hm => by cases hm)
    (fun _ _ p _ h => by cases h)

/-! ## Claims on ctoken_counter and ctokenize -/

/-- C27 (as stated, refuted): the string `a`, blank, newline, blank is not
the single newline and `" "` holds no newline; `ctoken_counter` returns 2
and `ctokenize` returns the two tokens `a` and the empty string: the
second run is a newline, which the closing step of `ctokenize` replaces by
the terminator. -/
theorem ctokenize_empty_token :
    ctoken_counter ['a', ' ', '\n', ' '] [' '] = some 2 ∧
    ctokenize ['a', ' ', '\n', ' '] [' '] = some (some [['a'], []]) ∧
    words [' '] ['a', ' ', '\n', ' '] = [['a'], ['\n']] := by
  decide

/-- A word that starts at a non-delimiter: the characters up to the next
delimiter, then the words of what follows it. -/
theorem words_cons_nondelim (delim : CStr) : ∀ (s : CStr) (c : Char),
    delim.contains c = false →
      words delim (c :: s) =
        (c :: s.takeWhile (fun x => !delim.contains x)) ::
          words delim ((s.dropWhile (fun x => !delim.contains x)).drop 1)
  | [], c, hc => by
    simp only [words, hc, Bool.false_eq_true, if_false, List.takeWhile, List.dropWhile,
      List.drop]
  | x :: s, c, hc => by
    cases hx : delim.contains x
    · have ih := words_cons_nondelim delim s x hx
      simp only [words, hc, Bool.false_eq_true, if_false, hx] at ih ⊢
      simp only [List.takeWhile, List.dropWhile, hx, Bool.not_false]
      rw [ih]
    · simp only [words, hc, Bool.false_eq_true, if_false, hx, if_true, List.takeWhile,
        List.dropWhile, Bool.not_true, List.drop_succ_cons, List.drop_zero]

theorem words_dropWhile (delim : CStr) : ∀ s : CStr,
    words delim (s.dropWhile (fun c => delim.contains c)) = words delim s
  | [] => rfl
  | c :: s => by
    cases hc : delim.contains c
    · simp only [List.dropWhile, hc]
    · simp only [List.dropWhile, hc, words, if_true]
      exact words_dropWhile delim s

/-- One call of `strtok`: NULL when no word is left, else the first word,
the words of the saved pointer being the other ones. -/
theorem strtok_words (delim s : CStr) :
    (words delim s = [] → strtok s delim = none) ∧
    (∀ t ts, words delim s = t :: ts →
      ∃ saved, strtok s delim = some (t, saved) ∧ words delim saved = ts) := by
  rw [← words_dropWhile]
  unfold strtok
  cases hs : s.dropWhile (fun c => delim.contains c) with
  | nil => simp [words]
  | cons c t =>
    have hc : delim.contains c = false := by
      have := List.head_dropWhile_not (fun c => delim.contains c) s (by rw [hs]; simp)
      simp only [hs, List.head_cons] at this
      simpa using this
    rw [words_cons_nondelim delim t c hc]
    refine ⟨fun h => absurd h (List.cons_ne_nil _ _), ?_⟩
    intro w ws h
    simp only [List.cons.injEq] at h
    obtain ⟨rfl, rfl⟩ := h
    refine ⟨_, ?_, rfl⟩
    simp only [List.takeWhile, List.dropWhile, hc, Bool.not_false]

/-- The copying loop of `ctokenize` returns the first `k` words. -/
theorem ctokenize_rest_words (delim : CStr) : ∀ (k : Nat) (s : CStr),
    k ≤ (words delim s).length →
      ctokenize_rest delim k s = some ((words delim s).take k)
  | 0, s, _ => by simp [ctokenize_rest]
  | k + 1, s, h => by
    cases hw : words delim s with
    | nil => rw [hw] at h; simp at h
    | cons t ts =>
      obtain ⟨saved, h1, h2⟩ := (strtok_words delim s).2 t ts hw
      rw [hw] at h
      have ih := ctokenize_rest_words delim k saved (by rw [h2]; simpa using h)
      simp only [ctokenize_rest, h1, ih, h2, List.take_succ_cons]

/-- The number of words, counted in the two ways. -/
theorem countWords_words (delim : CStr) : ∀ s : CStr,
    countWords delim false s = (words delim s).length ∧
    (∀ c, delim.contains c = false →
      countWords delim true s + 1 = (words delim (c :: s)).length)
  | [] => by
    refine ⟨rfl, fun c hc => ?_⟩
    simp only [countWords, words, hc, Bool.false_eq_true, if_false, List.length_cons,
      List.length_nil]
  | x :: s => by
    obtain ⟨ih1, ih2⟩ := countWords_words delim s
    cases hx : delim.contains x
    · refine ⟨?_, ?_⟩
      · have := ih2 x hx
        simp only [countWords, hx, Bool.false_eq_true, if_false]
        omega
      · intro c hc
        have h2 := ih2 x hx
        have e : words delim (c :: x :: s) =
            (match words delim (x :: s) with
             | w :: ws => (c :: w) :: ws
             | [] => [[c]]) := by
          conv_lhs => unfold words
          simp only [hc, Bool.false_eq_true, if_false, hx]
        rw [e]
        simp only [countWords, hx, Bool.false_eq_true, if_false, if_true, zero_add]
        cases hw : words delim (x :: s) with
        | nil => rw [hw] at h2; simp at h2
        | cons w ws => rw [hw] at h2; simpa using h2
    · refine ⟨?_, ?_⟩
      · simp only [countWords, hx, if_true, words, ih1]
      · intro c hc
        have e : words delim (c :: x :: s) = [c] :: words delim (x :: s) := by
          conv_lhs => unfold words
          simp only [hc, Bool.false_eq_true, if_false, hx, if_true]
        rw [e]
        simp only [countWords, hx, if_true, List.length_cons, words, ih1]

/-- The words are non-empty, free of delimiters and made of characters of
the string. -/
theorem words_mem (delim : CStr) : ∀ (n : Nat) (s : CStr), s.length ≤ n →
    ∀ t ∈ words delim s, t ≠ [] ∧ (∀ x ∈ t, delim.contains x = false) ∧ (∀ x ∈ t, x ∈ s)
  | _, [], _ => by simp [words]
  | 0, c :: s, h => by simp at h
  | n + 1, c :: s, h => by
    have hlen : s.length ≤ n := by simpa using h
    cases hc : delim.contains c
    · rw [words_cons_nondelim delim s c hc]
      intro t ht
      rcases List.mem_cons.mp ht with rfl | ht
      · refine ⟨by simp, ?_, ?_⟩
        · intro x hx
          rcases List.mem_cons.mp hx with rfl | hx
          · exact hc
          · have := List.mem_takeWhile_imp hx
            simpa using this
        · intro x hx
          rcases List.mem_cons.mp hx with rfl | hx
          · exact List.mem_cons_self _ _
          · exact List.mem_cons_of_mem _ ((List.takeWhile_sublist _).subset hx)
      · have hl : ((s.dropWhile (fun x => !delim.contains x)).drop 1).length ≤ n := by
          have := (List.dropWhile_sublist (fun x => !delim.contains x) (l := s)).length_le
          simp only [List.length_drop]
          omega
        obtain ⟨g1, g2, g3⟩ := words_mem delim n _ hl t ht
        refine ⟨g1, g2, fun x hx => List.mem_cons_of_mem _ ?_⟩
        exact (List.dropWhile_sublist _).subset (List.mem_of_mem_drop (g3 x hx))
    · simp only [words, hc, if_true]
      intro t ht
      obtain ⟨g1, g2, g3⟩ := words_mem delim n s hlen t ht
      exact ⟨g1, g2, fun x hx => List.mem_cons_of_mem _ (g3 x hx)⟩

/-- The words of a string that goes on after a non-delimiter: the character
joins the first word of what follows. -/
theorem words_cons_cons (delim : CStr) (c x : Char) (s : CStr)
    (hc : delim.contains c = false) (hx : delim.contains x = false) :
    ∃ w ws, words delim (x :: s) = w :: ws ∧ words delim (c :: x :: s) = (c :: w) :: ws := by
  rw [words_cons_nondelim delim s x hx]
  refine ⟨_, _, rfl, ?_⟩
  have e := words_cons_nondelim delim s x hx
  conv_lhs => unfold words
  simp only [hc, Bool.false_eq_true, if_false, hx, e]

theorem words_cons_delim (delim : CStr) (c x : Char) (s : CStr)
    (hc : delim.contains c = false) (hx : delim.contains x = true) :
    words delim (c :: x :: s) = [c] :: words delim s := by
  conv_lhs => unfold words
  simp only [hc, Bool.false_eq_true, if_false, hx, if_true]
  simp only [words, hx, if_true]

theorem words_single (delim : CStr) (c : Char) (hc : delim.contains c = false) :
    words delim [c] = [[c]] := by
  simp only [words, hc, Bool.false_eq_true, if_false]

theorem words_cons_of_delim (delim : CStr) (c : Char) (s : CStr)
    (hc : delim.contains c = true) : words delim (c :: s) = words delim s := by
  simp only [words, hc, if_true]

theorem lastIsDelim_single (delim : CStr) (b : Bool) (c : Char) :
    lastIsDelim delim b [c] = delim.contains c := by
  simp only [lastIsDelim, List.getLast?_singleton]

/-- A string whose last character is not a delimiter holds a word. -/
theorem words_ne_nil_of_last (delim : CStr) : ∀ (w : CStr) (b : Bool),
    w ≠ [] → lastIsDelim delim b w = false → words delim w ≠ []
  | [], _, h, _ => absurd rfl h
  | [c], b, _, hl => by
    rw [lastIsDelim_single] at hl
    rw [words_single delim c hl]
    exact List.cons_ne_nil _ _
  | c :: x :: s, b, _, hl => by
    rw [lastIsDelim_cons] at hl
    have ih := words_ne_nil_of_last delim (x :: s) _ (List.cons_ne_nil _ _) hl
    cases hc : delim.contains c
    · cases hx : delim.contains x
      · obtain ⟨w, ws, _, e⟩ := words_cons_cons delim c x s hc hx
        rw [e]; exact List.cons_ne_nil _ _
      · rw [words_cons_delim delim c x s hc hx]; exact List.cons_ne_nil _ _
    · rw [words_cons_of_delim delim c _ hc]
      exact ih

/-- The words of a string followed by one more non-delimiter character: a
new word after a delimiter (or at the start), else the last word made one
character longer. -/
theorem words_snoc (delim : CStr) (n : Char) (hn : delim.contains n = false) :
    ∀ w : CStr, words delim (w ++ [n]) =
      if lastIsDelim delim true w then words delim w ++ [[n]]
      else (words delim w).dropLast ++ [((words delim w).getLast?.getD []) ++ [n]]
  | [] => by
    have e : lastIsDelim delim true [] = true := rfl
    rw [List.nil_append, words_single delim n hn, e]
    rfl
  | [c] => by
    rw [lastIsDelim_single]
    cases hc : delim.contains c
    · obtain ⟨w, ws, e1, e2⟩ := words_cons_cons delim c n [] hc hn
      rw [words_single delim n hn] at e1
      simp only [List.cons.injEq] at e1
      obtain ⟨rfl, rfl⟩ := e1
      simp only [List.singleton_append, e2, words_single delim c hc, Bool.false_eq_true,
        if_false, List.dropLast_single, List.getLast?_singleton, Option.getD_some,
        List.nil_append]
    · rw [List.singleton_append, words_cons_of_delim delim c [n] hc, words_single delim n hn,
        words_cons_of_delim delim c [] hc]
      rfl
  | c :: x :: s => by
    have ih := words_snoc delim n hn (x :: s)
    have hl : ∀ b, lastIsDelim delim b (c :: x :: s) = lastIsDelim delim true (x :: s) := by
      intro b
      rw [lastIsDelim_cons, lastIsDelim_cons, lastIsDelim_cons]
    rw [hl]
    simp only [List.cons_append] at ih ⊢
    cases hc : delim.contains c
    · cases hx : delim.contains x
      · obtain ⟨w, ws, e1, e2⟩ := words_cons_cons delim c x s hc hx
        obtain ⟨w', ws', e1', e2'⟩ := words_cons_cons delim c x (s ++ [n]) hc hx
        rw [e2, e2']
        rw [e1, e1'] at ih
        cases hL : lastIsDelim delim true (x :: s)
        · simp only [hL, Bool.false_eq_true, if_false] at ih ⊢
          cases ws with
          | nil =>
            simp only [List.dropLast_single, List.getLast?_singleton, Option.getD_some,
              List.nil_append, List.cons.injEq] at ih ⊢
            obtain ⟨h1, h2⟩ := ih
            subst h1 h2
            simp
          | cons w2 ws2 =>
            simp only [List.dropLast_cons₂, List.getLast?_cons_cons, List.cons_append,
              List.cons.injEq] at ih ⊢
            obtain ⟨h1, h2⟩ := ih
            subst h1 h2
            simp
        · simp only [hL, if_true, List.cons_append, List.cons.injEq] at ih ⊢
          obtain ⟨h1, h2⟩ := ih
          subst h1 h2
          simp
      · rw [words_cons_delim delim c x s hc hx, words_cons_delim delim c x (s ++ [n]) hc hx]
        rw [words_cons_of_delim delim x _ hx, words_cons_of_delim delim x _ hx] at ih
        rw [ih]
        cases hL : lastIsDelim delim true (x :: s)
        · simp only [Bool.false_eq_true, if_false]
          have hne : words delim s ≠ [] := by
            have := words_ne_nil_of_last delim (x :: s) true (List.cons_ne_nil _ _) hL
            rwa [words_cons_of_delim delim x _ hx] at this
          cases hw : words delim s with
          | nil => exact absurd hw hne
          | cons w2 ws2 =>
            simp only [List.dropLast_cons₂, List.getLast?_cons_cons, List.cons_append]
        · simp only [if_true, List.cons_append]
    · rw [words_cons_of_delim delim c _ hc, words_cons_of_delim delim c _ hc]
      exact ih

/-- Counting theorem of `ctoken_counter` for a line that ends with a
newline: the result is the number of words of the line without it. -/
theorem ctoken_counter_newline (delim w : CStr) (hw : w ≠ [])
    (hd : delim.contains '\n' = false) :
    ctoken_counter (w ++ ['\n']) delim = some ((words delim w).length : Int) := by
  obtain ⟨c, hc⟩ : ∃ c, w.getLast? = some c := by
    cases h : w.getLast? with
    | none => exact absurd (List.getLast?_eq_none_iff.mp h) hw
    | some c => exact ⟨c, rfl⟩
  have hpos : 0 < w.length := List.length_pos.mpr hw
  have hne : w ++ ['\n'] ≠ [] := by simp
  have hlast : (w ++ ['\n']).getLast? = some '\n' := by simp
  have hdrop : (w ++ ['\n']).drop (w.length - 1) = [c, '\n'] := by
    rw [List.drop_append_of_le_length (by omega), drop_length_sub_one_of_getLast? w c hc]
    rfl
  have hruns := (words_runs delim (w ++ ['\n'])).2
  have hl : lastIsDelim delim true (w ++ ['\n']) = false := by
    simp only [lastIsDelim, hlast, hd]
  rw [hl, delimRuns_skip, (countWords_words delim _).1, words_snoc delim '\n' hd w] at hruns
  have hL : lastIsDelim delim true w = delim.contains c := by
    simp only [lastIsDelim, hc]
  rw [hL] at hruns
  have hpb : (strpbrk [c, '\n'] delim).isSome = delim.contains c := by
    cases h : delim.contains c
    · simp only [strpbrk, h, Bool.false_eq_true, if_false, hd, Option.isSome_none]
    · simp only [strpbrk, h, if_true, Option.isSome_some]
  unfold ctoken_counter
  simp only [hne, if_false, hlast, if_true]
  rw [ctoken_loop_eq delim _ _ 0 (by
    have := length_drop_skip_delim delim (w ++ ['\n']); omega)]
  have hoff : strcnt (w ++ ['\n']) - 1 - 1 = ((w.length - 1 : Nat) : Int) := by
    unfold strcnt
    simp only [List.length_append, List.length_singleton]
    omega
  simp only [hoff, Int.toNat_ofNat, hdrop, hpb]
  have : ¬ (((w.length - 1 : Nat) : Int) < 0) := by omega
  simp only [this, if_false]
  cases hcd : delim.contains c
  · simp only [hcd, Bool.false_eq_true, if_false, Bool.toNat_false] at hruns ⊢
    have hwn : words delim w ≠ [] := words_ne_nil_of_last delim w true hw (by rw [hL, hcd])
    have hlen : ((words delim w).dropLast ++
        [((words delim w).getLast?.getD []) ++ ['\n']]).length = (words delim w).length := by
      have := List.length_pos.mpr hwn
      simp only [List.length_append, List.length_dropLast, List.length_singleton]
      omega
    rw [hlen] at hruns
    congr 1
    omega
  · simp only [hcd, if_true, Bool.toNat_false, List.length_append, List.length_singleton]
      at hruns ⊢
    congr 1
    omega

/-- The closing step of `ctokenize` on tokens without newline. -/
theorem strip_last_of_not_mem (toks : List CStr) (hne : toks ≠ [])
    (h : ∀ t ∈ toks, t ≠ [] ∧ '\n' ∉ t) : strip_last toks = some toks := by
  cases hl : toks.getLast? with
  | none => exact absurd (List.getLast?_eq_none_iff.mp hl) hne
  | some last =>
    have hm : last ∈ toks := List.mem_of_getLast?_eq_some hl
    simp only [strip_last, hl, strip_newline_of_not_mem (h last hm).1 (h last hm).2,
      List.dropLast_append_getLast? _ hl]

/-- The closing step of `ctokenize` on a last token that ends with the
newline. -/
theorem strip_last_snoc (dl : List CStr) (l : CStr) :
    strip_last (dl ++ [l ++ ['\n']]) = some (dl ++ [l]) := by
  simp [strip_last, strip_newline]

/-- The function `ctokenize` once the count is known to be the number of
words `ws` of the line without its newline, and the first tokens copied
from the string to be `toks`. -/
theorem ctokenize_of_count (delim s : CStr) (ws toks : List CStr)
    (hcount : ctoken_counter s delim = some (ws.length : Int))
    (hrest : ws ≠ [] → ctokenize_rest delim ws.length s = some toks)
    (hstrip : ws ≠ [] → strip_last toks = some ws) :
    ctokenize s delim = some (if ws = [] then none else some ws) := by
  by_cases hws : ws = []
  · subst hws
    simp only [ctokenize, hcount, List.length_nil, Nat.cast_zero, if_true]
  · have hpos : ¬ ((ws.length : Int) = 0) := by
      have := List.length_pos.mpr hws
      omega
    simp only [ctokenize, hcount, hpos, if_false, Int.toNat_ofNat, hrest hws, hstrip hws,
      hws]

/-- C27 (amended): for every non-empty string other than the single newline
in which a newline occurs only as the last character, and every delimiter
set without newline, `ctoken_counter` returns the number of words (maximal
runs of non-delimiter characters) of the string without its terminating
newline, and `ctokenize` returns exactly those words, in order (NULL when
there is none); each token is non-empty and free of delimiters. -/
theorem ctokenize_line (delim s : CStr) (hne : s ≠ []) (hsingle : s ≠ ['\n'])
    (hd : delim.contains '\n' = false) (hbody : '\n' ∉ lineBody s) :
    ctoken_counter s delim = some ((words delim (lineBody s)).length : Int) ∧
    ctokenize s delim =
      some (if words delim (lineBody s) = [] then none
            else some (words delim (lineBody s))) ∧
    (∀ t ∈ words delim (lineBody s), t ≠ [] ∧ ∀ x ∈ t, delim.contains x = false) := by
  have hmem := words_mem delim (lineBody s).length (lineBody s) (le_refl _)
  have hnonl : ∀ t ∈ words delim (lineBody s), t ≠ [] ∧ '\n' ∉ t :=
    fun t ht => ⟨(hmem t ht).1, fun hx => hbody ((hmem t ht).2.2 _ hx)⟩
  refine ⟨?_, ?_, fun t ht => ⟨(hmem t ht).1, (hmem t ht).2.1⟩⟩
  · by_cases hl : s.getLast? = some '\n'
    · have hs : s = s.dropLast ++ ['\n'] := (List.dropLast_append_getLast? _ hl).symm
      have hw : s.dropLast ≠ [] := by
        intro e; rw [e] at hs; exact hsingle hs
      have hb : lineBody s = s.dropLast := by simp only [lineBody, hl, if_true]
      rw [hb]
      conv_lhs => rw [hs]
      exact ctoken_counter_newline delim _ hw hd
    · have hb : lineBody s = s := by simp only [lineBody, hl, if_false]
      rw [hb, ctoken_counter_eq delim s hne hl, (countWords_words delim s).1]
  · by_cases hl : s.getLast? = some '\n'
    · have hs : s = s.dropLast ++ ['\n'] := (List.dropLast_append_getLast? _ hl).symm
      have hw : s.dropLast ≠ [] := by
        intro e; rw [e] at hs; exact hsingle hs
      have hb : lineBody s = s.dropLast := by simp only [lineBody, hl, if_true]
      rw [hb] at hnonl ⊢
      generalize s.dropLast = w at hs hw hnonl
      subst hs
      have hsn := words_snoc delim '\n' hd w
      cases hL : lastIsDelim delim true w
      · -- the newline follows a word
        rw [hL] at hsn
        simp only [Bool.false_eq_true, if_false] at hsn
        have hwn : words delim w ≠ [] := words_ne_nil_of_last delim w true hw hL
        obtain ⟨l, hlast⟩ : ∃ l, (words delim w).getLast? = some l := by
          cases h : (words delim w).getLast? with
          | none => exact absurd (List.getLast?_eq_none_iff.mp h) hwn
          | some l => exact ⟨l, rfl⟩
        rw [hlast] at hsn
        simp only [Option.getD_some] at hsn
        have hlen : (words delim (w ++ ['\n'])).length = (words delim w).length := by
          have := List.length_pos.mpr hwn
          rw [hsn]
          simp only [List.length_append, List.length_dropLast, List.length_singleton]
          omega
        refine ctokenize_of_count delim _ _ (words delim (w ++ ['\n']))
          (ctoken_counter_newline delim w hw hd) (fun _ => ?_) (fun _ => ?_)
        · rw [ctokenize_rest_words delim _ _ (by omega), ← hlen, List.take_length]
        · rw [hsn, strip_last_snoc, List.dropLast_append_getLast? _ hlast]
      · -- the newline follows a delimiter
        rw [hL] at hsn
        simp only [if_true] at hsn
        refine ctokenize_of_count delim _ _ (words delim w)
          (ctoken_counter_newline delim w hw hd) (fun _ => ?_) (fun hwn => ?_)
        · rw [ctokenize_rest_words delim _ _ (by rw [hsn]; simp), hsn,
            List.take_left' rfl]
        · exact strip_last_of_not_mem _ hwn hnonl
    · have hb : lineBody s = s := by simp only [lineBody, hl, if_false]
      rw [hb] at hnonl ⊢
      refine ctokenize_of_count delim _ _ (words delim s) ?_ (fun _ => ?_) (fun hwn => ?_)
      · rw [ctoken_counter_eq delim s hne hl, (countWords_words delim s).1]
      · rw [ctokenize_rest_words delim _ _ (le_refl _), List.take_length]
      · exact strip_last_of_not_mem _ hwn hnonl

theorem ctokenize_line_witness :
    ctoken_counter ['l', 's', ' ', '-', 'l', ' ', '\n'] [' '] =
      some ((words [' '] (lineBody ['l', 's', ' ', '-', 'l', ' ', '\n'])).length : Int) ∧
    ctokenize ['l', 's', ' ', '-', 'l', ' ', '\n'] [' '] =
      some (if words [' '] (lineBody ['l', 's', ' ', '-', 'l', ' ', '\n']) = [] then none
            else some (words [' '] (lineBody ['l', 's', ' ', '-', 'l', ' ', '\n']))) ∧
    (∀ t ∈ words [' '] (lineBody ['l', 's', ' ', '-', 'l', ' ', '\n']),
      t ≠ [] ∧ ∀ x ∈ t, [' '].contains x = false) :=
  ctokenize_line [' '] ['l', 's', ' ', '-', 'l', ' ', '\n'] (by decide) (by decide)
    (by decide) (by decide)

/-! ## The stages passed to pipe_chain_r -/

/-- What `handle_cmd_line` does once the call of `pipe_chain_r` is reached:
it returns -1 or `NOSP` after the value of that call. -/
theorem handle_cmd_line_of_call (sh : Shell) (cmd_line : CStr) (os : OS) (c : ChainCall)
    (h : pipe_chain_r_call sh cmd_line os.pg_errno = some c) :
    handle_cmd_line sh cmd_line os =
      (match pipe_chain_r sh.env (some c.commands) c.n c.input c.output sh.openIn sh.openOut
          { os with pg_errno := c.pg_errno } with
       | (Outcome.ret v, os1) =>
         if v = -1 then (CmdEnd.ret (-1), os1) else (CmdEnd.ret NOSP, os1)
       | (Outcome.exit c, os1) => (CmdEnd.exit c, os1)
       | (Outcome.undef, os1) => (CmdEnd.undef, os1)) := by
  unfold pipe_chain_r_call at h
  unfold handle_cmd_line
  cases hcnt : ctoken_counter cmd_line ['|'] with
  | none => rw [hcnt] at h; cases h
  | some cnt =>
    rw [hcnt] at h
    simp only at h ⊢
    by_cases hc : cnt > 1
    · simp only [hc, if_true] at h ⊢
      cases htok : ctokenize cmd_line ['|'] with
      | none => rw [htok] at h; cases h
      | some tk =>
        cases tk with
        | none => rw [htok] at h; cases h
        | some pipe_tokens =>
          rw [htok] at h
          simp only at h ⊢
          cases hres : resolve_pipeline pipe_tokens cnt os.pg_errno with
          | none => rw [hres] at h; cases h
          | some r =>
            cases r with
            | fail e l => rw [hres] at h; cases h
            | ok input output app pipe_tokens1 e l =>
              rw [hres] at h
              simp only at h ⊢
              cases hts : tokenize_stages pipe_tokens1 with
              | none => rw [hts] at h; cases h
              | some stages =>
                rw [hts] at h
                match stages, h with
                | [], h => cases h
                | none :: _, h => cases h
                | some [] :: _, h => cases h
                | some (cmd :: args) :: rest, h =>
                  simp only at h ⊢
                  cases hsw : special_switch sh.dir (cmd :: args) e with
                  | mk v e1 =>
                    rw [hsw] at h
                    cases v with
                    | some v => cases h
                    | none =>
                      simp only [Option.some.injEq] at h
                      subst h
                      rfl
    · simp only [hc, if_false] at h
      cases h

/-- C21 (as the code behaves): on the command line `ls |` followed by three
blanks `handle_cmd_line` reaches the call of `pipe_chain_r` with two stages,
the second of which is NULL: `ctokenize` returns NULL for a stage string
without a word and nothing checks it.  `pipe_chain` then forks a process for
that stage.  The single-command path does reject a command line without a
word: three blanks alone make `handle_cmd_line` return -1 without a
fork. -/
theorem handle_cmd_line_null_stage :
    pipe_chain_r_call shellOk lineBlankStage ErrorType.EOK =
      some ⟨[some [['l', 's']], none], 2, none, none, ErrorType.EOK⟩ ∧
    forksOf (handle_cmd_line shellOk lineBlankStage os0).2.trace = [(0, 0, 4), (1, 3, 1)] ∧
    (handle_cmd_line shellOk lineBlank os0).1 = CmdEnd.ret (-1) ∧
    (handle_cmd_line shellOk lineBlank os0).2.trace = [] := by
  decide

end Pgsh
